import Mathlib

/-!
# Verification of the `pdf-to-xlsx` extraction engine

Shallow embedding of the text-to-field extraction code in
`src/app/api/extract/route.ts` and `src/lib/parsers.ts`.

Conventions of the embedding:

* JavaScript strings are modelled as `List Char` of Unicode code points
  (every concrete input in this development lies in the BMP, so UTF-16
  index arithmetic coincides with code-point index arithmetic).
* Each JavaScript regular expression used by the source is compiled by
  hand into a deterministic scanner that reproduces the leftmost-match /
  global-replace semantics of the engine.  Each scanner carries a doc
  comment quoting the exact source regex it implements.
* `String.prototype.normalize("NFC")` (a JS built-in, not repository
  code) is modelled as the identity on the embedded code-point
  sequences; the idempotence theorem for the page normalizer treats the
  NFC stage as an abstract function constrained by the Unicode-standard
  facts it enjoys (see the C9 theorem).
* Recursions that consume a data-dependent number of characters use an
  explicit fuel argument; the public wrappers instantiate the fuel with
  the length of the list, which is always sufficient because every
  recursive call consumes at least one character.
-/

/-! ## Character classes -/

/-- The character set matched by JavaScript `\s` (WhiteSpace ∪ LineTerminator). -/
def jsWs (c : Char) : Bool :=
  c == ' ' || c == '\t' || c == '\n' || c == '\x0b' || c == '\x0c' ||
  c == '\r' || c == ' ' || c == ' ' ||
  (decide (' ' ≤ c) && decide (c ≤ ' ')) ||
  c == ' ' || c == ' ' || c == ' ' || c == ' ' ||
  c == '　' || c == '﻿'

/-- The class `[ \t]`. -/
def isHT (c : Char) : Bool := c == ' ' || c == '\t'

/-- JavaScript word character for `\b`: `[A-Za-z0-9_]`. -/
def isWordC (c : Char) : Bool := c.isAlpha || c.isDigit || c == '_'

/-- The Bangla block `[ঀ-৿]`. -/
def isBangla (c : Char) : Bool :=
  decide ('ঀ' ≤ c) && decide (c ≤ '৿')

/-- Zero-width non-joiner / joiner `[‌‍]`. -/
def isZwj (c : Char) : Bool := c == '‌' || c == '‍'

/-- The punctuation class `[,.:;]` of the page normalizer. -/
def isPunctCS (c : Char) : Bool := c == ',' || c == '.' || c == ':' || c == ';'

/-- `[A-Za-z0-9]`. -/
def isAlnum (c : Char) : Bool := c.isAlpha || c.isDigit

/-- Latin or Bangla digits `[0-9০-৯]` (used by `tidyBn`). -/
def isAnyDigit (c : Char) : Bool :=
  c.isDigit || (decide ('০' ≤ c) && decide (c ≤ '৯'))

/-- Bangla dependent marks `[ঁ-ঃ়া-ৌ্]` (used by `tidyBn`). -/
def isBnMark (c : Char) : Bool :=
  (decide ('ঁ' ≤ c) && decide (c ≤ 'ঃ')) || c == '়' ||
  (decide ('া' ≤ c) && decide (c ≤ 'ৌ')) || c == '্'

/-- Zero-width and no-break junk removed by `tidyBn`:
`[​‌‍⁠﻿ ]`. -/
def isZeroWidthJunk (c : Char) : Bool :=
  c == '​' || c == '‌' || c == '‍' || c == '⁠' ||
  c == '﻿' || c == ' '

/-! ## Generic list helpers -/

/-- JavaScript `String.prototype.trim` (drops `jsWs` on both ends). -/
def trimL (l : List Char) : List Char :=
  ((l.dropWhile jsWs).reverse.dropWhile jsWs).reverse

/-- Split on literal `'\n'` (JS `split(/\n/)` / `split("\n")`). -/
def splitNl : List Char → List (List Char)
  | [] => [[]]
  | '\n' :: t => [] :: splitNl t
  | c :: t =>
    match splitNl t with
    | h :: r => (c :: h) :: r
    | [] => [[c]]

/-- JS `Array.prototype.join(", ")`. -/
def joinComma (ls : List (List Char)) : List Char :=
  (ls.intersperse [',', ' ']).flatten

/-- Case-insensitive literal match at the head of the input; returns the rest.
JS `/i` lowercases ASCII letters only, which `Char.toLower` reproduces. -/
def ciStrip : List Char → List Char → Option (List Char)
  | [], l => some l
  | _ :: _, [] => none
  | p :: ps, c :: cs => if c.toLower == p.toLower then ciStrip ps cs else none

/-- Case-insensitive equality of two character lists. -/
def ciEq : List Char → List Char → Bool
  | [], [] => true
  | a :: x, b :: y => a.toLower == b.toLower && ciEq x y
  | _, _ => false

/-- Leftmost-match driver: scan positions left to right, return the first
index where the head matcher succeeds, together with the matched length.
This is JS `RegExp.prototype.exec` for matchers that report a length. -/
def execScan (m : List Char → Option Nat) : List Char → Option (Nat × Nat)
  | [] =>
    match m [] with
    | some n => some (0, n)
    | none => none
  | c :: cs =>
    match m (c :: cs) with
    | some n => some (0, n)
    | none => (execScan m cs).map (fun p => (p.1 + 1, p.2))

/-- Words of a line: split on runs of `jsWs` and drop empties
(JS `line.split(/\s+/).filter(Boolean)`). -/
def jsWords : Nat → List Char → List (List Char)
  | 0, _ => []
  | _ + 1, [] => []
  | fuel + 1, c :: cs =>
    if jsWs c then jsWords fuel cs
    else (c :: cs.takeWhile (fun d => !jsWs d)) ::
      jsWords fuel (cs.dropWhile (fun d => !jsWs d))

/-! ## Phone matchers (`src/lib/parsers.ts`) -/

/-- `const onlyDigitsPlus = (s) => s.replace(/[^\d+]/g, "")`. -/
def onlyDigitsPlus (l : List Char) : List Char :=
  l.filter (fun c => c.isDigit || c == '+')

/-- Tail `1[3-9]\d{8}` of the strict phone regex; returns the matched chars. -/
def bdTail : List Char → Option (List Char)
  | c :: d :: rest =>
    if c == '1' && decide ('3' ≤ d) && decide (d ≤ '9') &&
        (rest.take 8).all Char.isDigit && decide (8 ≤ rest.length) then
      some (c :: d :: rest.take 8)
    else none
  | _ => none

/-- Head-anchored match of `/(?:(?:\+?880)|0)1[3-9]\d{8}/`.  The `\+?880`
alternative is tried first; when it matches the literal prefix but the tail
fails there is no fallback (the `0` alternative cannot start at `+` or `8`). -/
def bdAt (l : List Char) : Option (List Char) :=
  if l.take 4 == ['+', '8', '8', '0'] then
    (bdTail (l.drop 4)).map (fun t => l.take 4 ++ t)
  else if l.take 3 == ['8', '8', '0'] then
    (bdTail (l.drop 3)).map (fun t => l.take 3 ++ t)
  else if l.take 1 == ['0'] then
    (bdTail (l.drop 1)).map (fun t => l.take 1 ++ t)
  else none

/-- Leftmost match of the strict phone regex over a list. -/
def bdScan : List Char → Option (List Char)
  | [] => none
  | c :: cs =>
    match bdAt (c :: cs) with
    | some m => some m
    | none => bdScan cs

/-- `bdPhone` from `src/lib/parsers.ts`: strip everything but digits and `+`,
then take the first strict-regex match. -/
def bdPhone (s : String) : Option String :=
  (bdScan (onlyDigitsPlus s.data)).map (fun l => ⟨l⟩)

/-- `\s*\d` repeated `k` times (each digit may be preceded by whitespace);
returns the consumed length.  `\s*` is greedy and digits are never
whitespace, so the scan is deterministic. -/
def fuzzyDigits : Nat → List Char → Option (Nat × List Char)
  | 0, l => some (0, l)
  | k + 1, l =>
    let w := l.takeWhile jsWs
    match l.dropWhile jsWs with
    | d :: rest =>
      if d.isDigit then
        (fuzzyDigits k rest).map (fun p => (w.length + 1 + p.1, p.2))
      else none
    | [] => none

/-- Head-anchored `\+?\s*8\s*8\s*0` (first alternative of the fuzzy regex). -/
def fuzzy880 (l : List Char) : Option (Nat × List Char) :=
  let pl : Nat × List Char :=
    match l with
    | '+' :: t => (1, t)
    | _ => (0, l)
  let w1 := pl.2.takeWhile jsWs
  match pl.2.dropWhile jsWs with
  | '8' :: r1 =>
    let w2 := r1.takeWhile jsWs
    match r1.dropWhile jsWs with
    | '8' :: r2 =>
      let w3 := r2.takeWhile jsWs
      match r2.dropWhile jsWs with
      | '0' :: r3 => some (pl.1 + w1.length + 1 + w2.length + 1 + w3.length + 1, r3)
      | _ => none
    | _ => none
  | _ => none

/-- `(?:(?:\+?\s*8\s*8\s*0)|0)`: try the `880` alternative first, else `0`. -/
def fuzzyHeadAlt (l : List Char) : Option (Nat × List Char) :=
  match fuzzy880 l with
  | some r => some r
  | none =>
    match l with
    | '0' :: t => some (1, t)
    | _ => none

/-- Head-anchored match length of the fuzzy phone regex
`/(?:(?:\+?\s*8\s*8\s*0)|0)\s*1\s*[3-9]\s*\d\s*\d\s*\d\s*\d\s*\d\s*\d\s*\d\s*\d/`. -/
def fuzzyAt (l : List Char) : Option Nat :=
  match fuzzyHeadAlt l with
  | none => none
  | some (n0, r0) =>
    let w1 := r0.takeWhile jsWs
    match r0.dropWhile jsWs with
    | '1' :: r1 =>
      let w2 := r1.takeWhile jsWs
      match r1.dropWhile jsWs with
      | d :: r2 =>
        if decide ('3' ≤ d) && decide (d ≤ '9') then
          match fuzzyDigits 8 r2 with
          | some (n, _) => some (n0 + w1.length + 1 + w2.length + 1 + n)
          | none => none
        else none
      | [] => none
    | _ => none

/-- `findFuzzyPhoneSpan` on lists: leftmost fuzzy match, normalized through
`bdPhone` applied to the matched slice; `none` when either fails. -/
def fuzzySpanL (l : List Char) : Option (List Char × Nat × Nat) :=
  match execScan fuzzyAt l with
  | none => none
  | some (i, n) =>
    match bdScan (onlyDigitsPlus ((l.drop i).take n)) with
    | some norm => some (norm, i, n)
    | none => none

/-- `PhoneSpan` as in the source: normalized number, start index, length. -/
structure PhoneSpan where
  normalized : String
  index : Nat
  length : Nat
deriving DecidableEq, Repr

/-- `findFuzzyPhoneSpan` from `src/lib/parsers.ts`. -/
def findFuzzyPhoneSpan (s : String) : Option PhoneSpan :=
  (fuzzySpanL s.data).map (fun p => ⟨⟨p.1⟩, p.2.1, p.2.2⟩)

/-! ## "Invoice To" markers and field markers -/

/-- Head-anchored match length of the splitter regex
`/Invoice\s*To\s*[:\-]?|InvoiceTo\s*[:\-]?/i` (the second alternative is
subsumed by the first, whose `\s*` may be empty). -/
def markerAt (l : List Char) : Option Nat :=
  match ciStrip "invoice".data l with
  | none => none
  | some r1 =>
    let w1 := r1.takeWhile jsWs
    match ciStrip "to".data (r1.dropWhile jsWs) with
    | none => none
    | some r2 =>
      let w2 := r2.takeWhile jsWs
      let colon : Nat :=
        match r2.dropWhile jsWs with
        | c :: _ => if c == ':' || c == '-' then 1 else 0
        | [] => 0
      some (7 + w1.length + 2 + w2.length + colon)

/-- Head-anchored match length of the primary parser anchor
`/invoice\s*to\s*[:\-]?\s*/i` (the splitter marker followed by one more
greedy `\s*`). -/
def markerFullAt (l : List Char) : Option Nat :=
  (markerAt l).map (fun n => n + ((l.drop n).takeWhile jsWs).length)

/-- JS `String.prototype.split` on the splitter regex: cut at every
leftmost non-overlapping match, dropping the matched text. -/
def splitMarker : Nat → List Char → List (List Char)
  | 0, l => [l]
  | fuel + 1, l =>
    match execScan markerAt l with
    | none => [l]
    | some (i, n) => l.take i :: splitMarker fuel (l.drop (i + n))

/-- Match the word chunks of one `FIELD_MARKERS` alternative, consecutive
chunks separated by greedy `\s*`; returns the rest after the last chunk. -/
def wordsCi : List (List Char) → List Char → Option (List Char)
  | [], l => some l
  | [w], l => ciStrip w l
  | w :: ws, l =>
    match ciStrip w l with
    | none => none
    | some r => wordsCi ws (r.dropWhile jsWs)

/-- The alternatives of `FIELD_MARKERS` in `src/lib/parsers.ts`:
`(Order\s*ID|Date\s*Added|Payment\s*Method|Shipping\s*Method|City\s*Courier|Product|Quantity|Unit\s*Price|Sub\s*Total|Total|Authorized\s*Signature|BD\s*Apple)/i`. -/
def fieldMarkers : List (List (List Char)) :=
  [["order".data, "id".data], ["date".data, "added".data],
   ["payment".data, "method".data], ["shipping".data, "method".data],
   ["city".data, "courier".data], ["product".data], ["quantity".data],
   ["unit".data, "price".data], ["sub".data, "total".data], ["total".data],
   ["authorized".data, "signature".data], ["bd".data, "apple".data]]

/-- Does some `FIELD_MARKERS` alternative match at the head? -/
def fieldMarkerHere (l : List Char) : Bool :=
  fieldMarkers.any (fun alt => (wordsCi alt l).isSome)

/-- Index of the leftmost `FIELD_MARKERS` match (`FIELD_MARKERS.exec(s).index`);
only the index is ever used by the source. -/
def findFieldMarker : List Char → Option Nat
  | [] => none
  | c :: cs =>
    if fieldMarkerHere (c :: cs) then some 0
    else (findFieldMarker cs).map (· + 1)

/-! ## Name/field heuristics (`src/lib/parsers.ts`) -/

/-- One word of `looksLikeName`:
`/^[A-Za-zঀ-৿][A-Za-zঀ-৿.\-'‌‍]*$/u`. -/
def nameWord : List Char → Bool
  | [] => false
  | c :: cs =>
    (c.isAlpha || isBangla c) &&
      cs.all (fun d => d.isAlpha || isBangla d || d == '.' || d == '-' ||
        d == '\x27' || isZwj d)

/-- `looksLikeName` from `src/lib/parsers.ts`: nonempty, no ASCII digit,
1–6 whitespace-separated words, each matching `nameWord`. -/
def looksLikeName (l : List Char) : Bool :=
  !l.isEmpty && !l.any Char.isDigit &&
    (let ws := jsWords l.length l
     decide (1 ≤ ws.length) && decide (ws.length ≤ 6) && ws.all nameWord)

/-- The alternatives of `looksLikeNewField`
(`\b(Name|Phone|Mobile|Tel|Email|Address|City|Country|Order|Invoice|Bill To|Ship To|Payment|Shipping)\b/i`). -/
def newFieldAlts : List (List Char) :=
  ["name".data, "phone".data, "mobile".data, "tel".data, "email".data,
   "address".data, "city".data, "country".data, "order".data, "invoice".data,
   "bill to".data, "ship to".data, "payment".data, "shipping".data]

/-- Some `looksLikeNewField` alternative matches at the head with a word
boundary after it. -/
def newFieldHere (l : List Char) : Bool :=
  newFieldAlts.any (fun a =>
    match ciStrip a l with
    | some [] => true
    | some (c :: _) => !isWordC c
    | none => false)

/-- Scan for a `looksLikeNewField` match; the flag records whether the
previous character is a word character (for the leading `\b`). -/
def nfScan : Bool → List Char → Bool
  | _, [] => false
  | prevW, c :: cs => (!prevW && newFieldHere (c :: cs)) || nfScan (isWordC c) cs

/-- `looksLikeNewField` from `src/lib/parsers.ts`. -/
def looksLikeNewField (l : List Char) : Bool := nfScan false l

/-- Head-anchored match of `Name\s*[:\-]\s*(.+)$` (after the `\b`), returning
the raw text after the colon/dash; the regex requires at least one character
there (`.+` on a line holds everything up to the end). -/
def nameLabelAt (l : List Char) : Option (List Char) :=
  match ciStrip "name".data l with
  | none => none
  | some r =>
    match r.dropWhile jsWs with
    | c :: rest =>
      if c == ':' || c == '-' then if rest.isEmpty then none else some rest
      else none
    | [] => none

/-- Leftmost `\bName\s*[:\-]\s*(.+)$/i` match on a line; returns the text
after the colon (the caller trims it, which equals `m[1].trim()`). -/
def scanNameLabel : Bool → List Char → Option (List Char)
  | _, [] => none
  | prevW, c :: cs =>
    match (if prevW then none else nameLabelAt (c :: cs)) with
    | some v => some v
    | none => scanNameLabel (isWordC c) cs

/-- Head-anchored match of `Address\b\s*[:\-]\s*(.+)$` (after the leading
`\b`), returning `m[1]`: the rest after the greedy `\s*`, except that when
everything after the colon is whitespace the engine backtracks and captures
the last whitespace character. -/
def addrLabelAt (l : List Char) : Option (List Char) :=
  match ciStrip "address".data l with
  | none => none
  | some r =>
    let bOk : Bool :=
      match r with
      | [] => true
      | c :: _ => !isWordC c
    if !bOk then none
    else
      match r.dropWhile jsWs with
      | c :: rest =>
        if c == ':' || c == '-' then
          if rest.isEmpty then none
          else if (rest.dropWhile jsWs).isEmpty then some (rest.reverse.take 1)
          else some (rest.dropWhile jsWs)
        else none
      | [] => none

/-- Leftmost `\bAddress\b\s*[:\-]\s*(.+)$/i` match on a line. -/
def scanAddrLabel : Bool → List Char → Option (List Char)
  | _, [] => none
  | prevW, c :: cs =>
    match (if prevW then none else addrLabelAt (c :: cs)) with
    | some v => some v
    | none => scanAddrLabel (isWordC c) cs

/-! ## Small replace helpers of the parsers -/

/-- `name.replace(/^name\s*[:\-]\s*/i, "")` (anchored, at most one hit). -/
def stripNameLabel (l : List Char) : List Char :=
  match ciStrip "name".data l with
  | some r =>
    (match r.dropWhile jsWs with
     | c :: rest =>
       if c == ':' || c == '-' then rest.dropWhile jsWs else l
     | [] => l)
  | none => l

/-- `address.replace(/^address\s*[:\-]\s*/i, "")` (anchored, one hit). -/
def stripAddrLabel (l : List Char) : List Char :=
  match ciStrip "address".data l with
  | some r =>
    (match r.dropWhile jsWs with
     | c :: rest =>
       if c == ':' || c == '-' then rest.dropWhile jsWs else l
     | [] => l)
  | none => l

/-- `after.replace(/^(,|:|-)\s*/g, "")`: without the `m` flag the anchored
pattern fires at most once, at the very start. -/
def stripLeadPunct (l : List Char) : List Char :=
  match l with
  | c :: cs => if c == ',' || c == ':' || c == '-' then cs.dropWhile jsWs else l
  | [] => l

/-- `.replace(/\s{2,}/g, " ")`: every run of two or more `\s` characters
becomes a single space; isolated whitespace characters are untouched. -/
def collapseWs2 : Nat → List Char → List Char
  | 0, l => l
  | _ + 1, [] => []
  | fuel + 1, c :: cs =>
    if jsWs c then
      match cs with
      | d :: _ =>
        if jsWs d then ' ' :: collapseWs2 fuel (cs.dropWhile jsWs)
        else c :: collapseWs2 fuel cs
      | [] => [c]
    else c :: collapseWs2 fuel cs

/-! ## The primary parser (`parseInvoiceToBlock`) -/

/-- `ParsedFields`: result of either parser stage.  JS `{}`, `null` and
`undefined` are all `none`; empty strings are `some ""` (falsy in the
route's truthiness tests, see `tv`). -/
structure Fields where
  name : Option String
  phone : Option String
  address : Option String
deriving DecidableEq, Repr

/-- JS truthiness of an optional string (`null`/`undefined`/`""` are falsy). -/
def tv : Option String → Bool
  | none => false
  | some s => !s.isEmpty

/-- `parseInvoiceToBlock` from `src/lib/parsers.ts`. -/
def parseInvoiceToBlock (text : String) : Fields :=
  let cleaned := text.data.filter (fun c => !(c == '\r'))
  match execScan markerFullAt cleaned with
  -- fail fast: no marker, let the caller fall back

  | none => ⟨none, none, none⟩
  | some (i, n) =>
    let afterTo := trimL (cleaned.drop (i + n))
    let head := trimL (match findFieldMarker afterTo with
      | some ci => afterTo.take ci
      | none => afterTo)
    match fuzzySpanL head with
    | some (norm, si, sl) =>
      let before := trimL (head.take si)
      let after := trimL (head.drop (si + sl))
      let nameLine := trimL ((splitNl before).headD [])
      let name0 : Option (List Char) :=
        if !nameLine.isEmpty then some nameLine
        else if looksLikeName before then some before else none
      let name1 := name0.map (fun nm => trimL (stripNameLabel nm))
      let a0 := trimL (stripAddrLabel (stripLeadPunct after))
      let a1 := if a0.isEmpty then a0 else trimL (collapseWs2 a0.length a0)
      ⟨name1.map (fun nm => ⟨nm⟩), some ⟨norm⟩, some ⟨a1⟩⟩
    | none =>
      let ls := ((splitNl head).map trimL).filter (fun x => !x.isEmpty)
      match ls with
      | [] => ⟨none, none, none⟩
      | first :: rest =>
        let name1 := trimL (stripNameLabel first)
        let a0 := trimL (joinComma rest)
        let addr : Option String :=
          if a0.isEmpty then none
          else some ⟨trimL (collapseWs2 a0.length a0)⟩
        ⟨some ⟨name1⟩, none, addr⟩

/-! ## The fallback parser (`fallbackParse`) -/

/-- The `Name:` label pass of `fallbackParse`: first line whose leftmost
label match has nonempty trimmed value. -/
def nameFromLabel : List (List Char) → Option (List Char)
  | [] => none
  | l :: ls =>
    match scanNameLabel false l with
    | some v => if (trimL v).isEmpty then nameFromLabel ls else some (trimL v)
    | none => nameFromLabel ls

/-- Lines following an `Address:` label, up to (excluding) the first line
that `looksLikeNewField`. -/
def takeUntilField : List (List Char) → List (List Char)
  | [] => []
  | l :: ls => if looksLikeNewField l then [] else l :: takeUntilField ls

/-- The `Address:` label pass of `fallbackParse`: on the first line with a
label match, join the capture with the following lines. -/
def addrFromLabel : List (List Char) → Option (List Char)
  | [] => none
  | l :: ls =>
    match scanAddrLabel false l with
    | some m1 => some (trimL (joinComma (m1 :: takeUntilField ls)))
    | none => addrFromLabel ls

/-- `text.replace(/\r/g, "")`, the first step of both parsers. -/
def stripCR (text : String) : List Char :=
  text.data.filter (fun c => !(c == '\r'))

/-- The trimmed nonempty lines both parsers work with. -/
def linesOf (text : String) : List (List Char) :=
  ((splitNl (stripCR text)).map trimL).filter (fun x => !x.isEmpty)

/-- `fallbackParse` from `src/lib/parsers.ts`. -/
def fallbackParse (text : String) : Fields :=
  let cleaned := stripCR text
  let lines := linesOf text
  let phone := bdScan (onlyDigitsPlus cleaned)
  let nameL := nameFromLabel lines
  let name1 : Option (List Char) :=
    match nameL with
    | some v => some v
    | none =>
      match phone with
      | some _ =>
        (match fuzzySpanL cleaned with
         | some (_, si, _) =>
           let before := cleaned.take si
           (((splitNl before).map trimL).filter (fun x => !x.isEmpty)).reverse.find?
             looksLikeName
         | none => none)
      | none => none
  let addrL := addrFromLabel lines
  let addrTruthy : Bool :=
    match addrL with
    | some a => !a.isEmpty
    | none => false
  let addr2 : Option (List Char) :=
    if addrTruthy then addrL
    else
      match phone with
      | some _ =>
        (match fuzzySpanL cleaned with
         | some (_, si, sl) =>
           let after := cleaned.drop (si + sl)
           let chunk := trimL (match findFieldMarker after with
             | some ci => after.take ci
             | none => after)
           let la := ((splitNl chunk).map trimL).filter (fun x => !x.isEmpty)
           if la.isEmpty then addrL
           else some (trimL (collapseWs2 (joinComma (la.take 3)).length
             (joinComma (la.take 3))))
         | none => addrL)
      | none => addrL
  ⟨name1.map (fun nm => ⟨nm⟩), phone.map (fun p => ⟨p⟩),
   addr2.map (fun a => ⟨a⟩)⟩

/-! ## Whitespace-rewriting primitives of the normalizers

Each function implements one global-replace regex of `route.ts`; fuel
recursion, the wrapper passes the input length. -/

/-- Global replace of `(L)\s+(?=R)` with the left character: delete every
maximal whitespace run standing between an `L`-character and an
`R`-character.  This implements `route.ts` line 117 (`(\d)\s+(?=\d)`),
line 119, lines 123–124, and the `tidyBn` rules at lines 20–23 (the
look-behind form at line 21 deletes exactly the same runs). -/
def delGap (L R : Char → Bool) : Nat → List Char → List Char
  | 0, l => l
  | _ + 1, [] => []
  | fuel + 1, c :: cs =>
    if L c then
      if (cs.takeWhile jsWs).isEmpty then c :: delGap L R fuel cs
      else
        match cs.dropWhile jsWs with
        | r :: rest =>
          if R r then c :: delGap L R fuel (r :: rest)
          else c :: delGap L R fuel cs
        | [] => c :: delGap L R fuel cs
    else c :: delGap L R fuel cs

/-- Global replace of `\s+(?=\))` (route.ts line 120): delete every maximal
whitespace run immediately followed by `)`. -/
def delWsClose : Nat → List Char → List Char
  | 0, l => l
  | _ + 1, [] => []
  | fuel + 1, c :: cs =>
    if jsWs c then
      match (c :: cs).dropWhile jsWs with
      | r :: rest =>
        if r == ')' then delWsClose fuel (r :: rest)
        else c :: delWsClose fuel cs
      | [] => c :: delWsClose fuel cs
    else c :: delWsClose fuel cs

/-- Global replace of `(?<=\()\s+` (route.ts line 121): delete the
whitespace run directly after `(`. -/
def delWsOpen : Nat → List Char → List Char
  | 0, l => l
  | _ + 1, [] => []
  | fuel + 1, c :: cs =>
    if c == '(' then '(' :: delWsOpen fuel (cs.dropWhile jsWs)
    else c :: delWsOpen fuel cs

/-- Global replace of `[ \t]+` by a single space (route.ts line 126). -/
def collapseHT : Nat → List Char → List Char
  | 0, l => l
  | _ + 1, [] => []
  | fuel + 1, c :: cs =>
    if isHT c then ' ' :: collapseHT fuel (cs.dropWhile isHT)
    else c :: collapseHT fuel cs

/-- Global replace of `[ \t]*\n[ \t]*` by `"\n"` (route.ts line 127). -/
def trimNlRuns : Nat → List Char → List Char
  | 0, l => l
  | _ + 1, [] => []
  | fuel + 1, c :: cs =>
    if c == '\n' then '\n' :: trimNlRuns fuel (cs.dropWhile isHT)
    else if isHT c then
      match (c :: cs).dropWhile isHT with
      | r :: cs2 =>
        if r == '\n' then '\n' :: trimNlRuns fuel (cs2.dropWhile isHT)
        else c :: trimNlRuns fuel cs
      | [] => c :: trimNlRuns fuel cs
    else c :: trimNlRuns fuel cs

/-- Global replace of `\n{2,}` by `"\n"` (route.ts line 128); dropping the
duplicates of a singleton run is a no-op, so the two cases are merged. -/
def collapseNl : Nat → List Char → List Char
  | 0, l => l
  | _ + 1, [] => []
  | fuel + 1, c :: cs =>
    if c == '\n' then '\n' :: collapseNl fuel (cs.dropWhile (fun d => d == '\n'))
    else c :: collapseNl fuel cs

/-! ## The spaced-Latin-run collapser (route.ts lines 113–115)

`((?:[A-Za-z]\s+){2,}[A-Za-z])` replaced by the match with `\s+` deleted.
The backtracking behaviour of the greedy `{2,}` is: take the maximal chain
of (letter, whitespace-run) pairs; if the remainder starts with a letter
the match ends there (that letter is the final `[A-Za-z]`); otherwise give
back the last pair's whitespace and end at its letter, which needs at
least three pairs. -/

/-- Maximal chain of `[A-Za-z]\s+` repetitions at the head: the list of
(letter, whitespace-run) pairs, and the remainder. -/
def latinReps : Nat → List Char → List (Char × List Char) × List Char
  | 0, l => ([], l)
  | _ + 1, [] => ([], [])
  | fuel + 1, c :: cs =>
    if c.isAlpha then
      if (cs.takeWhile jsWs).isEmpty then ([], c :: cs)
      else
        let pr := latinReps fuel (cs.dropWhile jsWs)
        ((c, cs.takeWhile jsWs) :: pr.1, pr.2)
    else ([], c :: cs)

/-- The global replace for the spaced-Latin-run regex. -/
def collapseRuns : Nat → List Char → List Char
  | 0, l => l
  | _ + 1, [] => []
  | fuel + 1, c :: cs =>
    let pr := latinReps (c :: cs).length (c :: cs)
    match pr.2 with
    | l :: rest =>
      if l.isAlpha && decide (2 ≤ pr.1.length) then
        pr.1.map Prod.fst ++ l :: collapseRuns fuel rest
      else if decide (3 ≤ pr.1.length) then
        pr.1.map Prod.fst ++
          collapseRuns fuel ((pr.1.getLastD ('a', [])).2 ++ pr.2)
      else c :: collapseRuns fuel cs
    | [] =>
      if decide (3 ≤ pr.1.length) then
        pr.1.map Prod.fst ++
          collapseRuns fuel ((pr.1.getLastD ('a', [])).2 ++ pr.2)
      else c :: collapseRuns fuel cs

/-! ## Page normalization (route.ts lines 109–128) -/

/-- Step at route.ts line 113: collapse spaced Latin runs. -/
def stepLatin (l : List Char) : List Char := collapseRuns l.length l

/-- Step at route.ts line 117: collapse gaps inside numbers. -/
def stepDigits (l : List Char) : List Char :=
  delGap Char.isDigit Char.isDigit l.length l

/-- Step at route.ts line 119: punctuation spacing. -/
def stepPunct (l : List Char) : List Char :=
  delGap isAlnum isPunctCS l.length l

/-- Step at route.ts line 120: drop whitespace before `)`. -/
def stepClose (l : List Char) : List Char := delWsClose l.length l

/-- Step at route.ts line 121: drop whitespace after `(`. -/
def stepOpen (l : List Char) : List Char := delWsOpen l.length l

/-- Step at route.ts line 123: Bangla before zero-width joiners. -/
def stepBnZwj (l : List Char) : List Char := delGap isBangla isZwj l.length l

/-- Step at route.ts line 124: zero-width joiners before Bangla. -/
def stepZwjBn (l : List Char) : List Char := delGap isZwj isBangla l.length l

/-- Step at route.ts line 126: collapse `[ \t]+` runs to one space. -/
def stepHT (l : List Char) : List Char := collapseHT l.length l

/-- Step at route.ts line 127: trim `[ \t]` around line breaks. -/
def stepNlTrim (l : List Char) : List Char := trimNlRuns l.length l

/-- Step at route.ts line 128: collapse runs of line breaks. -/
def stepNlDedup (l : List Char) : List Char := collapseNl l.length l

/-- The page-text cleanup cascade of the `POST` handler, applied to the
NFC-composed page text (NFC itself is a JS built-in, modelled as the
identity on code points; see the C9 theorem for the abstract treatment). -/
def cleanupL (l : List Char) : List Char :=
  stepNlDedup (stepNlTrim (stepHT (stepZwjBn (stepBnZwj
    (stepOpen (stepClose (stepPunct (stepDigits (stepLatin l)))))))))

/-- String wrapper for the page normalizer. -/
def cleanupPage (s : String) : String := ⟨cleanupL s.data⟩

/-! ## `tidyBn` (route.ts lines 14–32) -/

/-- Global replace of `\s*T\s*` by `repl`, for a literal character `T`
(the comma / colon / danda / visarga spacing rules of `tidyBn`). -/
def squeeze (t : Char) (repl : List Char) : Nat → List Char → List Char
  | 0, l => l
  | _ + 1, [] => []
  | fuel + 1, c :: cs =>
    if c == t then repl ++ squeeze t repl fuel (cs.dropWhile jsWs)
    else if jsWs c then
      match (c :: cs).dropWhile jsWs with
      | d :: rest =>
        if d == t then repl ++ squeeze t repl fuel (rest.dropWhile jsWs)
        else c :: squeeze t repl fuel cs
      | [] => c :: squeeze t repl fuel cs
    else c :: squeeze t repl fuel cs

/-- Global replace of `[ \t]{2,}` by a single space (runs of length one,
including a lone tab, are untouched). -/
def collapseHT2 : Nat → List Char → List Char
  | 0, l => l
  | _ + 1, [] => []
  | fuel + 1, c :: cs =>
    if isHT c then
      match cs with
      | d :: _ =>
        if isHT d then ' ' :: collapseHT2 fuel (cs.dropWhile isHT)
        else c :: collapseHT2 fuel cs
      | [] => [c]
    else c :: collapseHT2 fuel cs

/-- `tidyBn` from route.ts: zero-width junk removal, Bangla dependent-mark
tightening, digit-gap collapsing, punctuation spacing, danda/visarga
spacing, `[ \t]{2,}` collapsing, trim.  (NFC modelled as identity.) -/
def tidyBnL (l : List Char) : List Char :=
  let l1 := l.filter (fun c => !isZeroWidthJunk c)
  let l2 := delGap isBangla isBnMark l1.length l1
  let l3 := delGap isBnMark isBangla l2.length l2
  let l4 := delGap isAnyDigit isAnyDigit l3.length l3
  let l5 := squeeze ',' [',', ' '] l4.length l4
  let l6 := squeeze ':' [':'] l5.length l5
  let l7 := squeeze '।' ['।', ' '] l6.length l6
  let l8 := squeeze 'ঃ' ['ঃ'] l7.length l7
  let l9 := collapseHT2 l8.length l8
  trimL l9

/-- `tidyBn` applied to an optional field (`s ?? ""`). -/
def tidyBn (s : Option String) : String := ⟨tidyBnL (s.getD "").data⟩

/-! ## `tidyValue` and `extractTotal` (route.ts lines 35–71) -/

/-- The currency alternation `(?:৳|Tk|BDT)` (case-insensitive, alternatives
tried left to right), returning the matched text and the rest.
(`Char.toLower` fixes `৳`, so the first arm is the literal match.) -/
def valueSym (l : List Char) : Option (List Char × List Char) :=
  match ciStrip "৳".data l with
  | some r => some (l.take 1, r)
  | none =>
    match ciStrip "tk".data l with
    | some r => some (l.take 2, r)
    | none =>
      match ciStrip "bdt".data l with
      | some r => some (l.take 3, r)
      | none => none

/-- Full-anchored `\d+(?:\.\d{1,2})?$`. -/
def numFull (l : List Char) : Bool :=
  let r := l.dropWhile Char.isDigit
  !(l.takeWhile Char.isDigit).isEmpty &&
    (r.isEmpty ||
      (match r with
       | '.' :: es => !es.isEmpty && decide (es.length ≤ 2) && es.all Char.isDigit
       | _ => false))

/-- `tidyValue` from route.ts: falsy input gives `undefined`; strip commas
and whitespace; full-match `^(৳|Tk|BDT)?(\d+(?:\.\d{1,2})?)$/i` with the
symbol defaulting to `৳`.  When the symbol alternative matches but the
number fails, the symbol-less parse also fails (the head is not a digit),
so no backtracking case is needed. -/
def tidyValue (s : Option String) : Option String :=
  match s with
  | none => none
  | some str =>
    if str.isEmpty then none
    else
      let raw := str.data.filter (fun c => !(c == ',' || jsWs c))
      match valueSym raw with
      | some (sy, r) => if numFull r then some ⟨sy ++ r⟩ else none
      | none => if numFull raw then some ⟨'৳' :: raw⟩ else none

/-- Head-anchored match of the `extractTotal` regex
`Total\s*[:\-]?\s*((?:৳|Tk|BDT)?\s*[\d,]+(?:\.\d{1,2})?)` (ci), returning
the full match length and the captured group. -/
def totalGroupAt (l : List Char) : Option (Nat × List Char) :=
  match ciStrip "total".data l with
  | none => none
  | some r0 =>
    let w1 := r0.takeWhile jsWs
    let r1 := r0.dropWhile jsWs
    let clR : Nat × List Char :=
      match r1 with
      | c :: t => if c == ':' || c == '-' then (1, t) else (0, r1)
      | [] => (0, r1)
    let w2 := clR.2.takeWhile jsWs
    let r3 := clR.2.dropWhile jsWs
    let syR : List Char × List Char :=
      match valueSym r3 with
      | some p => p
      | none => ([], r3)
    let w3 := syR.2.takeWhile jsWs
    let r5 := syR.2.dropWhile jsWs
    let dc := r5.takeWhile (fun c => c.isDigit || c == ',')
    let r6 := r5.dropWhile (fun c => c.isDigit || c == ',')
    if dc.isEmpty then none
    else
      let dec : List Char :=
        match r6 with
        | '.' :: t =>
          if (t.takeWhile Char.isDigit).isEmpty then []
          else '.' :: (t.takeWhile Char.isDigit).take 2
        | _ => []
      let grp := syR.1 ++ w3 ++ dc ++ dec
      some (5 + w1.length + clR.1 + w2.length + grp.length, grp)

/-- All captured groups of `matchAll` with the `extractTotal` regex,
in document order. -/
def totalMatches : Nat → List Char → List (List Char)
  | 0, _ => []
  | _ + 1, [] => []
  | fuel + 1, c :: cs =>
    match totalGroupAt (c :: cs) with
    | some (n, g) => g :: totalMatches fuel ((c :: cs).drop n)
    | none => totalMatches fuel cs

/-- Head-anchored match of the bare-currency regex
`(?:৳|Tk|BDT)\s*[\d,]+(?:\.\d{1,2})?` (ci), returning the full match. -/
def currencyAt (l : List Char) : Option (List Char) :=
  match valueSym l with
  | none => none
  | some (sy, r) =>
    let w := r.takeWhile jsWs
    let r1 := r.dropWhile jsWs
    let dc := r1.takeWhile (fun c => c.isDigit || c == ',')
    let r2 := r1.dropWhile (fun c => c.isDigit || c == ',')
    if dc.isEmpty then none
    else
      let dec : List Char :=
        match r2 with
        | '.' :: t =>
          if (t.takeWhile Char.isDigit).isEmpty then []
          else '.' :: (t.takeWhile Char.isDigit).take 2
        | _ => []
      some (sy ++ w ++ dc ++ dec)

/-- All full matches of `matchAll` with the bare-currency regex. -/
def currencyMatches : Nat → List Char → List (List Char)
  | 0, _ => []
  | _ + 1, [] => []
  | fuel + 1, c :: cs =>
    match currencyAt (c :: cs) with
    | some m => m :: currencyMatches fuel ((c :: cs).drop m.length)
    | none => currencyMatches fuel cs

/-- `/^(?:৳|Tk|BDT)/i.test(rawVal) ? rawVal : "৳" + rawVal`. -/
def withSymOf (rawVal : List Char) : List Char :=
  if (valueSym rawVal).isSome then rawVal else '৳' :: rawVal

/-- `extractTotal` from route.ts: prefer the last `Total`-labelled match
(prefixing `৳` when the capture carries no currency symbol), else the last
bare currency token; both are normalized through `tidyValue`. -/
def extractTotal (s : String) : Option String :=
  match (totalMatches s.data.length s.data).getLast? with
  | some rawVal => tidyValue (some ⟨withSymOf rawVal⟩)
  | none =>
    match (currencyMatches s.data.length s.data).getLast? with
    | some m0 => tidyValue (some ⟨m0⟩)
    | none => none

/-! ## The per-block / per-page pipeline (route.ts lines 130–167) -/

/-- The junk-name test `/^(\d+\s*)?invoice$/i`. -/
def invoiceNameTest (s : String) : Bool :=
  let l := s.data
  let body :=
    if (l.takeWhile Char.isDigit).isEmpty then l
    else (l.dropWhile Char.isDigit).dropWhile jsWs
  ciEq body "invoice".data

/-- `x || undefined` for strings. -/
def optOf (s : String) : Option String := if s.isEmpty then none else some s

/-- One output row (the `source`/`page` metadata of `ExtractedRow`, which
the host attaches, is omitted: it plays no role in the claims). -/
structure Row where
  name : Option String
  phone : Option String
  address : Option String
  value : Option String
deriving DecidableEq, Repr

/-- The parser-stage result the route keeps: the primary parse when any of
its three fields is truthy, else the fallback parse. -/
def chosenFields (block : String) : Fields :=
  let primary := parseInvoiceToBlock block
  if tv primary.name || tv primary.phone || tv primary.address then primary
  else fallbackParse block

/-- `extractTotal(block) ?? extractTotal(pageText)`. -/
def blockValue (block pageText : String) : Option String :=
  (extractTotal block).orElse (fun _ => extractTotal pageText)

/-- The cleaned name of a block (`tidyBn(parsed.name)`). -/
def blockName (block : String) : String := tidyBn (chosenFields block).name

/-- The cleaned phone of a block (`(parsed.phone ?? "").trim()`). -/
def blockPhone (block : String) : String :=
  ⟨trimL ((chosenFields block).phone.getD "").data⟩

/-- The cleaned address of a block (`tidyBn(parsed.address)`). -/
def blockAddress (block : String) : String := tidyBn (chosenFields block).address

/-- The per-block body of the page loop (route.ts lines 141–166): primary
parse, conditional fallback, field cleanup, total extraction, junk-name
drop, emptiness drop. -/
def processBlock (block pageText : String) : Option Row :=
  let name := blockName block
  let phone := blockPhone block
  let address := blockAddress block
  let value := blockValue block pageText
  if !invoiceNameTest name &&
      (!name.isEmpty || !phone.isEmpty || !address.isEmpty || tv value) then
    some ⟨optOf name, optOf phone, optOf address,
      match value with
      | some v => optOf v
      | none => none⟩
  else none

/-- The block list the route iterates over: split the normalized page on
the `Invoice To` marker, trim the parts, drop empties, re-prefix the
canonical `"Invoice To: "`; when no part survives, the whole normalized
page is the single block. -/
def routeBlocks (page : String) : List String :=
  let norm := cleanupL page.data
  let parts := ((splitMarker norm.length norm).map trimL).filter
    (fun x => !x.isEmpty)
  let blocks := parts.map (fun p => "Invoice To: ".data ++ p)
  (if blocks.isEmpty then [norm] else blocks).map (fun l => (⟨l⟩ : String))

/-- `extractFromPage`: the per-page extraction of the `POST` handler
(normalization, block split, per-block processing). -/
def extractFromPage (page : String) : List Row :=
  (routeBlocks page).filterMap (fun b => processBlock b ⟨cleanupL page.data⟩)

/-! ## Supporting lemmas -/

theorem splitMarker_of_no_match (fuel : Nat) (l : List Char)
    (h : execScan markerAt l = none) : splitMarker fuel l = [l] := by
  cases fuel <;> simp [splitMarker, h]

theorem execScan_head_some {m : List Char → Option Nat} {l : List Char} {n : Nat}
    (h : m l = some n) : execScan m l = some (0, n) := by
  cases l <;> simp [execScan, h]

/-- The canonical prefix added by the splitter always re-anchors the marker
regex of the primary parser at position 0 (with match length 11). -/
theorem markerAt_canonical (l : List Char) :
    markerAt ("Invoice To: ".data ++ l) = some 11 := rfl

theorem markerFullAt_canonical (l : List Char) :
    markerFullAt ("Invoice To: ".data ++ l) =
      some (12 + (l.takeWhile jsWs).length) := by
  show (markerAt ("Invoice To: ".data ++ l)).map _ = _
  rw [markerAt_canonical]
  show some (11 + (' ' :: l.takeWhile jsWs).length) = _
  simp [Nat.add_comm]

theorem takeWhile_eq_nil_of_head {p : Char → Bool} {l : List Char}
    (h : ∀ c ∈ l.head?, p c = false) : l.takeWhile p = [] := by
  cases l with
  | nil => rfl
  | cons c cs => simp [List.takeWhile, h c (by simp)]

/-- The head of a trimmed list is never whitespace. -/
theorem takeWhile_trimL (l : List Char) : (trimL l).takeWhile jsWs = [] := by
  unfold trimL
  set y := l.dropWhile jsWs with hy
  have hyhead : ∀ c ∈ y.head?, jsWs c = false := by
    intro c hc
    cases hl : y with
    | nil => simp [hl] at hc
    | cons d ds =>
      simp [hl] at hc
      subst hc
      have := List.head_dropWhile_not jsWs l
      rw [← hy, hl] at this
      simpa using this (by simp)
  have hsuff : y.reverse.dropWhile jsWs <:+ y.reverse := List.dropWhile_suffix _
  have hpre : (y.reverse.dropWhile jsWs).reverse <+: y := by
    have := hsuff.reverse
    simpa using this
  obtain ⟨t, ht⟩ := hpre
  apply takeWhile_eq_nil_of_head
  intro c hc
  cases hz : (y.reverse.dropWhile jsWs).reverse with
  | nil => simp [hz] at hc
  | cons d ds =>
    simp [hz] at hc
    subst hc
    apply hyhead
    rw [← ht, hz]
    simp

/-! ## Claim C2 -/

/-- C2 (counterexample): the block `"Invoice To: Invoice 01712345678"` has a
non-empty cleaned phone `"01712345678"`, yet the page yields no record,
because the junk-name drop fires on the invoice-shaped name regardless of
the other fields — refuting the claim that such a record is still emitted. -/
theorem C2_counterexample :
    extractFromPage "Invoice To: Invoice 01712345678" = [] ∧
    blockPhone "Invoice To: Invoice 01712345678" = "01712345678" ∧
    invoiceNameTest (blockName "Invoice To: Invoice 01712345678") = true ∧
    cleanupPage "Invoice To: Invoice 01712345678" = "Invoice To: Invoice 01712345678" := by
  decide

/-- C2 (amended): a parsed record is dropped before emission if and only if
its cleaned name is invoice-shaped (`/^(\d+\s*)?invoice$/i`) — regardless of
the other fields — or all four cleaned fields are empty. -/
theorem C2_drop_iff (b p : String) :
    processBlock b p = none ↔
      (invoiceNameTest (blockName b) = true ∨
        ((blockName b).isEmpty = true ∧ (blockPhone b).isEmpty = true ∧
         (blockAddress b).isEmpty = true ∧ tv (blockValue b p) = false)) := by
  rw [processBlock]
  cases hI : invoiceNameTest (blockName b) <;>
    cases hn : (blockName b).isEmpty <;>
    cases hp : (blockPhone b).isEmpty <;>
    cases ha : (blockAddress b).isEmpty <;>
    cases hv : tv (blockValue b p) <;>
    simp [hI, hn, hp, ha, hv]

/-! ## Claim C4 -/

/-- Per-block form of C4: an emitted row has at least one present field. -/
theorem processBlock_some_field (b p : String) (r : Row)
    (hb : processBlock b p = some r) :
    (r.name.isSome || r.phone.isSome || r.address.isSome || r.value.isSome) = true := by
  rw [processBlock] at hb
  generalize hN : blockName b = N at hb
  generalize hP : blockPhone b = P at hb
  generalize hA : blockAddress b = A at hb
  generalize hV : blockValue b p = V at hb
  by_cases hc : (!invoiceNameTest N &&
      (!N.isEmpty || !P.isEmpty || !A.isEmpty || tv V)) = true
  · rw [if_pos hc] at hb
    rw [Bool.and_eq_true] at hc
    obtain ⟨-, hor⟩ := hc
    injection hb with hb
    subst hb
    simp only [Bool.or_eq_true, Bool.not_eq_true'] at hor ⊢
    rcases hor with ((h1 | h2) | h3) | h4
    · exact Or.inl (Or.inl (Or.inl (by simp [optOf, h1])))
    · exact Or.inl (Or.inl (Or.inr (by simp [optOf, h2])))
    · exact Or.inl (Or.inr (by simp [optOf, h3]))
    · refine Or.inr ?_
      cases V with
      | none => simp [tv] at h4
      | some v =>
        simp only [tv, Bool.not_eq_true'] at h4
        simp [optOf, h4]
  · rw [if_neg hc] at hb
    exact absurd hb (by simp)

/-- C4: every record emitted by the per-page extraction has at least one of
name, phone, address, value present. -/
theorem C4_some_field (page : String) (r : Row) (h : r ∈ extractFromPage page) :
    (r.name.isSome || r.phone.isSome || r.address.isSome || r.value.isSome) = true := by
  rw [extractFromPage, List.mem_filterMap] at h
  obtain ⟨b, -, hb⟩ := h
  exact processBlock_some_field _ _ _ hb

/-- C4 (witness): a concrete page and emitted record with a present field. -/
theorem C4_witness :
    Row.mk (some "Rahim Uddin") (some "01812345678") (some "Mirpur") none ∈
      extractFromPage "Invoice To: Rahim Uddin 01812345678 Mirpur" ∧
    ((Row.mk (some "Rahim Uddin") (some "01812345678") (some "Mirpur") none).name.isSome ||
     (Row.mk (some "Rahim Uddin") (some "01812345678") (some "Mirpur") none).phone.isSome ||
     (Row.mk (some "Rahim Uddin") (some "01812345678") (some "Mirpur") none).address.isSome ||
     (Row.mk (some "Rahim Uddin") (some "01812345678") (some "Mirpur") none).value.isSome) = true :=
  ⟨by decide, C4_some_field "Invoice To: Rahim Uddin 01812345678 Mirpur" _ (by decide)⟩

/-! ## Claim C6 -/

/-- C6: Scenario A — the canonical block, run through the per-page pipeline
(the page splits into exactly this block), yields exactly the expected
record. -/
theorem C6_scenario_a :
    extractFromPage "Invoice To: John Doe 01712345678 House 5, Road 2, Dhaka 1212 Order ID: 99 Total: ৳970" =
      [Row.mk (some "John Doe") (some "01712345678")
        (some "House 5, Road 2, Dhaka 1212") (some "৳970")] := by
  decide

/-! ## Claim C10 -/

/-- C10 (amended): a block whose cleaned name, phone and address are all
empty still emits a record whose only populated field is the extracted
value, provided the total extractor (block first, page as fallback)
actually normalizes to a value. -/
theorem C10_value_only (b p v : String)
    (hn : blockName b = "") (hp : blockPhone b = "") (ha : blockAddress b = "")
    (hv : blockValue b p = some v) (hv2 : v.isEmpty = false) :
    processBlock b p = some (Row.mk none none none (some v)) := by
  rw [processBlock, hn, hp, ha, hv]
  have hI : invoiceNameTest "" = false := by decide
  have hE : "".isEmpty = true := by decide
  simp [hI, hE, tv, hv2, optOf]

/-- C10 (witness): on a two-block page whose blocks parse to nothing, each
block emits one value-only record, both duplicating the same total. -/
theorem C10_witness :
    blockValue "Invoice To: Order ID: 2\nTotal: ৳999"
      "Invoice To: Order ID: 1\nInvoice To: Order ID: 2\nTotal: ৳999" = some "৳999" ∧
    processBlock "Invoice To: Order ID: 2\nTotal: ৳999"
      "Invoice To: Order ID: 1\nInvoice To: Order ID: 2\nTotal: ৳999" =
      some (Row.mk none none none (some "৳999")) ∧
    extractFromPage "Invoice To: Order ID: 1\nInvoice To: Order ID: 2\nTotal: ৳999" =
      [Row.mk none none none (some "৳999"), Row.mk none none none (some "৳999")] :=
  ⟨by decide,
   C10_value_only "Invoice To: Order ID: 2\nTotal: ৳999"
     "Invoice To: Order ID: 1\nInvoice To: Order ID: 2\nTotal: ৳999" "৳999"
     (by decide) (by decide) (by decide) (by decide) (by decide),
   by decide⟩

/-- C10 (counterexample): a block that parses to nothing and contains a
genuine `Total`-labelled amount (`Total: ৳55,`) and a bare currency amount,
yet emits no record, because the *last* `Total` match (`,`) fails to
normalize and the extractor returns nothing without falling back. -/
theorem C10_counterexample :
    extractFromPage "Invoice To: Total: ৳55, Total: ,x" = [] ∧
    (totalMatches "Invoice To: Total: ৳55, Total: ,x".data.length
        "Invoice To: Total: ৳55, Total: ,x".data).map
      (fun l => (⟨l⟩ : String)) = ["৳55,", ","] ∧
    (currencyMatches "Invoice To: Total: ৳55, Total: ,x".data.length
        "Invoice To: Total: ৳55, Total: ,x".data).map
      (fun l => (⟨l⟩ : String)) = ["৳55,"] := by
  decide

/-! ## Claim C1 -/

/-- C1 (counterexample): a normalized page without the marker is split into
a single block that *does* carry the canonical `"Invoice To: "` prefix, and
the primary parser — not the fallback — extracts from it (its marker branch
yields the name `"Karim"`). -/
theorem C1_counterexample :
    routeBlocks "Name: Karim\nRoad 5" = ["Invoice To: Name: Karim\nRoad 5"] ∧
    cleanupPage "Name: Karim\nRoad 5" = "Name: Karim\nRoad 5" ∧
    execScan markerAt "Name: Karim\nRoad 5".data = none ∧
    ("Invoice To: Name: Karim\nRoad 5" : String) ≠ "Name: Karim\nRoad 5" ∧
    (parseInvoiceToBlock "Invoice To: Name: Karim\nRoad 5").name = some "Karim" := by
  decide

/-- C1 (amended): on a page without the marker whose normalized text trims
nonempty, the splitter returns one block: the canonical `"Invoice To: "`
prefix plus the trimmed page; the re-anchored marker is then found by the
primary parser (no fail-fast to the fallback). -/
theorem C1_unmarked_page (p : String)
    (hm : execScan markerAt (cleanupL p.data) = none)
    (ht : (trimL (cleanupL p.data)).isEmpty = false) :
    routeBlocks p = [⟨"Invoice To: ".data ++ trimL (cleanupL p.data)⟩] ∧
    (execScan markerFullAt
      ("Invoice To: ".data ++ trimL (cleanupL p.data))).isSome = true := by
  constructor
  · rw [routeBlocks, splitMarker_of_no_match _ _ hm]
    simp [ht]
  · rw [execScan_head_some (markerFullAt_canonical (trimL (cleanupL p.data)))]
    rfl

/-- C1 (witness): the amended behaviour at a concrete marker-free page. -/
theorem C1_witness :
    execScan markerAt (cleanupL "Karim Ahmed 01712345678".data) = none ∧
    (trimL (cleanupL "Karim Ahmed 01712345678".data)).isEmpty = false ∧
    routeBlocks "Karim Ahmed 01712345678" =
      [⟨"Invoice To: ".data ++ trimL (cleanupL "Karim Ahmed 01712345678".data)⟩] ∧
    (execScan markerFullAt ("Invoice To: ".data ++
      trimL (cleanupL "Karim Ahmed 01712345678".data))).isSome = true :=
  ⟨by decide, by decide,
   (C1_unmarked_page "Karim Ahmed 01712345678" (by decide) (by decide)).1,
   (C1_unmarked_page "Karim Ahmed 01712345678" (by decide) (by decide)).2⟩

/-! ## Claim C7 -/

/-- C7 (counterexample): in this block the phone digits are separated by
`x` characters, which even the fuzzy matcher does not tolerate — yet the
fallback parser still finds the phone, because `bdPhone` deletes all
non-digit noise before matching.  The claim predicts a null phone. -/
theorem C7_counterexample :
    (fallbackParse "01x71x23x45x678").phone = some "01712345678" ∧
    findFuzzyPhoneSpan "01x71x23x45x678" = none := by
  decide

/-- C7 (amended): the fallback parser's phone is `bdPhone` of the
CR-stripped block, and `bdPhone` first deletes every character that is not
a digit or `+`, so inserting such a noise character anywhere in the text
never changes its result (arbitrary interleaved noise is tolerated). -/
theorem C7_phone_noise_insensitive (s u v : String) (c : Char)
    (h : (c.isDigit || c == '+') = false) :
    (fallbackParse s).phone = bdPhone ⟨stripCR s⟩ ∧
    bdPhone ⟨u.data ++ c :: v.data⟩ = bdPhone ⟨u.data ++ v.data⟩ := by
  refine ⟨rfl, ?_⟩
  show (bdScan (onlyDigitsPlus (u.data ++ c :: v.data))).map _ =
    (bdScan (onlyDigitsPlus (u.data ++ v.data))).map _
  rw [onlyDigitsPlus, onlyDigitsPlus, List.filter_append, List.filter_append,
    List.filter_cons_of_neg (by simpa using h)]

/-- C7 (witness): the amended statement at the counterexample block, with
noise character `x` inserted between `01` and `712345678`. -/
theorem C7_witness :
    ('x'.isDigit || 'x' == '+') = false ∧
    (fallbackParse "01x71x23x45x678").phone = bdPhone ⟨stripCR "01x71x23x45x678"⟩ ∧
    bdPhone ⟨"01".data ++ 'x' :: "712345678".data⟩ =
      bdPhone ⟨"01".data ++ "712345678".data⟩ :=
  ⟨by decide,
   (C7_phone_noise_insensitive "01x71x23x45x678" "01" "712345678" 'x' (by decide)).1,
   (C7_phone_noise_insensitive "01x71x23x45x678" "01" "712345678" 'x' (by decide)).2⟩

/-! ## Claim C8 -/

/-- Modelled from the spec (§4.5 strategy (c)); this strategy is absent
from `fallbackParse` in `src/lib/parsers.ts`.  The address-indicating
keywords named by the spec. -/
def specAddressKeywords : List (List Char) :=
  ["road".data, "thana".data, "po".data, "ps".data, "upazila".data,
   "district".data, "zila".data, "area".data, "city".data, "house".data,
   "apartment".data, "flat".data, "block".data, "sector".data]

/-- Case-insensitive substring containment. -/
def ciContains (pat : List Char) : List Char → Bool
  | [] => (ciStrip pat ([] : List Char)).isSome
  | c :: cs => (ciStrip pat (c :: cs)).isSome || ciContains pat cs

/-- Modelled from the spec: a 4-digit postal-code token (a maximal digit
run of length exactly four); the flag records whether the previous
character was a digit. -/
def postalScan : Bool → List Char → Bool
  | _, [] => false
  | prevD, c :: cs =>
    (!prevD && c.isDigit && (cs.takeWhile Char.isDigit).length == 3) ||
      postalScan c.isDigit cs

/-- Modelled from the spec: a line carries an address-indicating keyword or
a 4-digit postal-code token. -/
def specKeywordLine (l : List Char) : Bool :=
  specAddressKeywords.any (fun k => ciContains k l) || postalScan false l

/-- Modelled from the spec (§4.5 strategy (c), absent from the source):
scan all lines for keyword/postal matches and join up to the first three
matching lines with `", "`. -/
def specKeywordAddress (s : String) : Option String :=
  let ms := (linesOf s).filter specKeywordLine
  if ms.isEmpty then none else some ⟨joinComma (ms.take 3)⟩

/-- The `Address:` label pass returns nothing when no line matches. -/
theorem addrFromLabel_eq_none {ls : List (List Char)}
    (h : ∀ l ∈ ls, scanAddrLabel false l = none) : addrFromLabel ls = none := by
  induction ls with
  | nil => rfl
  | cons l ls ih =>
    rw [addrFromLabel, h l (by simp)]
    exact ih fun x hx => h x (by simp [hx])

/-- C8 (counterexample): a block with neither an `Address` label nor a
phone, holding a keyword line (`House 7, Road 2`) that the spec's keyword
scan would return — but the fallback parser has no such scan and yields a
null address. -/
theorem C8_counterexample :
    (fallbackParse "foo bar\nHouse 7, Road 2\nbaz").address = none ∧
    bdPhone "foo bar\nHouse 7, Road 2\nbaz" = none ∧
    addrFromLabel (linesOf "foo bar\nHouse 7, Road 2\nbaz") = none ∧
    specKeywordAddress "foo bar\nHouse 7, Road 2\nbaz" = some "House 7, Road 2" := by
  decide

/-- C8 (amended): when no line matches the `Address:` label and no phone is
found, the fallback parser returns a null address — it performs no keyword
or postal-code scan. -/
theorem C8_no_label_no_phone (s : String)
    (h1 : ∀ line ∈ linesOf s, scanAddrLabel false line = none)
    (h2 : bdScan (onlyDigitsPlus (stripCR s)) = none) :
    (fallbackParse s).address = none := by
  rw [fallbackParse]
  rw [addrFromLabel_eq_none h1, h2]
  rfl

/-- C8 (witness): the amended statement at a concrete block. -/
theorem C8_witness :
    (∀ line ∈ linesOf "foo bar\nHouse 7, Road 2\nbaz",
      scanAddrLabel false line = none) ∧
    bdScan (onlyDigitsPlus (stripCR "foo bar\nHouse 7, Road 2\nbaz")) = none ∧
    (fallbackParse "foo bar\nHouse 7, Road 2\nbaz").address = none :=
  ⟨by decide, by decide,
   C8_no_label_no_phone "foo bar\nHouse 7, Road 2\nbaz" (by decide) (by decide)⟩


/-! ## Claim C3 -/

theorem isDigit_of_between {d : Char} (h1 : decide ('3' ≤ d) = true)
    (h2 : decide (d ≤ '9') = true) : d.isDigit = true := by
  rw [decide_eq_true_eq] at h1 h2
  have h1' : ('3' : Char).val ≤ d.val := h1
  have h2' : d.val ≤ ('9' : Char).val := h2
  rw [UInt32.le_def, BitVec.le_def] at h1' h2'
  have e3 : ('3' : Char).val.toBitVec.toNat = 51 := by decide
  have e9 : ('9' : Char).val.toBitVec.toNat = 57 := by decide
  rw [e3] at h1'
  rw [e9] at h2'
  simp only [Char.isDigit, ge_iff_le, Bool.and_eq_true, decide_eq_true_eq]
  rw [UInt32.le_def, BitVec.le_def, UInt32.le_def, BitVec.le_def]
  have e48 : (48 : UInt32).toBitVec.toNat = 48 := by decide
  have e57 : (57 : UInt32).toBitVec.toNat = 57 := by decide
  rw [e48, e57]
  omega

theorem bdTail_digits {l t : List Char} (h : bdTail l = some t) :
    t.all Char.isDigit = true := by
  match l with
  | [] => simp [bdTail] at h
  | [c] => simp [bdTail] at h
  | c :: d :: rest =>
    rw [bdTail] at h
    split at h
    case isTrue hc =>
      injection h with h
      subst h
      simp only [Bool.and_eq_true] at hc
      obtain ⟨⟨⟨⟨h1, h2⟩, h3⟩, h4⟩, -⟩ := hc
      rw [beq_iff_eq] at h1
      subst h1
      simp [List.all_cons, isDigit_of_between h2 h3, h4]
    case isFalse => exact absurd h (by simp)

/-- The strict matcher only ever returns an optional leading `+` followed
by digits. -/
theorem bdAt_shape {l m : List Char} (h : bdAt l = some m) :
    ∃ c rest, m = c :: rest ∧ (c.isDigit = true ∨ c = '+') ∧
      rest.all Char.isDigit = true := by
  rw [bdAt] at h
  by_cases h4 : (l.take 4 == ['+', '8', '8', '0']) = true
  · rw [if_pos h4] at h
    rw [beq_iff_eq] at h4
    simp only [Option.map_eq_some'] at h
    obtain ⟨t, ht, hm⟩ := h
    rw [h4] at hm
    subst hm
    exact ⟨'+', _, rfl, Or.inr rfl, by
      simp [List.all_cons, bdTail_digits ht]⟩
  · rw [if_neg h4] at h
    by_cases h3 : (l.take 3 == ['8', '8', '0']) = true
    · rw [if_pos h3] at h
      rw [beq_iff_eq] at h3
      simp only [Option.map_eq_some'] at h
      obtain ⟨t, ht, hm⟩ := h
      rw [h3] at hm
      subst hm
      exact ⟨'8', _, rfl, Or.inl (by decide), by
        simp [List.all_cons, bdTail_digits ht]⟩
    · rw [if_neg h3] at h
      by_cases h1 : (l.take 1 == ['0']) = true
      · rw [if_pos h1] at h
        rw [beq_iff_eq] at h1
        simp only [Option.map_eq_some'] at h
        obtain ⟨t, ht, hm⟩ := h
        rw [h1] at hm
        subst hm
        exact ⟨'0', _, rfl, Or.inl (by decide), bdTail_digits ht⟩
      · rw [if_neg h1] at h
        exact absurd h (by simp)

theorem bdScan_shape {l m : List Char} (h : bdScan l = some m) :
    ∃ c rest, m = c :: rest ∧ (c.isDigit = true ∨ c = '+') ∧
      rest.all Char.isDigit = true := by
  induction l with
  | nil => simp [bdScan] at h
  | cons c cs ih =>
    rw [bdScan] at h
    cases ha : bdAt (c :: cs) with
    | some m0 =>
      rw [ha] at h
      injection h with h
      subst h
      exact bdAt_shape ha
    | none =>
      rw [ha] at h
      exact ih h

/-- C3 (counterexample): the fuzzy matcher keeps the leading `+`, so the
claimed digits-only normalization (and the claimed value for this very
input) is wrong. -/
theorem C3_counterexample :
    (findFuzzyPhoneSpan "+880 17 1 234 5678").map PhoneSpan.normalized =
      some "+8801712345678" ∧
    ("+8801712345678" : String) ≠ "8801712345678" ∧
    "+8801712345678".data.all Char.isDigit = false := by
  decide

/-- C3 (amended): a fuzzy-matched span normalizes to an optional leading
`+` (kept when the source phone carried `+880`) followed by digits only. -/
theorem C3_normalized_shape (s : String) (span : PhoneSpan)
    (h : findFuzzyPhoneSpan s = some span) :
    ∃ c rest, span.normalized.data = c :: rest ∧
      (c.isDigit = true ∨ c = '+') ∧ rest.all Char.isDigit = true := by
  rw [findFuzzyPhoneSpan] at h
  simp only [Option.map_eq_some'] at h
  obtain ⟨p, hp, hspan⟩ := h
  rw [fuzzySpanL] at hp
  cases he : execScan fuzzyAt s.data with
  | none => rw [he] at hp; exact absurd hp (by simp)
  | some pr =>
    rw [he] at hp
    obtain ⟨i, n⟩ := pr
    simp only at hp
    cases hb : bdScan (onlyDigitsPlus ((s.data.drop i).take n)) with
    | none => rw [hb] at hp; exact absurd hp (by simp)
    | some norm =>
      rw [hb] at hp
      injection hp with hp
      subst hp
      subst hspan
      exact bdScan_shape hb

/-- C3 (witness): the amended shape at the spec's own Scenario C input. -/
theorem C3_witness :
    findFuzzyPhoneSpan "+880 17 1 234 5678" =
      some ⟨"+8801712345678", 0, 18⟩ ∧
    (∃ c rest, (PhoneSpan.mk "+8801712345678" 0 18).normalized.data = c :: rest ∧
      (c.isDigit = true ∨ c = '+') ∧ rest.all Char.isDigit = true) :=
  ⟨by decide,
   C3_normalized_shape "+880 17 1 234 5678" ⟨"+8801712345678", 0, 18⟩ (by decide)⟩

/-! ## Claim C5 -/

/-- Modelled from the spec: the numeric body `<digits[.digits]>` of a
normalized total — digits, then optionally a dot and one or two decimal
digits, nothing else (hence no separators). -/
def specNumBody (l : List Char) : Bool :=
  let rest := l.dropWhile Char.isDigit
  !(l.takeWhile Char.isDigit).isEmpty &&
    (rest.isEmpty ||
      (match rest with
       | '.' :: es => !es.isEmpty && decide (es.length ≤ 2) && es.all Char.isDigit
       | _ => false))

/-- Modelled from the spec: a normalized total has the form
`<symbol><digits[.digits]>` where the symbol is `৳`, `Tk` or `BDT`
(case-insensitive, as matched). -/
def specCanonicalValue (v : String) : Bool :=
  ["৳".data, "tk".data, "bdt".data].any (fun sy =>
    match ciStrip sy v.data with
    | some r => specNumBody r
    | none => false)

theorem ciStrip_take {pat l r : List Char} (h : ciStrip pat l = some r) :
    l = l.take pat.length ++ r := by
  induction pat generalizing l with
  | nil =>
    rw [ciStrip] at h
    injection h
  | cons p ps ih =>
    match l with
    | [] => simp [ciStrip] at h
    | c :: cs =>
      rw [ciStrip] at h
      split at h
      case isTrue =>
        have := ih h
        simpa using this
      case isFalse => exact absurd h (by simp)

theorem valueSym_inv {l sy r : List Char} (h : valueSym l = some (sy, r)) :
    sy ++ r = l ∧
      (ciStrip "৳".data l = some r ∨ ciStrip "tk".data l = some r ∨
       ciStrip "bdt".data l = some r) := by
  rw [valueSym] at h
  cases h1 : ciStrip "৳".data l with
  | some r0 =>
    rw [h1] at h
    injection h with h
    injection h with hsy hr
    subst hsy
    subst hr
    exact ⟨(ciStrip_take h1).symm, Or.inl rfl⟩
  | none =>
    rw [h1] at h
    cases h2 : ciStrip "tk".data l with
    | some r0 =>
      rw [h2] at h
      injection h with h
      injection h with hsy hr
      subst hsy
      subst hr
      exact ⟨(ciStrip_take h2).symm, Or.inr (Or.inl rfl)⟩
    | none =>
      rw [h2] at h
      cases h3 : ciStrip "bdt".data l with
      | some r0 =>
        rw [h3] at h
        injection h with h
        injection h with hsy hr
        subst hsy
        subst hr
        exact ⟨(ciStrip_take h3).symm, Or.inr (Or.inr rfl)⟩
      | none =>
        rw [h3] at h
        exact absurd h (by simp)

/-- Everything `tidyValue` emits has the spec's canonical form. -/
theorem tidyValue_canonical {x : Option String} {v : String}
    (h : tidyValue x = some v) : specCanonicalValue v = true := by
  match x with
  | none => simp [tidyValue] at h
  | some str =>
    simp only [tidyValue] at h
    split at h
    · exact absurd h (by simp)
    · cases hv : valueSym (str.data.filter fun c => !(c == ',' || jsWs c)) with
      | some p =>
        obtain ⟨sy, r⟩ := p
        rw [hv] at h
        replace h : (if numFull r = true then
            some (String.mk (sy ++ r)) else none) = some v := h
        by_cases hn : numFull r = true
        · rw [if_pos hn] at h
          injection h with h
          subst h
          obtain ⟨heq, hdisj⟩ := valueSym_inv hv
          rw [specCanonicalValue]
          apply List.any_eq_true.mpr
          rcases hdisj with h1 | h2 | h3
          · refine ⟨"৳".data, by simp, ?_⟩
            rw [show (String.mk (sy ++ r)).data = sy ++ r from rfl, heq, h1]
            exact hn
          · refine ⟨"tk".data, by simp, ?_⟩
            rw [show (String.mk (sy ++ r)).data = sy ++ r from rfl, heq, h2]
            exact hn
          · refine ⟨"bdt".data, by simp, ?_⟩
            rw [show (String.mk (sy ++ r)).data = sy ++ r from rfl, heq, h3]
            exact hn
        · rw [if_neg hn] at h
          exact absurd h (by simp)
      | none =>
        rw [hv] at h
        replace h : (if numFull (str.data.filter fun c => !(c == ',' || jsWs c)) = true then
            some (String.mk ('৳' :: str.data.filter fun c => !(c == ',' || jsWs c)))
            else none) = some v := h
        by_cases hn : numFull (str.data.filter fun c => !(c == ',' || jsWs c)) = true
        · rw [if_pos hn] at h
          injection h with h
          subst h
          rw [specCanonicalValue]
          apply List.any_eq_true.mpr
          refine ⟨"৳".data, by simp, ?_⟩
          have hstrip : ciStrip "৳".data
              ('৳' :: str.data.filter fun c => !(c == ',' || jsWs c)) =
              some (str.data.filter fun c => !(c == ',' || jsWs c)) := by
            simp [ciStrip]
          rw [show (String.mk ('৳' :: (str.data.filter fun c =>
            !(c == ',' || jsWs c)))).data =
            '৳' :: (str.data.filter fun c => !(c == ',' || jsWs c)) from rfl, hstrip]
          exact hn
        · rw [if_neg hn] at h
          exact absurd h (by simp)

/-- C5 (counterexample): this block contains a genuine `Total`-labelled
amount (`Total: 7`), but the last label match captures only `,`, which
fails normalization, so `extractTotal` returns nothing instead of the last
qualifying amount. -/
theorem C5_counterexample :
    (totalMatches "Total: 7 Total: ,x".data.length "Total: 7 Total: ,x".data).map
      (fun l => (⟨l⟩ : String)) = ["7", ","] ∧
    extractTotal "Total: 7 Total: ,x" = none := by
  decide

/-- C5 (amended): with at least one `Total`-label match, `extractTotal`
normalizes the *last* captured amount (Taka-prefixed when no symbol was
matched) through `tidyValue`; whenever it returns a value at all, that
value has the canonical `<symbol><digits[.digits]>` form. -/
theorem C5_last_total_normalized (s : String) (rawVal : List Char)
    (h : (totalMatches s.data.length s.data).getLast? = some rawVal) :
    extractTotal s = tidyValue (some ⟨withSymOf rawVal⟩) ∧
    (∀ v, extractTotal s = some v → specCanonicalValue v = true) := by
  refine ⟨by rw [extractTotal, h], ?_⟩
  intro v hv
  rw [extractTotal, h] at hv
  exact tidyValue_canonical hv

/-- C5 (witness): the amended statement at the spec's Scenario E input. -/
theorem C5_witness :
    (totalMatches "Total: Tk 1,250.50".data.length "Total: Tk 1,250.50".data).getLast? =
      some "Tk 1,250.50".data ∧
    extractTotal "Total: Tk 1,250.50" = tidyValue (some ⟨withSymOf "Tk 1,250.50".data⟩) ∧
    extractTotal "Total: Tk 1,250.50" = some "Tk1250.50" ∧
    specCanonicalValue "Tk1250.50" = true :=
  ⟨by decide,
   (C5_last_total_normalized "Total: Tk 1,250.50" "Tk 1,250.50".data (by decide)).1,
   by decide,
   (C5_last_total_normalized "Total: Tk 1,250.50" "Tk 1,250.50".data (by decide)).2
     "Tk1250.50" (by decide)⟩

/-! ## Claim C9: idempotence of the page normalizer

Strategy: define, for every cleanup step, the Boolean pattern (trigger)
whose absence makes the step the identity; show every step removes its own
trigger and that later steps never reintroduce an earlier trigger (they
only rewrite whitespace runs, captured by the simulation relation `WsRel`);
conclude that the cascade maps every string to a trigger-free normal form
on which it acts as the identity. -/

/-- Code point of a character as a natural number. -/
def uval (c : Char) : Nat := c.val.toBitVec.toNat

theorem uval_le_of_char_le {a b : Char} (h : a ≤ b) : uval a ≤ uval b := by
  rw [Char.le_def, UInt32.le_def, BitVec.le_def] at h
  exact h

/-- A character whose code point lies strictly between the ASCII controls
and NBSP is not JavaScript whitespace. -/
theorem not_ws_mid {c : Char} (hlo : 33 ≤ uval c) (hhi : uval c ≤ 159) :
    jsWs c = false := by
  cases hws : jsWs c
  · rfl
  · exfalso
    simp only [jsWs, Bool.or_eq_true, beq_iff_eq, Bool.and_eq_true,
      decide_eq_true_eq] at hws
    rcases hws with (((((((((((((h|h)|h)|h)|h)|h)|h)|h)|hr)|h)|h)|h)|h)|h)|h
    · subst h; exact absurd hlo (by decide)
    · subst h; exact absurd hlo (by decide)
    · subst h; exact absurd hlo (by decide)
    · subst h; exact absurd hlo (by decide)
    · subst h; exact absurd hlo (by decide)
    · subst h; exact absurd hlo (by decide)
    · subst h; exact absurd hhi (by decide)
    · subst h; exact absurd hhi (by decide)
    · obtain ⟨h1, h2⟩ := hr
      have e1 : 8192 ≤ uval c := uval_le_of_char_le h1
      omega
    · subst h; exact absurd hhi (by decide)
    · subst h; exact absurd hhi (by decide)
    · subst h; exact absurd hhi (by decide)
    · subst h; exact absurd hhi (by decide)
    · subst h; exact absurd hhi (by decide)
    · subst h; exact absurd hhi (by decide)

/-- A character in the Bangla block range is not JavaScript whitespace. -/
theorem not_ws_bn {c : Char} (hlo : 2432 ≤ uval c) (hhi : uval c ≤ 2559) :
    jsWs c = false := by
  cases hws : jsWs c
  · rfl
  · exfalso
    simp only [jsWs, Bool.or_eq_true, beq_iff_eq, Bool.and_eq_true,
      decide_eq_true_eq] at hws
    rcases hws with (((((((((((((h|h)|h)|h)|h)|h)|h)|h)|hr)|h)|h)|h)|h)|h)|h
    · subst h; exact absurd hlo (by decide)
    · subst h; exact absurd hlo (by decide)
    · subst h; exact absurd hlo (by decide)
    · subst h; exact absurd hlo (by decide)
    · subst h; exact absurd hlo (by decide)
    · subst h; exact absurd hlo (by decide)
    · subst h; exact absurd hlo (by decide)
    · subst h; exact absurd hhi (by decide)
    · obtain ⟨h1, h2⟩ := hr
      have e1 : 8192 ≤ uval c := uval_le_of_char_le h1
      omega
    · subst h; exact absurd hhi (by decide)
    · subst h; exact absurd hhi (by decide)
    · subst h; exact absurd hhi (by decide)
    · subst h; exact absurd hhi (by decide)
    · subst h; exact absurd hhi (by decide)
    · subst h; exact absurd hhi (by decide)

theorem isDigit_uval {c : Char} (h : c.isDigit = true) :
    48 ≤ uval c ∧ uval c ≤ 57 := by
  simp only [Char.isDigit, ge_iff_le, Bool.and_eq_true, decide_eq_true_eq] at h
  obtain ⟨h1, h2⟩ := h
  rw [UInt32.le_def, BitVec.le_def] at h1 h2
  exact ⟨h1, h2⟩

theorem isAlpha_uval {c : Char} (h : c.isAlpha = true) :
    65 ≤ uval c ∧ uval c ≤ 122 := by
  simp only [Char.isAlpha, Char.isUpper, Char.isLower, ge_iff_le,
    Bool.or_eq_true, Bool.and_eq_true, decide_eq_true_eq] at h
  rcases h with ⟨h1, h2⟩ | ⟨h1, h2⟩
  · rw [UInt32.le_def, BitVec.le_def] at h1 h2
    have a1 : 65 ≤ uval c := h1
    have a2 : uval c ≤ 90 := h2
    omega
  · rw [UInt32.le_def, BitVec.le_def] at h1 h2
    have a1 : 97 ≤ uval c := h1
    have a2 : uval c ≤ 122 := h2
    omega

theorem isDigit_not_ws {c : Char} (h : c.isDigit = true) : jsWs c = false := by
  obtain ⟨h1, h2⟩ := isDigit_uval h
  exact not_ws_mid (by omega) (by omega)

theorem isAlpha_not_ws {c : Char} (h : c.isAlpha = true) : jsWs c = false := by
  obtain ⟨h1, h2⟩ := isAlpha_uval h
  exact not_ws_mid (by omega) (by omega)

theorem isAlnum_not_ws {c : Char} (h : isAlnum c = true) : jsWs c = false := by
  rw [isAlnum, Bool.or_eq_true] at h
  rcases h with h | h
  · exact isAlpha_not_ws h
  · exact isDigit_not_ws h

theorem isBangla_not_ws {c : Char} (h : isBangla c = true) : jsWs c = false := by
  rw [isBangla, Bool.and_eq_true, decide_eq_true_eq, decide_eq_true_eq] at h
  obtain ⟨h1, h2⟩ := h
  have e1 : 2432 ≤ uval c := uval_le_of_char_le h1
  have e2 : uval c ≤ 2559 := uval_le_of_char_le h2
  exact not_ws_bn e1 e2

theorem isZwj_not_ws {c : Char} (h : isZwj c = true) : jsWs c = false := by
  rw [isZwj, Bool.or_eq_true, beq_iff_eq, beq_iff_eq] at h
  rcases h with h | h
  · subst h; decide
  · subst h; decide

/-! ### Triggers: the pattern each cleanup step rewrites -/

/-- A nonempty whitespace run followed by an `R`-character. -/
def gapTail (R : Char → Bool) (cs : List Char) : Bool :=
  !(cs.takeWhile jsWs).isEmpty &&
    (match cs.dropWhile jsWs with
     | r :: _ => R r
     | [] => false)

/-- Some `L`-character followed by whitespace and an `R`-character
(the trigger of `delGap L R`). -/
def hasGap (L R : Char → Bool) : List Char → Bool
  | [] => false
  | c :: cs => (L c && gapTail R cs) || hasGap L R cs

/-- Whitespace, a Latin letter, whitespace, a Latin letter. -/
def runTail (cs : List Char) : Bool :=
  !(cs.takeWhile jsWs).isEmpty &&
    (match cs.dropWhile jsWs with
     | b :: cs2 => b.isAlpha && gapTail Char.isAlpha cs2
     | [] => false)

/-- Three single Latin letters separated by whitespace
(the trigger of the spaced-run collapser). -/
def hasRun : List Char → Bool
  | [] => false
  | c :: cs => (c.isAlpha && runTail cs) || hasRun cs

/-- Some adjacent pair of characters satisfies `P`. -/
def hasPair (P : Char → Char → Bool) : List Char → Bool
  | a :: b :: t => P a b || hasPair P (b :: t)
  | _ => false

/-- Whitespace directly before `)`. -/
def pClose (a b : Char) : Bool := jsWs a && b == ')'

/-- `(` directly before whitespace. -/
def pOpen (a b : Char) : Bool := a == '(' && jsWs b

/-- Two adjacent `[ \t]` characters. -/
def pHH (a b : Char) : Bool := isHT a && isHT b

/-- A `[ \t]` character adjacent to a line break. -/
def pHTNl (a b : Char) : Bool := (isHT a && b == '\n') || (a == '\n' && isHT b)

/-- Two adjacent line breaks. -/
def pNlNl (a b : Char) : Bool := a == '\n' && b == '\n'

/-- The normal form of the cleanup cascade: no step's trigger occurs. -/
def cleanNF (l : List Char) : Bool :=
  !hasRun l && !hasGap Char.isDigit Char.isDigit l &&
  !hasGap isAlnum isPunctCS l && !hasPair pClose l && !hasPair pOpen l &&
  !hasGap isBangla isZwj l && !hasGap isZwj isBangla l &&
  !(l.any (fun c => c == '\t')) && !hasPair pHH l &&
  !hasPair pHTNl l && !hasPair pNlNl l

/-! ### Each step is the identity on trigger-free input -/

theorem delGap_id (L R : Char → Bool) :
    ∀ (fuel : Nat) (l : List Char), hasGap L R l = false →
      delGap L R fuel l = l := by
  intro fuel
  induction fuel with
  | zero => intro l _; rfl
  | succ fuel ih =>
    intro l h
    match l with
    | [] => rfl
    | c :: cs =>
      rw [hasGap, Bool.or_eq_false_iff] at h
      obtain ⟨hhead, htail⟩ := h
      rw [delGap]
      by_cases hL : L c = true
      · rw [hL, Bool.true_and] at hhead
        by_cases hE : (cs.takeWhile jsWs).isEmpty = true
        · simp only [hL, if_true, hE, if_pos]
          rw [ih cs htail]
        · cases hd : cs.dropWhile jsWs with
          | nil => simp only [hL, if_true, hE, if_neg, Bool.not_eq_true, hd,
              ih cs htail]
          | cons r rest =>
            have hR : R r = false := by
              rw [Bool.not_eq_true] at hE
              rw [gapTail, hd, hE] at hhead
              simp only [Bool.not_false, Bool.true_and] at hhead
              exact hhead
            simp only [hL, if_true, hE, if_neg, Bool.not_eq_true, hd, hR,
              if_false, ih cs htail]
      · rw [Bool.not_eq_true] at hL
        simp only [hL, Bool.false_eq_true, if_false, ih cs htail]

theorem hasPair_tail {P : Char → Char → Bool} {c : Char} {cs : List Char}
    (h : hasPair P (c :: cs) = false) : hasPair P cs = false := by
  match cs with
  | [] => rfl
  | b :: t =>
    rw [hasPair, Bool.or_eq_false_iff] at h
    exact h.2

theorem hasPair_head {P : Char → Char → Bool} {a b : Char} {t : List Char}
    (h : hasPair P (a :: b :: t) = false) : P a b = false := by
  rw [hasPair, Bool.or_eq_false_iff] at h
  exact h.1

theorem hasPair_cons_mono {P : Char → Char → Bool} {c : Char} {t : List Char}
    (h : hasPair P t = true) : hasPair P (c :: t) = true := by
  match t with
  | [] => simp [hasPair] at h
  | [x] => simp [hasPair] at h
  | a :: b :: t' => rw [hasPair, h, Bool.or_true]

theorem hasPair_append_mono {P : Char → Char → Bool} {u t : List Char}
    (h : hasPair P t = true) : hasPair P (u ++ t) = true := by
  induction u with
  | nil => exact h
  | cons c u ih => exact hasPair_cons_mono ih

theorem hasGap_tail {L R : Char → Bool} {c : Char} {cs : List Char}
    (h : hasGap L R (c :: cs) = false) : hasGap L R cs = false := by
  rw [hasGap, Bool.or_eq_false_iff] at h
  exact h.2

theorem hasRun_tail {c : Char} {cs : List Char}
    (h : hasRun (c :: cs) = false) : hasRun cs = false := by
  rw [hasRun, Bool.or_eq_false_iff] at h
  exact h.2

theorem dropWhile_eq_self_of_head {p : Char → Bool} {l : List Char}
    (h : ∀ c ∈ l.head?, p c = false) : l.dropWhile p = l := by
  cases l with
  | nil => rfl
  | cons c cs =>
    rw [List.dropWhile_cons_of_neg]
    rw [h c (by simp)]
    simp

/-- If a run of `W`-characters headed by `c` drops to an `r` satisfying `Q`,
then some adjacent pair satisfies `fun a b => W a && Q b`. -/
theorem hasPair_run {W Q : Char → Bool} {c r : Char} {cs rest : List Char}
    (hc : W c = true) (hd : (c :: cs).dropWhile W = r :: rest)
    (hq : Q r = true) :
    hasPair (fun a b => W a && Q b) (c :: cs) = true := by
  induction cs generalizing c with
  | nil =>
    rw [List.dropWhile_cons_of_pos hc] at hd
    simp [List.dropWhile] at hd
  | cons d t ih =>
    rw [List.dropWhile_cons_of_pos hc] at hd
    by_cases hdw : W d = true
    · exact hasPair_cons_mono (ih hdw (by rw [List.dropWhile_cons_of_pos hdw] at hd ⊢; exact hd))
    · rw [dropWhile_eq_self_of_head (by simpa using (Bool.not_eq_true _).mp hdw)] at hd
      injection hd with h1 h2
      subst h1
      rw [hasPair]
      simp [hc, hq]

/-! ### One-step unfolding equations, proved by definitional reduction
(the generated equation lemmas are too slow to elaborate with the full
JS whitespace class). -/

theorem delWsClose_cons (fuel : Nat) (c : Char) (cs : List Char) :
    delWsClose (fuel + 1) (c :: cs) =
      (if jsWs c then
        match (c :: cs).dropWhile jsWs with
        | r :: rest =>
          if r == ')' then delWsClose fuel (r :: rest)
          else c :: delWsClose fuel cs
        | [] => c :: delWsClose fuel cs
      else c :: delWsClose fuel cs) := rfl

theorem delWsOpen_cons (fuel : Nat) (c : Char) (cs : List Char) :
    delWsOpen (fuel + 1) (c :: cs) =
      (if c == '(' then '(' :: delWsOpen fuel (cs.dropWhile jsWs)
      else c :: delWsOpen fuel cs) := rfl

theorem collapseHT_cons (fuel : Nat) (c : Char) (cs : List Char) :
    collapseHT (fuel + 1) (c :: cs) =
      (if isHT c then ' ' :: collapseHT fuel (cs.dropWhile isHT)
      else c :: collapseHT fuel cs) := rfl

theorem trimNlRuns_cons (fuel : Nat) (c : Char) (cs : List Char) :
    trimNlRuns (fuel + 1) (c :: cs) =
      (if c == '\n' then '\n' :: trimNlRuns fuel (cs.dropWhile isHT)
      else if isHT c then
        match (c :: cs).dropWhile isHT with
        | r :: cs2 =>
          if r == '\n' then '\n' :: trimNlRuns fuel (cs2.dropWhile isHT)
          else c :: trimNlRuns fuel cs
        | [] => c :: trimNlRuns fuel cs
      else c :: trimNlRuns fuel cs) := rfl

theorem collapseNl_cons (fuel : Nat) (c : Char) (cs : List Char) :
    collapseNl (fuel + 1) (c :: cs) =
      (if c == '\n' then
        '\n' :: collapseNl fuel (cs.dropWhile (fun d => d == '\n'))
      else c :: collapseNl fuel cs) := rfl

theorem latinReps_cons (fuel : Nat) (c : Char) (cs : List Char) :
    latinReps (fuel + 1) (c :: cs) =
      (if c.isAlpha then
        if (cs.takeWhile jsWs).isEmpty then ([], c :: cs)
        else
          let pr := latinReps fuel (cs.dropWhile jsWs)
          ((c, cs.takeWhile jsWs) :: pr.1, pr.2)
      else ([], c :: cs)) := rfl

theorem collapseRuns_cons (fuel : Nat) (c : Char) (cs : List Char) :
    collapseRuns (fuel + 1) (c :: cs) =
      (match (latinReps (c :: cs).length (c :: cs)).2 with
      | l :: rest =>
        if l.isAlpha &&
            decide (2 ≤ (latinReps (c :: cs).length (c :: cs)).1.length) then
          (latinReps (c :: cs).length (c :: cs)).1.map Prod.fst ++
            l :: collapseRuns fuel rest
        else if decide (3 ≤ (latinReps (c :: cs).length (c :: cs)).1.length) then
          (latinReps (c :: cs).length (c :: cs)).1.map Prod.fst ++
            collapseRuns fuel
              (((latinReps (c :: cs).length (c :: cs)).1.getLastD
                  (Char.ofNat 97, [])).2 ++
                (latinReps (c :: cs).length (c :: cs)).2)
        else c :: collapseRuns fuel cs
      | [] =>
        if decide (3 ≤ (latinReps (c :: cs).length (c :: cs)).1.length) then
          (latinReps (c :: cs).length (c :: cs)).1.map Prod.fst ++
            collapseRuns fuel
              (((latinReps (c :: cs).length (c :: cs)).1.getLastD
                  (Char.ofNat 97, [])).2 ++
                (latinReps (c :: cs).length (c :: cs)).2)
        else c :: collapseRuns fuel cs) := rfl

theorem delWsClose_id :
    ∀ (fuel : Nat) (l : List Char), hasPair pClose l = false →
      delWsClose fuel l = l := by
  intro fuel
  induction fuel with
  | zero => intro l _; rfl
  | succ fuel ih =>
    intro l h
    match l with
    | [] => rfl
    | c :: cs =>
      rw [delWsClose_cons]
      cases hc : jsWs c with
      | true =>
        simp only [if_true]
        cases hd : (c :: cs).dropWhile jsWs with
        | nil => rw [ih cs (hasPair_tail h)]
        | cons r rest =>
          have hr : (r == ')') = false := by
            cases hrb : r == ')' with
            | false => rfl
            | true =>
              exfalso
              have hp := hasPair_run (Q := fun b => b == ')') hc hd hrb
              rw [show (fun a b => jsWs a && (b == ')')) = pClose from rfl] at hp
              rw [h] at hp
              exact absurd hp (by simp)
          show (if (r == ')') = true then delWsClose fuel (r :: rest)
            else c :: delWsClose fuel cs) = c :: cs
          rw [hr]
          simp only [Bool.false_eq_true, if_false]
          rw [ih cs (hasPair_tail h)]
      | false =>
        simp only [Bool.false_eq_true, if_false, ih cs (hasPair_tail h)]

theorem delWsOpen_id :
    ∀ (fuel : Nat) (l : List Char), hasPair pOpen l = false →
      delWsOpen fuel l = l := by
  intro fuel
  induction fuel with
  | zero => intro l _; rfl
  | succ fuel ih =>
    intro l h
    match l with
    | [] => rfl
    | c :: cs =>
      rw [delWsOpen_cons]
      by_cases hc : (c == '(') = true
      · simp only [hc, if_true]
        have hcs : cs.dropWhile jsWs = cs := by
          apply dropWhile_eq_self_of_head
          intro d hd
          cases cs with
          | nil => simp at hd
          | cons d0 t =>
            simp only [List.head?_cons, Option.mem_def, Option.some.injEq] at hd
            have hp : pOpen c d0 = false := hasPair_head h
            rw [pOpen, hc, Bool.true_and] at hp
            rw [← hd]
            exact hp
        rw [hcs, ih cs (hasPair_tail h)]
        rw [beq_iff_eq] at hc
        rw [hc]
      · simp only [hc, Bool.false_eq_true, if_false, ih cs (hasPair_tail h)]

theorem hasPair_mono {P Q : Char → Char → Bool}
    (hpq : ∀ a b, P a b = true → Q a b = true) :
    ∀ {l : List Char}, hasPair P l = true → hasPair Q l = true := by
  intro l
  induction l with
  | nil => intro h; simp [hasPair] at h
  | cons c cs ih =>
    intro h
    match cs, h with
    | b :: t, h =>
      rw [hasPair, Bool.or_eq_true] at h
      rcases h with h | h
      · rw [hasPair, hpq c b h, Bool.true_or]
      · exact hasPair_cons_mono (ih h)

theorem collapseHT_id :
    ∀ (fuel : Nat) (l : List Char), l.any (fun c => c == '\t') = false →
      hasPair pHH l = false → collapseHT fuel l = l := by
  intro fuel
  induction fuel with
  | zero => intro l _ _; rfl
  | succ fuel ih =>
    intro l ht h
    match l with
    | [] => rfl
    | c :: cs =>
      rw [List.any_cons, Bool.or_eq_false_iff] at ht
      obtain ⟨ht1, ht2⟩ := ht
      rw [collapseHT_cons]
      cases hc : isHT c with
      | true =>
        simp only [if_true]
        have hsp : c = ' ' := by
          rw [isHT, Bool.or_eq_true, beq_iff_eq, beq_iff_eq] at hc
          rcases hc with h1 | h1
          · exact h1
          · subst h1; simp at ht1
        have hcs : cs.dropWhile isHT = cs := by
          apply dropWhile_eq_self_of_head
          intro d hd
          cases cs with
          | nil => simp at hd
          | cons d0 t =>
            simp only [List.head?_cons, Option.mem_def, Option.some.injEq] at hd
            have hp : pHH c d0 = false := hasPair_head h
            rw [pHH, hc, Bool.true_and] at hp
            rw [← hd]
            exact hp
        rw [hcs, ih cs ht2 (hasPair_tail h), hsp]
      | false =>
        simp only [Bool.false_eq_true, if_false,
          ih cs ht2 (hasPair_tail h)]

theorem trimNlRuns_id :
    ∀ (fuel : Nat) (l : List Char), hasPair pHTNl l = false →
      trimNlRuns fuel l = l := by
  intro fuel
  induction fuel with
  | zero => intro l _; rfl
  | succ fuel ih =>
    intro l h
    match l with
    | [] => rfl
    | c :: cs =>
      rw [trimNlRuns_cons]
      by_cases hnl : (c == '\n') = true
      · simp only [hnl, if_true]
        have hcs : cs.dropWhile isHT = cs := by
          apply dropWhile_eq_self_of_head
          intro d hd
          cases cs with
          | nil => simp at hd
          | cons d0 t =>
            simp only [List.head?_cons, Option.mem_def, Option.some.injEq] at hd
            have hp : pHTNl c d0 = false := hasPair_head h
            rw [pHTNl, Bool.or_eq_false_iff] at hp
            have := hp.2
            rw [hnl, Bool.true_and] at this
            rw [← hd]
            exact this
        rw [hcs, ih cs (hasPair_tail h)]
        rw [beq_iff_eq] at hnl
        rw [hnl]
      · simp only [hnl, Bool.false_eq_true, if_false]
        cases hc : isHT c with
        | true =>
          simp only [if_true]
          cases hd : (c :: cs).dropWhile isHT with
          | nil => rw [ih cs (hasPair_tail h)]
          | cons r cs2 =>
            have hr : (r == '\n') = false := by
              cases hrb : r == '\n' with
              | false => rfl
              | true =>
                exfalso
                have hp := hasPair_run (Q := fun b => b == '\n') hc hd hrb
                have hp2 := hasPair_mono
                  (P := fun a b => isHT a && (b == '\n')) (Q := pHTNl)
                  (fun a b hab => by
                    rw [pHTNl, Bool.or_eq_true]
                    exact Or.inl hab) hp
                rw [h] at hp2
                exact absurd hp2 (by simp)
            show (if (r == '\n') = true then
                '\n' :: trimNlRuns fuel (cs2.dropWhile isHT)
              else c :: trimNlRuns fuel cs) = c :: cs
            rw [hr]
            simp only [Bool.false_eq_true, if_false]
            rw [ih cs (hasPair_tail h)]
        | false =>
          simp only [Bool.false_eq_true, if_false, ih cs (hasPair_tail h)]

theorem collapseNl_id :
    ∀ (fuel : Nat) (l : List Char), hasPair pNlNl l = false →
      collapseNl fuel l = l := by
  intro fuel
  induction fuel with
  | zero => intro l _; rfl
  | succ fuel ih =>
    intro l h
    match l with
    | [] => rfl
    | c :: cs =>
      rw [collapseNl_cons]
      by_cases hnl : (c == '\n') = true
      · simp only [hnl, if_true]
        have hcs : cs.dropWhile (fun d => d == '\n') = cs := by
          apply dropWhile_eq_self_of_head
          intro d hd
          cases cs with
          | nil => simp at hd
          | cons d0 t =>
            simp only [List.head?_cons, Option.mem_def, Option.some.injEq] at hd
            have hp : pNlNl c d0 = false := hasPair_head h
            rw [pNlNl, hnl, Bool.true_and] at hp
            rw [← hd]
            exact hp
        rw [hcs, ih cs (hasPair_tail h)]
        rw [beq_iff_eq] at hnl
        rw [hnl]
      · simp only [hnl, Bool.false_eq_true, if_false, ih cs (hasPair_tail h)]

/-- Flattening of a `latinReps` pair chain back into the character list it
was scanned from (proof support for the spaced-run collapser). -/
def repsFlat : List (Char × List Char) → List Char → List Char
  | [], rem => rem
  | (a, w) :: ps, rem => a :: (w ++ repsFlat ps rem)

theorem dropWhile_all_append {p : Char → Bool} :
    ∀ {w : List Char} {a : Char} {t : List Char}, w.all p = true →
      p a = false → (w ++ a :: t).dropWhile p = a :: t := by
  intro w
  induction w with
  | nil =>
    intro a t _ hna
    rw [List.nil_append, List.dropWhile_cons_of_neg (by rw [hna]; simp)]
  | cons x wt ih =>
    intro a t hall hna
    rw [List.all_cons, Bool.and_eq_true] at hall
    rw [List.cons_append, List.dropWhile_cons_of_pos hall.1, ih hall.2 hna]

theorem gapTail_of {R : Char → Bool} {w : List Char} {a : Char} {t : List Char}
    (hw : w ≠ []) (hwa : w.all jsWs = true) (hna : jsWs a = false)
    (hR : R a = true) : gapTail R (w ++ a :: t) = true := by
  cases w with
  | nil => exact absurd rfl hw
  | cons x wt =>
    rw [List.all_cons, Bool.and_eq_true] at hwa
    have hdrop : ((x :: wt) ++ a :: t).dropWhile jsWs = a :: t :=
      dropWhile_all_append (by rw [List.all_cons]; simp [hwa.1, hwa.2]) hna
    rw [gapTail, hdrop]
    show (!(((x :: wt) ++ a :: t).takeWhile jsWs).isEmpty && R a) = true
    rw [List.cons_append, List.takeWhile_cons_of_pos hwa.1]
    simp [hR]

theorem runTail_of {w1 : List Char} {a2 : Char} {cs2 : List Char}
    (hw1 : w1 ≠ []) (hw1a : w1.all jsWs = true) (h2 : a2.isAlpha = true)
    (hg : gapTail Char.isAlpha cs2 = true) :
    runTail (w1 ++ a2 :: cs2) = true := by
  cases w1 with
  | nil => exact absurd rfl hw1
  | cons x wt =>
    rw [List.all_cons, Bool.and_eq_true] at hw1a
    have hdrop : ((x :: wt) ++ a2 :: cs2).dropWhile jsWs = a2 :: cs2 :=
      dropWhile_all_append (by rw [List.all_cons]; simp [hw1a.1, hw1a.2])
        (isAlpha_not_ws h2)
    rw [runTail, hdrop]
    show (!(((x :: wt) ++ a2 :: cs2).takeWhile jsWs).isEmpty &&
      (a2.isAlpha && gapTail Char.isAlpha cs2)) = true
    rw [List.cons_append, List.takeWhile_cons_of_pos hw1a.1]
    simp [h2, hg]

theorem hasRun_of_shape {a1 a2 a3 : Char} {w1 w2 t3 : List Char}
    (h1 : a1.isAlpha = true) (h2 : a2.isAlpha = true) (h3 : a3.isAlpha = true)
    (hw1 : w1 ≠ []) (hw1a : w1.all jsWs = true)
    (hw2 : w2 ≠ []) (hw2a : w2.all jsWs = true) :
    hasRun (a1 :: (w1 ++ a2 :: (w2 ++ a3 :: t3))) = true := by
  rw [hasRun, Bool.or_eq_true]
  left
  rw [h1, Bool.true_and]
  exact runTail_of hw1 hw1a h2 (gapTail_of hw2 hw2a (isAlpha_not_ws h3) h3)

theorem latinReps_spec :
    ∀ (fuel : Nat) (l : List Char) {ps : List (Char × List Char)}
      {rem : List Char}, latinReps fuel l = (ps, rem) →
      l = repsFlat ps rem ∧
        ∀ p ∈ ps, p.1.isAlpha = true ∧ p.2 ≠ [] ∧ p.2.all jsWs = true := by
  intro fuel
  induction fuel with
  | zero =>
    intro l ps rem h
    have h0 : (([], l) : List (Char × List Char) × List Char) = (ps, rem) := h
    injection h0 with hps hrem
    subst hps
    subst hrem
    exact ⟨rfl, by intro p hp; simp at hp⟩
  | succ fuel ih =>
    intro l ps rem h
    match l with
    | [] =>
      have h0 : (([], []) : List (Char × List Char) × List Char) = (ps, rem) := h
      injection h0 with hps hrem
      subst hps
      subst hrem
      exact ⟨rfl, by intro p hp; simp at hp⟩
    | c :: cs =>
      rw [latinReps_cons] at h
      by_cases ha : c.isAlpha = true
      · simp only [ha, if_true] at h
        by_cases he : (cs.takeWhile jsWs).isEmpty = true
        · simp only [he, if_true] at h
          injection h with hps hrem
          subst hps
          subst hrem
          exact ⟨rfl, by intro p hp; simp at hp⟩
        · rw [Bool.not_eq_true] at he
          simp only [he, Bool.false_eq_true, if_false] at h
          rcases hrec : latinReps fuel (cs.dropWhile jsWs) with ⟨ps2, rem2⟩
          simp only [hrec] at h
          injection h with hps hrem
          subst hps
          subst hrem
          obtain ⟨ihflat, ihprops⟩ := ih (cs.dropWhile jsWs) hrec
          constructor
          · show c :: cs = c :: (cs.takeWhile jsWs ++ repsFlat ps2 rem2)
            rw [← ihflat, List.takeWhile_append_dropWhile jsWs cs]
          · intro p hp
            rcases List.mem_cons.mp hp with hp | hp
            · subst hp
              refine ⟨ha, ?_, List.all_takeWhile⟩
              intro hn
              replace hn : List.takeWhile jsWs cs = [] := hn
              rw [hn] at he
              simp at he
            · exact ihprops p hp
      · rw [Bool.not_eq_true] at ha
        simp only [ha, Bool.false_eq_true, if_false] at h
        injection h with hps hrem
        subst hps
        subst hrem
        exact ⟨rfl, by intro p hp; simp at hp⟩

theorem hasRun_of_reps {fuel : Nat} {l : List Char}
    {ps : List (Char × List Char)} {rem : List Char}
    (h : latinReps fuel l = (ps, rem)) (h2 : 2 ≤ ps.length)
    (h3 : (∃ r rs, rem = r :: rs ∧ r.isAlpha = true) ∨ 3 ≤ ps.length) :
    hasRun l = true := by
  obtain ⟨hflat, hprops⟩ := latinReps_spec fuel l h
  rcases ps with _ | ⟨⟨a1, w1⟩, _ | ⟨⟨a2, w2⟩, ps2⟩⟩
  · simp at h2
  · simp at h2
  · have hp1 := hprops (a1, w1) (by simp)
    have hp2 := hprops (a2, w2) (by simp)
    have hthird : ∃ a3 t3, repsFlat ps2 rem = a3 :: t3 ∧ a3.isAlpha = true := by
      rcases ps2 with _ | ⟨⟨a3, w3⟩, ps3⟩
      · rcases h3 with ⟨r, rs, hrem, hr⟩ | h3
        · exact ⟨r, rs, by rw [repsFlat, hrem], hr⟩
        · exfalso
          simp at h3
      · exact ⟨a3, w3 ++ repsFlat ps3 rem, rfl,
          (hprops (a3, w3) (by simp)).1⟩
    obtain ⟨a3, t3, hps2, ha3⟩ := hthird
    rw [hflat]
    show hasRun (a1 :: (w1 ++ a2 :: (w2 ++ repsFlat ps2 rem))) = true
    rw [hps2]
    exact hasRun_of_shape hp1.1 hp2.1 ha3 hp1.2.1 hp1.2.2 hp2.2.1 hp2.2.2

theorem collapseRuns_id :
    ∀ (fuel : Nat) (l : List Char), hasRun l = false →
      collapseRuns fuel l = l := by
  intro fuel
  induction fuel with
  | zero => intro l _; rfl
  | succ fuel ih =>
    intro l h
    match l with
    | [] => rfl
    | c :: cs =>
      rw [collapseRuns_cons]
      rcases hlr : latinReps (c :: cs).length (c :: cs) with ⟨ps, rem⟩
      simp only [hlr]
      cases rem with
      | nil =>
        show (if decide (3 ≤ ps.length) = true then
            ps.map Prod.fst ++
              collapseRuns fuel ((ps.getLastD (Char.ofNat 97, [])).2 ++ [])
          else c :: collapseRuns fuel cs) = c :: cs
        by_cases h3 : decide (3 ≤ ps.length) = true
        · exfalso
          rw [decide_eq_true_eq] at h3
          have hr := hasRun_of_reps hlr (by omega) (Or.inr h3)
          rw [h] at hr
          exact absurd hr (by simp)
        · rw [Bool.not_eq_true] at h3
          simp only [h3, Bool.false_eq_true, if_false]
          rw [ih cs (hasRun_tail h)]
      | cons r rest =>
        show (if (r.isAlpha && decide (2 ≤ ps.length)) = true then
            ps.map Prod.fst ++ r :: collapseRuns fuel rest
          else if decide (3 ≤ ps.length) = true then
            ps.map Prod.fst ++
              collapseRuns fuel
                ((ps.getLastD (Char.ofNat 97, [])).2 ++ r :: rest)
          else c :: collapseRuns fuel cs) = c :: cs
        by_cases h2 : (r.isAlpha && decide (2 ≤ ps.length)) = true
        · exfalso
          rw [Bool.and_eq_true, decide_eq_true_eq] at h2
          have hr := hasRun_of_reps hlr h2.2 (Or.inl ⟨r, rest, rfl, h2.1⟩)
          rw [h] at hr
          exact absurd hr (by simp)
        · rw [Bool.not_eq_true] at h2
          simp only [h2, Bool.false_eq_true, if_false]
          by_cases h3 : decide (3 ≤ ps.length) = true
          · exfalso
            rw [decide_eq_true_eq] at h3
            have hr := hasRun_of_reps hlr (by omega) (Or.inr h3)
            rw [h] at hr
            exact absurd hr (by simp)
          · rw [Bool.not_eq_true] at h3
            simp only [h3, Bool.false_eq_true, if_false]
            rw [ih cs (hasRun_tail h)]

/-! ### Whitespace-rewriting simulation

Every cleanup step after the first keeps all non-whitespace characters in
order and only rewrites whitespace runs, never creating a run where none
was.  `WsRel l r` captures this: `r` is obtained from `l` by keeping
non-whitespace characters and replacing each nonempty whitespace run by an
arbitrary (possibly empty) whitespace run. -/

inductive WsRel : List Char → List Char → Prop
  | nil : WsRel [] []
  | keep {c : Char} {l r : List Char} : jsWs c = false → WsRel l r →
      WsRel (c :: l) (c :: r)
  | gap {g h l r : List Char} : g ≠ [] → g.all jsWs = true →
      h.all jsWs = true → WsRel l r → WsRel (g ++ l) (h ++ r)

theorem wsRel_refl : ∀ (l : List Char), WsRel l l := by
  intro l
  induction l with
  | nil => exact WsRel.nil
  | cons c cs ih =>
    cases hc : jsWs c with
    | false => exact WsRel.keep hc ih
    | true =>
      exact WsRel.gap (g := [c]) (h := [c]) (by simp)
        (by simp [hc]) (by simp [hc]) ih

theorem dropWhile_append_all {p : Char → Bool} :
    ∀ {g m : List Char}, g.all p = true →
      (g ++ m).dropWhile p = m.dropWhile p := by
  intro g
  induction g with
  | nil => intro m _; rfl
  | cons x g2 ih =>
    intro m hall
    rw [List.all_cons, Bool.and_eq_true] at hall
    rw [List.cons_append, List.dropWhile_cons_of_pos hall.1, ih hall.2]

theorem wsRel_dropWhile {l r : List Char} (h : WsRel l r) :
    (l.dropWhile jsWs = [] ∧ r.dropWhile jsWs = []) ∨
      (∃ c t u, jsWs c = false ∧ l.dropWhile jsWs = c :: t ∧
        r.dropWhile jsWs = c :: u ∧ WsRel t u) := by
  induction h with
  | nil => exact Or.inl ⟨rfl, rfl⟩
  | keep hc _ _ =>
    rename_i c l2 r2 hrel ih
    right
    exact ⟨c, l2, r2, hc,
      List.dropWhile_cons_of_neg (by rw [hc]; simp),
      List.dropWhile_cons_of_neg (by rw [hc]; simp), hrel⟩
  | gap hg hga hha _ ih =>
    rw [dropWhile_append_all hga, dropWhile_append_all hha]
    exact ih

theorem head_ws_transfer {l r : List Char} (h : WsRel l r) :
    ∀ {hd : Char} {tl : List Char}, r = hd :: tl → jsWs hd = true →
      ∃ hd2 tl2, l = hd2 :: tl2 ∧ jsWs hd2 = true := by
  induction h with
  | nil => intro hd tl he _; exact absurd he (by simp)
  | keep hc _ _ =>
    rename_i c l2 r2 hrel ih
    intro hd tl he hw
    injection he with h1 _
    rw [← h1] at hw
    rw [hc] at hw
    exact absurd hw (by simp)
  | gap hg hga hha _ ih =>
    rename_i g h2 l2 r2 hrel
    intro hd tl he hw
    cases g with
    | nil => exact absurd rfl hg
    | cons x g2 =>
      rw [List.all_cons, Bool.and_eq_true] at hga
      exact ⟨x, g2 ++ l2, rfl, hga.1⟩

theorem gapTail_transfer {R : Char → Bool} {l r : List Char}
    (h : WsRel l r) (hg : gapTail R r = true) : gapTail R l = true := by
  rw [gapTail, Bool.and_eq_true] at hg
  obtain ⟨hne, hmatch⟩ := hg
  have hrhead : ∃ hd tl, r = hd :: tl ∧ jsWs hd = true := by
    cases r with
    | nil => simp at hne
    | cons x t =>
      cases hx : jsWs x with
      | true => exact ⟨x, t, rfl, hx⟩
      | false =>
        rw [List.takeWhile_cons_of_neg (by rw [hx]; simp)] at hne
        simp at hne
  obtain ⟨hd, tl, hre, hw⟩ := hrhead
  obtain ⟨hd2, tl2, hle, hw2⟩ := head_ws_transfer h hre hw
  rcases wsRel_dropWhile h with ⟨hl0, hr0⟩ | ⟨c, t, u, hc, hl1, hr1, _⟩
  · rw [hr0] at hmatch
    simp at hmatch
  · rw [hr1] at hmatch
    rw [gapTail, hl1, Bool.and_eq_true]
    refine ⟨?_, hmatch⟩
    rw [hle, List.takeWhile_cons_of_pos hw2]
    simp

theorem ws_not_alpha {c : Char} (h : jsWs c = true) : c.isAlpha = false := by
  cases ha : c.isAlpha with
  | false => rfl
  | true => rw [isAlpha_not_ws ha] at h; exact absurd h (by simp)

theorem hasGap_cons_mono {L R : Char → Bool} {c : Char} {t : List Char}
    (h : hasGap L R t = true) : hasGap L R (c :: t) = true := by
  rw [hasGap, h, Bool.or_true]

theorem hasGap_ws_append {L R : Char → Bool}
    (hL : ∀ c, L c = true → jsWs c = false) :
    ∀ {g m : List Char}, g.all jsWs = true →
      hasGap L R (g ++ m) = hasGap L R m := by
  intro g
  induction g with
  | nil => intro m _; rfl
  | cons x g2 ih =>
    intro m hall
    rw [List.all_cons, Bool.and_eq_true] at hall
    have hLx : L x = false := by
      cases hx : L x with
      | false => rfl
      | true => rw [hL x hx] at hall; exact absurd hall.1 (by simp)
    rw [List.cons_append, hasGap, hLx, Bool.false_and, Bool.false_or,
      ih hall.2]

theorem hasGap_transfer {L R : Char → Bool}
    (hL : ∀ c, L c = true → jsWs c = false) {l r : List Char}
    (h : WsRel l r) (hg : hasGap L R r = true) : hasGap L R l = true := by
  induction h with
  | nil => simp [hasGap] at hg
  | keep hc _ ih =>
    rename_i c l2 r2 hrel
    rw [hasGap, Bool.or_eq_true] at hg
    rcases hg with hg | hg
    · rw [Bool.and_eq_true] at hg
      rw [hasGap, Bool.or_eq_true]
      left
      rw [Bool.and_eq_true]
      exact ⟨hg.1, gapTail_transfer hrel hg.2⟩
    · exact hasGap_cons_mono (ih hg)
  | gap hgne hga hha _ ih =>
    rw [hasGap_ws_append hL hha] at hg
    rw [hasGap_ws_append hL hga]
    exact ih hg

theorem runTail_transfer {l r : List Char} (h : WsRel l r)
    (hg : runTail r = true) : runTail l = true := by
  rw [runTail, Bool.and_eq_true] at hg
  obtain ⟨hne, hmatch⟩ := hg
  have hrhead : ∃ hd tl, r = hd :: tl ∧ jsWs hd = true := by
    cases r with
    | nil => simp at hne
    | cons x t =>
      cases hx : jsWs x with
      | true => exact ⟨x, t, rfl, hx⟩
      | false =>
        rw [List.takeWhile_cons_of_neg (by rw [hx]; simp)] at hne
        simp at hne
  obtain ⟨hd, tl, hre, hw⟩ := hrhead
  obtain ⟨hd2, tl2, hle, hw2⟩ := head_ws_transfer h hre hw
  rcases wsRel_dropWhile h with ⟨hl0, hr0⟩ | ⟨c, t, u, hc, hl1, hr1, hrel2⟩
  · rw [hr0] at hmatch
    simp at hmatch
  · rw [hr1] at hmatch
    replace hmatch : (c.isAlpha && gapTail Char.isAlpha u) = true := hmatch
    rw [Bool.and_eq_true] at hmatch
    rw [runTail, hl1, Bool.and_eq_true]
    constructor
    · rw [hle, List.takeWhile_cons_of_pos hw2]
      simp
    · show (c.isAlpha && gapTail Char.isAlpha t) = true
      rw [Bool.and_eq_true]
      exact ⟨hmatch.1, gapTail_transfer hrel2 hmatch.2⟩

theorem hasRun_cons_mono {c : Char} {t : List Char}
    (h : hasRun t = true) : hasRun (c :: t) = true := by
  rw [hasRun, h, Bool.or_true]

theorem hasRun_ws_append :
    ∀ {g m : List Char}, g.all jsWs = true →
      hasRun (g ++ m) = hasRun m := by
  intro g
  induction g with
  | nil => intro m _; rfl
  | cons x g2 ih =>
    intro m hall
    rw [List.all_cons, Bool.and_eq_true] at hall
    rw [List.cons_append, hasRun, ws_not_alpha hall.1, Bool.false_and,
      Bool.false_or, ih hall.2]

theorem hasRun_transfer {l r : List Char} (h : WsRel l r)
    (hg : hasRun r = true) : hasRun l = true := by
  induction h with
  | nil => simp [hasRun] at hg
  | keep hc _ ih =>
    rename_i c l2 r2 hrel
    rw [hasRun, Bool.or_eq_true] at hg
    rcases hg with hg | hg
    · rw [Bool.and_eq_true] at hg
      rw [hasRun, Bool.or_eq_true]
      left
      rw [Bool.and_eq_true]
      exact ⟨hg.1, runTail_transfer hrel hg.2⟩
    · exact hasRun_cons_mono (ih hg)
  | gap hgne hga hha _ ih =>
    rw [hasRun_ws_append hha] at hg
    rw [hasRun_ws_append hga]
    exact ih hg

theorem hasPair_cons_elim {P : Char → Char → Bool} {c : Char} {X : List Char}
    (h : hasPair P (c :: X) = true) :
    (∃ b t, X = b :: t ∧ P c b = true) ∨ hasPair P X = true := by
  cases X with
  | nil => simp [hasPair] at h
  | cons b t =>
    rw [hasPair, Bool.or_eq_true] at h
    rcases h with h | h
    · exact Or.inl ⟨b, t, rfl, h⟩
    · exact Or.inr h

theorem hasPair_cons_false {P : Char → Char → Bool} {c : Char} {X : List Char}
    (hhead : ∀ b t, X = b :: t → P c b = false)
    (htail : hasPair P X = false) : hasPair P (c :: X) = false := by
  cases X with
  | nil => rfl
  | cons b t =>
    rw [hasPair, Bool.or_eq_false_iff]
    exact ⟨hhead b t rfl, htail⟩

theorem pair_of_ws_close :
    ∀ {w t : List Char}, w ≠ [] → w.all jsWs = true →
      hasPair pClose (w ++ ')' :: t) = true := by
  intro w
  induction w with
  | nil => intro t h _; exact absurd rfl h
  | cons x w2 ih =>
    intro t _ hall
    rw [List.all_cons, Bool.and_eq_true] at hall
    cases w2 with
    | nil =>
      show hasPair pClose (x :: ')' :: t) = true
      rw [hasPair, Bool.or_eq_true]
      left
      rw [pClose, hall.1]
      simp
    | cons y w3 =>
      have h2 := ih (t := t) (by simp) hall.2
      rw [List.cons_append] at h2
      rw [List.cons_append, List.cons_append, hasPair, h2, Bool.or_true]

theorem hasPair_close_ws_elim :
    ∀ {g m : List Char}, g.all jsWs = true →
      hasPair pClose (g ++ m) = true →
      (g ≠ [] ∧ ∃ t, m = ')' :: t) ∨ hasPair pClose m = true := by
  intro g
  induction g with
  | nil => intro m _ h; exact Or.inr h
  | cons x g2 ih =>
    intro m hall h
    rw [List.all_cons, Bool.and_eq_true] at hall
    rw [List.cons_append] at h
    rcases hasPair_cons_elim h with ⟨b, t2, hbt, hP⟩ | h2
    · rw [pClose, Bool.and_eq_true, beq_iff_eq] at hP
      cases g2 with
      | nil =>
        left
        refine ⟨by simp, t2, ?_⟩
        rw [List.nil_append] at hbt
        rw [hbt, hP.2]
      | cons y g3 =>
        exfalso
        rw [List.cons_append] at hbt
        injection hbt with hyb _
        rw [List.all_cons, Bool.and_eq_true] at hall
        have hy := hall.2.1
        rw [hyb, hP.2] at hy
        exact absurd hy (by decide)
    · rcases ih hall.2 h2 with ⟨_, ht⟩ | h3
      · exact Or.inl ⟨by simp, ht⟩
      · exact Or.inr h3

theorem pClose_transfer {l r : List Char} (h : WsRel l r)
    (hg : hasPair pClose r = true) : hasPair pClose l = true := by
  induction h with
  | nil => simp [hasPair] at hg
  | keep hc _ ih =>
    rename_i c l2 r2 hrel
    rcases hasPair_cons_elim hg with ⟨b, t, hbt, hP⟩ | h2
    · exfalso
      rw [pClose, hc, Bool.false_and] at hP
      exact absurd hP (by simp)
    · exact hasPair_cons_mono (ih h2)
  | gap hgne hga hha _ ih =>
    rename_i g h2 l2 r2 hrel
    rcases hasPair_close_ws_elim hha hg with ⟨_, t2, hr2⟩ | hcl
    · have hd2 : r2.dropWhile jsWs = ')' :: t2 := by
        rw [hr2]
        exact List.dropWhile_cons_of_neg (by decide)
      rcases wsRel_dropWhile hrel with ⟨_, hr0⟩ | ⟨c, t, u, _, hl1, hr1, _⟩
      · rw [hd2] at hr0
        exact absurd hr0 (by simp)
      · rw [hr1] at hd2
        injection hd2 with hcp _
        rw [hcp] at hl1
        have hsplit : l2 = l2.takeWhile jsWs ++ ')' :: t := by
          rw [← hl1, List.takeWhile_append_dropWhile]
        rw [hsplit, ← List.append_assoc]
        apply pair_of_ws_close
        · cases g with
          | nil => exact absurd rfl hgne
          | cons a b => simp
        · rw [List.all_append, Bool.and_eq_true]
          exact ⟨hga, List.all_takeWhile⟩
    · exact hasPair_append_mono (ih hcl)

theorem hasPair_open_ws_elim :
    ∀ {g m : List Char}, g.all jsWs = true →
      hasPair pOpen (g ++ m) = true → hasPair pOpen m = true := by
  intro g
  induction g with
  | nil => intro m _ h; exact h
  | cons x g2 ih =>
    intro m hall h
    rw [List.all_cons, Bool.and_eq_true] at hall
    rw [List.cons_append] at h
    rcases hasPair_cons_elim h with ⟨b, t2, _, hP⟩ | h2
    · exfalso
      rw [pOpen, Bool.and_eq_true, beq_iff_eq] at hP
      have hx := hall.1
      rw [hP.1] at hx
      exact absurd hx (by decide)
    · exact ih hall.2 h2

theorem pOpen_transfer {l r : List Char} (h : WsRel l r)
    (hg : hasPair pOpen r = true) : hasPair pOpen l = true := by
  induction h with
  | nil => simp [hasPair] at hg
  | keep hc _ ih =>
    rename_i c l2 r2 hrel
    rcases hasPair_cons_elim hg with ⟨b, t, hbt, hP⟩ | h2
    · rw [pOpen, Bool.and_eq_true] at hP
      obtain ⟨hd2, tl2, hle, hw2⟩ := head_ws_transfer hrel hbt hP.2
      rw [hle, hasPair, Bool.or_eq_true]
      left
      rw [pOpen, Bool.and_eq_true]
      exact ⟨hP.1, hw2⟩
    · exact hasPair_cons_mono (ih h2)
  | gap hgne hga hha _ ih =>
    rename_i g h2 l2 r2 hrel
    exact hasPair_append_mono (ih (hasPair_open_ws_elim hha hg))

theorem all_ws_of_all {p : Char → Bool} (hp : ∀ c, p c = true → jsWs c = true) :
    ∀ {l : List Char}, l.all p = true → l.all jsWs = true := by
  intro l h
  rw [List.all_eq_true] at h ⊢
  intro x hx
  exact hp x (h x hx)

theorem isHT_ws {c : Char} (h : isHT c = true) : jsWs c = true := by
  rw [isHT, Bool.or_eq_true, beq_iff_eq, beq_iff_eq] at h
  rcases h with h | h
  · subst h; decide
  · subst h; decide

theorem eqNl_ws {c : Char} (h : (c == '\n') = true) : jsWs c = true := by
  rw [beq_iff_eq] at h
  subst h
  decide

theorem wsRel_cons_step {c : Char} {cs out : List Char}
    (h : WsRel cs out) : WsRel (c :: cs) (c :: out) := by
  cases hc : jsWs c with
  | false => exact WsRel.keep hc h
  | true =>
    exact WsRel.gap (g := [c]) (h := [c]) (by simp) (by simp [hc])
      (by simp [hc]) h

theorem dropWhile_eq_self_of_takeWhile {p : Char → Bool} {l : List Char}
    (h : l.takeWhile p = []) : l.dropWhile p = l := by
  cases l with
  | nil => rfl
  | cons c cs =>
    cases hc : p c with
    | true => rw [List.takeWhile_cons_of_pos hc] at h; exact absurd h (by simp)
    | false => exact List.dropWhile_cons_of_neg (by rw [hc]; simp)

theorem wsRel_dropping_of {p : Char → Bool}
    (hp : ∀ c, p c = true → jsWs c = true) (cs : List Char) {out : List Char}
    (h : WsRel (cs.dropWhile p) out) : WsRel cs out := by
  cases ht : cs.takeWhile p with
  | nil =>
    rw [dropWhile_eq_self_of_takeWhile ht] at h
    exact h
  | cons x T2 =>
    have hsplit : cs = (x :: T2) ++ cs.dropWhile p := by
      rw [← ht, List.takeWhile_append_dropWhile]
    rw [hsplit]
    exact WsRel.gap (h := ([] : List Char)) (by simp)
      (all_ws_of_all hp (by rw [← ht]; exact List.all_takeWhile)) rfl h

theorem wsRel_delGap (L R : Char → Bool) :
    ∀ (fuel : Nat) (l : List Char), WsRel l (delGap L R fuel l) := by
  intro fuel
  induction fuel with
  | zero => intro l; exact wsRel_refl l
  | succ fuel ih =>
    intro l
    match l with
    | [] => exact WsRel.nil
    | c :: cs =>
      rw [delGap]
      by_cases hL2 : L c = true
      · by_cases hE : (cs.takeWhile jsWs).isEmpty = true
        · simp only [hL2, if_true, hE, if_pos]
          exact wsRel_cons_step (ih cs)
        · rw [Bool.not_eq_true] at hE
          cases hd : cs.dropWhile jsWs with
          | nil =>
            simp only [hL2, if_true, hE, Bool.false_eq_true, if_false, hd]
            exact wsRel_cons_step (ih cs)
          | cons r rest =>
            by_cases hR : R r = true
            · simp only [hL2, if_true, hE, Bool.false_eq_true, if_false, hd,
                hR]
              apply wsRel_cons_step
              have hsplit : cs = cs.takeWhile jsWs ++ (r :: rest) := by
                rw [← hd, List.takeWhile_append_dropWhile]
              rw [hsplit]
              exact WsRel.gap (h := ([] : List Char))
                (by intro hnil; rw [hnil] at hE; exact absurd hE (by simp))
                List.all_takeWhile rfl (ih (r :: rest))
            · rw [Bool.not_eq_true] at hR
              simp only [hL2, if_true, hE, Bool.false_eq_true, if_false, hd,
                hR]
              exact wsRel_cons_step (ih cs)
      · rw [Bool.not_eq_true] at hL2
        simp only [hL2, Bool.false_eq_true, if_false]
        exact wsRel_cons_step (ih cs)

theorem wsRel_delWsClose :
    ∀ (fuel : Nat) (l : List Char), WsRel l (delWsClose fuel l) := by
  intro fuel
  induction fuel with
  | zero => intro l; exact wsRel_refl l
  | succ fuel ih =>
    intro l
    match l with
    | [] => exact WsRel.nil
    | c :: cs =>
      rw [delWsClose_cons]
      cases hc : jsWs c with
      | true =>
        simp only [if_true]
        cases hd : (c :: cs).dropWhile jsWs with
        | nil => exact wsRel_cons_step (ih cs)
        | cons r rest =>
          show WsRel (c :: cs)
            (if (r == ')') = true then delWsClose fuel (r :: rest)
             else c :: delWsClose fuel cs)
          by_cases hr : (r == ')') = true
          · rw [if_pos hr]
            have hsplit : c :: cs = (c :: cs).takeWhile jsWs ++ (r :: rest) := by
              rw [← hd, List.takeWhile_append_dropWhile]
            rw [hsplit]
            exact WsRel.gap (h := ([] : List Char))
              (by rw [List.takeWhile_cons_of_pos hc]; simp)
              List.all_takeWhile rfl (ih (r :: rest))
          · rw [if_neg hr]
            exact wsRel_cons_step (ih cs)
      | false =>
        simp only [Bool.false_eq_true, if_false]
        exact wsRel_cons_step (ih cs)

theorem wsRel_delWsOpen :
    ∀ (fuel : Nat) (l : List Char), WsRel l (delWsOpen fuel l) := by
  intro fuel
  induction fuel with
  | zero => intro l; exact wsRel_refl l
  | succ fuel ih =>
    intro l
    match l with
    | [] => exact WsRel.nil
    | c :: cs =>
      rw [delWsOpen_cons]
      by_cases hc : (c == '(') = true
      · rw [if_pos hc]
        rw [beq_iff_eq] at hc
        subst hc
        exact WsRel.keep (by decide)
          (wsRel_dropping_of (fun d hd => hd) cs (ih (cs.dropWhile jsWs)))
      · rw [if_neg hc]
        exact wsRel_cons_step (ih cs)

theorem wsRel_collapseHT :
    ∀ (fuel : Nat) (l : List Char), WsRel l (collapseHT fuel l) := by
  intro fuel
  induction fuel with
  | zero => intro l; exact wsRel_refl l
  | succ fuel ih =>
    intro l
    match l with
    | [] => exact WsRel.nil
    | c :: cs =>
      rw [collapseHT_cons]
      cases hc : isHT c with
      | true =>
        simp only [if_true]
        have hsplit : c :: cs = (c :: cs.takeWhile isHT) ++ cs.dropWhile isHT := by
          rw [List.cons_append, List.takeWhile_append_dropWhile]
        rw [hsplit]
        exact WsRel.gap (h := [' ']) (by simp)
          (by rw [List.all_cons, Bool.and_eq_true]
              exact ⟨isHT_ws hc, all_ws_of_all (fun d hd => isHT_ws hd) List.all_takeWhile⟩)
          (by decide) (ih (cs.dropWhile isHT))
      | false =>
        simp only [Bool.false_eq_true, if_false]
        exact wsRel_cons_step (ih cs)

theorem wsRel_trimNlRuns :
    ∀ (fuel : Nat) (l : List Char), WsRel l (trimNlRuns fuel l) := by
  intro fuel
  induction fuel with
  | zero => intro l; exact wsRel_refl l
  | succ fuel ih =>
    intro l
    match l with
    | [] => exact WsRel.nil
    | c :: cs =>
      rw [trimNlRuns_cons]
      by_cases hnl : (c == '\n') = true
      · rw [if_pos hnl]
        rw [beq_iff_eq] at hnl
        subst hnl
        have hsplit : '\n' :: cs =
            ('\n' :: cs.takeWhile isHT) ++ cs.dropWhile isHT := by
          rw [List.cons_append, List.takeWhile_append_dropWhile]
        rw [hsplit]
        exact WsRel.gap (h := ['\n']) (by simp)
          (by rw [List.all_cons, Bool.and_eq_true]
              exact ⟨by decide,
                all_ws_of_all (fun d hd => isHT_ws hd) List.all_takeWhile⟩)
          (by decide) (ih (cs.dropWhile isHT))
      · rw [if_neg hnl]
        cases hc : isHT c with
        | true =>
          simp only [if_true]
          cases hd : (c :: cs).dropWhile isHT with
          | nil => exact wsRel_cons_step (ih cs)
          | cons r cs2 =>
            show WsRel (c :: cs)
              (if (r == '\n') = true then
                '\n' :: trimNlRuns fuel (cs2.dropWhile isHT)
               else c :: trimNlRuns fuel cs)
            by_cases hr : (r == '\n') = true
            · rw [if_pos hr]
              rw [beq_iff_eq] at hr
              subst hr
              have hrel := WsRel.gap
                (g := (c :: cs).takeWhile isHT ++ '\n' :: cs2.takeWhile isHT)
                (h := ['\n'])
                (by simp)
                (by rw [List.all_append, Bool.and_eq_true]
                    refine ⟨all_ws_of_all (fun d hd => isHT_ws hd)
                      List.all_takeWhile, ?_⟩
                    rw [List.all_cons, Bool.and_eq_true]
                    exact ⟨by decide,
                      all_ws_of_all (fun d hd => isHT_ws hd)
                        List.all_takeWhile⟩)
                (by decide) (ih (cs2.dropWhile isHT))
              have he : ((c :: cs).takeWhile isHT ++ '\n' :: cs2.takeWhile isHT)
                  ++ cs2.dropWhile isHT = c :: cs := by
                rw [List.append_assoc, List.cons_append,
                  List.takeWhile_append_dropWhile, ← hd,
                  List.takeWhile_append_dropWhile]
              rw [← he]
              exact hrel
            · rw [if_neg hr]
              exact wsRel_cons_step (ih cs)
        | false =>
          simp only [Bool.false_eq_true, if_false]
          exact wsRel_cons_step (ih cs)

theorem wsRel_collapseNl :
    ∀ (fuel : Nat) (l : List Char), WsRel l (collapseNl fuel l) := by
  intro fuel
  induction fuel with
  | zero => intro l; exact wsRel_refl l
  | succ fuel ih =>
    intro l
    match l with
    | [] => exact WsRel.nil
    | c :: cs =>
      rw [collapseNl_cons]
      by_cases hnl : (c == '\n') = true
      · rw [if_pos hnl]
        rw [beq_iff_eq] at hnl
        subst hnl
        have hsplit : '\n' :: cs =
            ('\n' :: cs.takeWhile (fun d => d == '\n')) ++
              cs.dropWhile (fun d => d == '\n') := by
          rw [List.cons_append, List.takeWhile_append_dropWhile]
        rw [hsplit]
        exact WsRel.gap (h := ['\n']) (by simp)
          (by rw [List.all_cons, Bool.and_eq_true]
              exact ⟨by decide,
                all_ws_of_all (fun d hd => eqNl_ws hd) List.all_takeWhile⟩)
          (by decide) (ih (cs.dropWhile (fun d => d == '\n')))
      · rw [if_neg hnl]
        exact wsRel_cons_step (ih cs)

theorem wsRel_repsFlat {ps : List (Char × List Char)}
    (hps : ∀ p ∈ ps, p.1.isAlpha = true ∧ p.2 ≠ [] ∧ p.2.all jsWs = true)
    {m u : List Char} (h : WsRel m u) :
    WsRel (repsFlat ps m) (ps.map Prod.fst ++ u) := by
  induction ps with
  | nil => exact h
  | cons p ps2 ih =>
    obtain ⟨a, w⟩ := p
    have hp := hps (a, w) (by simp)
    show WsRel (a :: (w ++ repsFlat ps2 m)) (a :: (ps2.map Prod.fst ++ u))
    exact WsRel.keep (isAlpha_not_ws hp.1)
      (WsRel.gap (h := ([] : List Char)) hp.2.1 hp.2.2 rfl
        (ih (fun q hq => hps q (by simp [hq]))))

theorem getLastD_append_singleton {α : Type} (q : α) :
    ∀ (qs : List α) (d : α), (qs ++ [q]).getLastD d = q := by
  intro qs
  induction qs with
  | nil => intro d; rfl
  | cons x qs2 ih =>
    intro d
    rw [List.cons_append, List.getLastD_cons]
    exact ih x

theorem repsFlat_append (ps qs : List (Char × List Char)) (rem : List Char) :
    repsFlat (ps ++ qs) rem = repsFlat ps (repsFlat qs rem) := by
  induction ps with
  | nil => rfl
  | cons p ps2 ih =>
    obtain ⟨a, w⟩ := p
    show a :: (w ++ repsFlat (ps2 ++ qs) rem) =
      a :: (w ++ repsFlat ps2 (repsFlat qs rem))
    rw [ih]

theorem wsRel_collapseRuns_back {fuel : Nat} {c : Char} {cs rem : List Char}
    {ps : List (Char × List Char)}
    (hflat : c :: cs = repsFlat ps rem)
    (hprops : ∀ p ∈ ps, p.1.isAlpha = true ∧ p.2 ≠ [] ∧ p.2.all jsWs = true)
    (h3 : 3 ≤ ps.length)
    (ih : ∀ m : List Char, WsRel m (collapseRuns fuel m)) :
    WsRel (c :: cs) (ps.map Prod.fst ++
      collapseRuns fuel ((ps.getLastD (Char.ofNat 97, [])).2 ++ rem)) := by
  rcases List.eq_nil_or_concat ps with h0 | ⟨qs, q, hq⟩
  · rw [h0] at h3; simp at h3
  · obtain ⟨ak, wk⟩ := q
    rw [List.concat_eq_append] at hq
    rw [hq, getLastD_append_singleton, List.map_append, List.append_assoc]
    rw [hq, repsFlat_append] at hflat
    rw [hflat]
    show WsRel (repsFlat qs (ak :: (wk ++ rem)))
      (qs.map Prod.fst ++ (ak :: collapseRuns fuel (wk ++ rem)))
    exact wsRel_repsFlat
      (fun p hp => hprops p (by rw [hq]; exact List.mem_append.mpr (Or.inl hp)))
      (wsRel_cons_step (ih (wk ++ rem)))

theorem wsRel_collapseRuns :
    ∀ (fuel : Nat) (l : List Char), WsRel l (collapseRuns fuel l) := by
  intro fuel
  induction fuel with
  | zero => intro l; exact wsRel_refl l
  | succ fuel ih =>
    intro l
    match l with
    | [] => exact WsRel.nil
    | c :: cs =>
      rw [collapseRuns_cons]
      rcases hlr : latinReps (c :: cs).length (c :: cs) with ⟨ps, rem⟩
      obtain ⟨hflat, hprops⟩ := latinReps_spec (c :: cs).length (c :: cs) hlr
      simp only [hlr]
      cases rem with
      | nil =>
        show WsRel (c :: cs)
          (if decide (3 ≤ ps.length) = true then
            ps.map Prod.fst ++
              collapseRuns fuel ((ps.getLastD (Char.ofNat 97, [])).2 ++ [])
          else c :: collapseRuns fuel cs)
        by_cases h3 : decide (3 ≤ ps.length) = true
        · rw [if_pos h3]
          rw [decide_eq_true_eq] at h3
          exact wsRel_collapseRuns_back hflat hprops h3 ih
        · rw [if_neg h3]
          exact wsRel_cons_step (ih cs)
      | cons r rest =>
        show WsRel (c :: cs)
          (if (r.isAlpha && decide (2 ≤ ps.length)) = true then
            ps.map Prod.fst ++ r :: collapseRuns fuel rest
          else if decide (3 ≤ ps.length) = true then
            ps.map Prod.fst ++
              collapseRuns fuel
                ((ps.getLastD (Char.ofNat 97, [])).2 ++ r :: rest)
          else c :: collapseRuns fuel cs)
        by_cases h2 : (r.isAlpha && decide (2 ≤ ps.length)) = true
        · rw [if_pos h2]
          rw [hflat]
          exact wsRel_repsFlat hprops (wsRel_cons_step (ih rest))
        · rw [if_neg h2]
          by_cases h3 : decide (3 ≤ ps.length) = true
          · rw [if_pos h3]
            rw [decide_eq_true_eq] at h3
            exact wsRel_collapseRuns_back hflat hprops h3 ih
          · rw [if_neg h3]
            exact wsRel_cons_step (ih cs)

theorem isPunctCS_not_ws {c : Char} (h : isPunctCS c = true) :
    jsWs c = false := by
  rw [isPunctCS] at h
  rcases Bool.or_eq_true_iff.mp h with h2 | h2
  · rcases Bool.or_eq_true_iff.mp h2 with h3 | h3
    · rcases Bool.or_eq_true_iff.mp h3 with h4 | h4
      · rw [beq_iff_eq] at h4; subst h4; decide
      · rw [beq_iff_eq] at h4; subst h4; decide
    · rw [beq_iff_eq] at h3; subst h3; decide
  · rw [beq_iff_eq] at h2; subst h2; decide

theorem delGap_nil (L R : Char → Bool) :
    ∀ (fuel : Nat), delGap L R fuel [] = [] := by
  intro fuel
  cases fuel with
  | zero => rfl
  | succ fuel => rfl

theorem delGap_head (L R : Char → Bool) :
    ∀ (fuel : Nat) (d : Char) (ds : List Char),
      ∃ t, delGap L R fuel (d :: ds) = d :: t := by
  intro fuel d ds
  cases fuel with
  | zero => exact ⟨ds, rfl⟩
  | succ fuel =>
    rw [delGap]
    by_cases hL : L d = true
    · by_cases hE : (ds.takeWhile jsWs).isEmpty = true
      · simp only [hL, if_true, hE, if_pos]
        exact ⟨_, rfl⟩
      · rw [Bool.not_eq_true] at hE
        cases hd : ds.dropWhile jsWs with
        | nil =>
          simp only [hL, if_true, hE, Bool.false_eq_true, if_false, hd]
          exact ⟨_, rfl⟩
        | cons r rest =>
          by_cases hR : R r = true
          · simp only [hL, if_true, hE, Bool.false_eq_true, if_false, hd, hR,
              if_true]
            exact ⟨_, rfl⟩
          · rw [Bool.not_eq_true] at hR
            simp only [hL, if_true, hE, Bool.false_eq_true, if_false, hd, hR]
            exact ⟨_, rfl⟩
    · rw [Bool.not_eq_true] at hL
      simp only [hL, Bool.false_eq_true, if_false]
      exact ⟨_, rfl⟩

theorem gapTail_head_false {R : Char → Bool} {X : List Char}
    (h : ∀ d t, X = d :: t → jsWs d = false) : gapTail R X = false := by
  cases X with
  | nil => rfl
  | cons d t =>
    rw [gapTail]
    rw [List.takeWhile_cons_of_neg (by rw [h d t rfl]; simp)]
    simp

theorem gapTail_drop_false {R : Char → Bool} {X : List Char} {r : Char}
    {t : List Char} (hdrop : X.dropWhile jsWs = r :: t) (hR : R r = false) :
    gapTail R X = false := by
  rw [gapTail, hdrop]
  show (!(X.takeWhile jsWs).isEmpty && R r) = false
  rw [hR]
  simp

theorem gapTail_drop_nil {R : Char → Bool} {X : List Char}
    (hdrop : X.dropWhile jsWs = []) : gapTail R X = false := by
  rw [gapTail, hdrop]
  simp

theorem hasGap_cons_false {L R : Char → Bool} {c : Char} {t : List Char}
    (hhead : L c = false ∨ gapTail R t = false)
    (htail : hasGap L R t = false) : hasGap L R (c :: t) = false := by
  rw [hasGap, Bool.or_eq_false_iff]
  refine ⟨?_, htail⟩
  rcases hhead with h | h
  · rw [h, Bool.false_and]
  · rw [h, Bool.and_false]

theorem delGap_no_gap (L R : Char → Bool)
    (hR : ∀ c, R c = true → jsWs c = false) :
    ∀ (fuel : Nat) (l : List Char), l.length ≤ fuel →
      hasGap L R (delGap L R fuel l) = false := by
  intro fuel
  induction fuel with
  | zero =>
    intro l hlen
    have h0 : l = [] := List.length_eq_zero.mp (by omega)
    subst h0
    rfl
  | succ fuel ih =>
    intro l hlen
    match l with
    | [] => rfl
    | c :: cs =>
      have hlen2 : cs.length ≤ fuel := by
        rw [List.length_cons] at hlen
        omega
      rw [delGap]
      by_cases hL : L c = true
      · by_cases hE : (cs.takeWhile jsWs).isEmpty = true
        · simp only [hL, if_true, hE, if_pos]
          apply hasGap_cons_false _ (ih cs hlen2)
          right
          cases cs with
          | nil => rw [delGap_nil]; rfl
          | cons d ds =>
            have hwd : jsWs d = false := by
              cases hw : jsWs d with
              | false => rfl
              | true =>
                rw [List.takeWhile_cons_of_pos hw] at hE
                simp at hE
            obtain ⟨t2, ht2⟩ := delGap_head L R fuel d ds
            rw [ht2]
            apply gapTail_head_false
            intro e t h
            injection h with h1 _
            rw [← h1]
            exact hwd
        · rw [Bool.not_eq_true] at hE
          cases hd : cs.dropWhile jsWs with
          | nil =>
            simp only [hL, if_true, hE, Bool.false_eq_true, if_false, hd]
            apply hasGap_cons_false _ (ih cs hlen2)
            right
            rcases wsRel_dropWhile (wsRel_delGap L R fuel cs) with
              ⟨h1, h2⟩ | ⟨c2, t, u, hc2, hl1, hr1, h4⟩
            · exact gapTail_drop_nil h2
            · rw [hd] at hl1
              exact absurd hl1 (by simp)
          | cons r rest =>
            by_cases hR2 : R r = true
            · simp only [hL, if_true, hE, Bool.false_eq_true, if_false, hd,
                hR2, if_true]
              have hlen3 : (r :: rest).length ≤ fuel := by
                rw [← hd]
                exact le_trans ((List.dropWhile_suffix jsWs).length_le) hlen2
              apply hasGap_cons_false _ (ih (r :: rest) hlen3)
              right
              obtain ⟨t2, ht2⟩ := delGap_head L R fuel r rest
              rw [ht2]
              apply gapTail_head_false
              intro e t h
              injection h with h1 _
              rw [← h1]
              exact hR r hR2
            · rw [Bool.not_eq_true] at hR2
              simp only [hL, if_true, hE, Bool.false_eq_true, if_false, hd,
                hR2]
              apply hasGap_cons_false _ (ih cs hlen2)
              right
              rcases wsRel_dropWhile (wsRel_delGap L R fuel cs) with
                ⟨h1, h2⟩ | ⟨c2, t, u, hc2, hl1, hr1, h4⟩
              · exact gapTail_drop_nil h2
              · rw [hd] at hl1
                injection hl1 with h5 _
                exact gapTail_drop_false hr1 (by rw [← h5]; exact hR2)
      · rw [Bool.not_eq_true] at hL
        simp only [hL, Bool.false_eq_true, if_false]
        exact hasGap_cons_false (Or.inl hL) (ih cs hlen2)

theorem dropWhile_head_false {p : Char → Bool} :
    ∀ {l : List Char} {d : Char} {t : List Char},
      l.dropWhile p = d :: t → p d = false := by
  intro l
  induction l with
  | nil => intro d t h; simp at h
  | cons x xs ih =>
    intro d t h
    cases hx : p x with
    | true =>
      rw [List.dropWhile_cons_of_pos hx] at h
      exact ih h
    | false =>
      rw [List.dropWhile_cons_of_neg (by rw [hx]; simp)] at h
      injection h with h1 _
      rw [← h1]
      exact hx

theorem delWsClose_no_close :
    ∀ (fuel : Nat) (l : List Char), l.length ≤ fuel →
      hasPair pClose (delWsClose fuel l) = false := by
  intro fuel
  induction fuel with
  | zero =>
    intro l hlen
    have h0 : l = [] := List.length_eq_zero.mp (by omega)
    subst h0
    rfl
  | succ fuel ih =>
    intro l hlen
    match l with
    | [] => rfl
    | c :: cs =>
      have hlen2 : cs.length ≤ fuel := by
        rw [List.length_cons] at hlen
        omega
      rw [delWsClose_cons]
      cases hc : jsWs c with
      | true =>
        simp only [if_true]
        cases hd : (c :: cs).dropWhile jsWs with
        | nil =>
          rw [List.dropWhile_cons_of_pos hc] at hd
          apply hasPair_cons_false _ (ih cs hlen2)
          intro b t hbt
          rcases wsRel_dropWhile (wsRel_delWsClose fuel cs) with
            ⟨h1, h2⟩ | ⟨c2, tt, u, hc2, hl1, hr1, h4⟩
          · have hwb : jsWs b = true := by
              cases hw : jsWs b with
              | true => rfl
              | false =>
                rw [hbt, List.dropWhile_cons_of_neg (by rw [hw]; simp)] at h2
                exact absurd h2 (by simp)
            have hbq : (b == ')') = false := by
              cases hb2 : b == ')' with
              | false => rfl
              | true =>
                rw [beq_iff_eq] at hb2
                rw [hb2] at hwb
                exact absurd hwb (by decide)
            rw [pClose, hbq, Bool.and_false]
          · rw [hd] at hl1
            exact absurd hl1 (by simp)
        | cons r rest =>
          show hasPair pClose
            (if (r == ')') = true then delWsClose fuel (r :: rest)
             else c :: delWsClose fuel cs) = false
          by_cases hr : (r == ')') = true
          · rw [if_pos hr]
            rw [List.dropWhile_cons_of_pos hc] at hd
            apply ih (r :: rest)
            rw [← hd]
            exact le_trans (List.dropWhile_suffix jsWs).length_le hlen2
          · rw [if_neg hr]
            rw [Bool.not_eq_true] at hr
            apply hasPair_cons_false _ (ih cs hlen2)
            intro b t hbt
            have hbq : (b == ')') = false := by
              cases hb2 : b == ')' with
              | false => rfl
              | true =>
                rw [beq_iff_eq] at hb2
                rcases wsRel_dropWhile (wsRel_delWsClose fuel cs) with
                  ⟨h1, h2⟩ | ⟨c2, tt, u, hc2, hl1, hr1, h4⟩
                · rw [hbt, List.dropWhile_cons_of_neg
                    (by rw [hb2]; decide)] at h2
                  exact absurd h2 (by simp)
                · rw [hbt, List.dropWhile_cons_of_neg
                    (by rw [hb2]; decide)] at hr1
                  injection hr1 with h5 _
                  rw [List.dropWhile_cons_of_pos hc] at hd
                  rw [hd] at hl1
                  injection hl1 with h6 _
                  have hrc : r = ')' := by rw [h6, ← h5, hb2]
                  rw [hrc] at hr
                  simp at hr
            rw [pClose, hbq, Bool.and_false]
      | false =>
        simp only [Bool.false_eq_true, if_false]
        apply hasPair_cons_false _ (ih cs hlen2)
        intro b t hbt
        rw [pClose, hc, Bool.false_and]

theorem delWsOpen_nil : ∀ (fuel : Nat), delWsOpen fuel [] = [] := by
  intro fuel
  cases fuel with
  | zero => rfl
  | succ fuel => rfl

theorem delWsOpen_head :
    ∀ (fuel : Nat) (d : Char) (ds : List Char),
      ∃ t, delWsOpen fuel (d :: ds) = d :: t := by
  intro fuel d ds
  cases fuel with
  | zero => exact ⟨ds, rfl⟩
  | succ fuel =>
    rw [delWsOpen_cons]
    by_cases hc : (d == '(') = true
    · rw [if_pos hc]
      rw [beq_iff_eq] at hc
      subst hc
      exact ⟨_, rfl⟩
    · rw [if_neg hc]
      exact ⟨_, rfl⟩

theorem delWsOpen_no_open :
    ∀ (fuel : Nat) (l : List Char), l.length ≤ fuel →
      hasPair pOpen (delWsOpen fuel l) = false := by
  intro fuel
  induction fuel with
  | zero =>
    intro l hlen
    have h0 : l = [] := List.length_eq_zero.mp (by omega)
    subst h0
    rfl
  | succ fuel ih =>
    intro l hlen
    match l with
    | [] => rfl
    | c :: cs =>
      have hlen2 : cs.length ≤ fuel := by
        rw [List.length_cons] at hlen
        omega
      rw [delWsOpen_cons]
      by_cases hc : (c == '(') = true
      · rw [if_pos hc]
        apply hasPair_cons_false
        · intro b t hbt
          cases hdw : cs.dropWhile jsWs with
          | nil =>
            rw [hdw, delWsOpen_nil] at hbt
            exact absurd hbt (by simp)
          | cons d ds =>
            rw [hdw] at hbt
            obtain ⟨t2, ht2⟩ := delWsOpen_head fuel d ds
            rw [ht2] at hbt
            injection hbt with h1 _
            have hwd : jsWs d = false := dropWhile_head_false hdw
            rw [pOpen, ← h1, hwd, Bool.and_false]
        · exact ih (cs.dropWhile jsWs)
            (le_trans (List.dropWhile_suffix jsWs).length_le hlen2)
      · rw [if_neg hc]
        rw [Bool.not_eq_true] at hc
        apply hasPair_cons_false _ (ih cs hlen2)
        intro b t hbt
        rw [pOpen, hc, Bool.false_and]

theorem collapseHT_nil : ∀ (fuel : Nat), collapseHT fuel [] = [] := by
  intro fuel
  cases fuel with
  | zero => rfl
  | succ fuel => rfl

theorem collapseHT_head_nonHT {d : Char} (hd : isHT d = false) :
    ∀ (fuel : Nat) (ds : List Char), ∃ t, collapseHT fuel (d :: ds) = d :: t := by
  intro fuel ds
  cases fuel with
  | zero => exact ⟨ds, rfl⟩
  | succ fuel =>
    rw [collapseHT_cons]
    simp only [hd, Bool.false_eq_true, if_false]
    exact ⟨_, rfl⟩

theorem collapseHT_no_tab :
    ∀ (fuel : Nat) (l : List Char), l.length ≤ fuel →
      (collapseHT fuel l).any (fun c => c == '\t') = false := by
  intro fuel
  induction fuel with
  | zero =>
    intro l hlen
    have h0 : l = [] := List.length_eq_zero.mp (by omega)
    subst h0
    rfl
  | succ fuel ih =>
    intro l hlen
    match l with
    | [] => rfl
    | c :: cs =>
      have hlen2 : cs.length ≤ fuel := by
        rw [List.length_cons] at hlen
        omega
      rw [collapseHT_cons]
      cases hc : isHT c with
      | true =>
        simp only [if_true]
        rw [List.any_cons,
          ih (cs.dropWhile isHT)
            (le_trans (List.dropWhile_suffix isHT).length_le hlen2)]
        decide
      | false =>
        simp only [Bool.false_eq_true, if_false]
        rw [isHT, Bool.or_eq_false_iff] at hc
        rw [List.any_cons, hc.2, ih cs hlen2]
        rfl

theorem collapseHT_no_pHH :
    ∀ (fuel : Nat) (l : List Char), l.length ≤ fuel →
      hasPair pHH (collapseHT fuel l) = false := by
  intro fuel
  induction fuel with
  | zero =>
    intro l hlen
    have h0 : l = [] := List.length_eq_zero.mp (by omega)
    subst h0
    rfl
  | succ fuel ih =>
    intro l hlen
    match l with
    | [] => rfl
    | c :: cs =>
      have hlen2 : cs.length ≤ fuel := by
        rw [List.length_cons] at hlen
        omega
      rw [collapseHT_cons]
      cases hc : isHT c with
      | true =>
        simp only [if_true]
        apply hasPair_cons_false
        · intro b t hbt
          cases hdw : cs.dropWhile isHT with
          | nil =>
            rw [hdw, collapseHT_nil] at hbt
            exact absurd hbt (by simp)
          | cons d ds =>
            rw [hdw] at hbt
            have hd2 : isHT d = false := dropWhile_head_false hdw
            obtain ⟨t2, ht2⟩ := collapseHT_head_nonHT hd2 fuel ds
            rw [ht2] at hbt
            injection hbt with h1 _
            rw [pHH, ← h1, hd2, Bool.and_false]
        · exact ih (cs.dropWhile isHT)
            (le_trans (List.dropWhile_suffix isHT).length_le hlen2)
      | false =>
        simp only [Bool.false_eq_true, if_false]
        apply hasPair_cons_false _ (ih cs hlen2)
        intro b t hbt
        rw [pHH, hc, Bool.false_and]

theorem trimNlRuns_nil : ∀ (fuel : Nat), trimNlRuns fuel [] = [] := by
  intro fuel
  cases fuel with
  | zero => rfl
  | succ fuel => rfl

theorem trimNlRuns_head :
    ∀ (fuel : Nat) (d : Char) (ds : List Char),
      ∃ t, trimNlRuns fuel (d :: ds) = d :: t ∨
        (trimNlRuns fuel (d :: ds) = '\n' :: t ∧
          ∃ u, (d :: ds).dropWhile isHT = '\n' :: u) := by
  intro fuel d ds
  cases fuel with
  | zero => exact ⟨ds, Or.inl rfl⟩
  | succ fuel =>
    rw [trimNlRuns_cons]
    by_cases hnl : (d == '\n') = true
    · rw [if_pos hnl]
      rw [beq_iff_eq] at hnl
      subst hnl
      exact ⟨_, Or.inl rfl⟩
    · rw [if_neg hnl]
      cases hc : isHT d with
      | true =>
        simp only [if_true]
        cases hd2 : (d :: ds).dropWhile isHT with
        | nil => exact ⟨_, Or.inl rfl⟩
        | cons r cs2 =>
          show ∃ t, (if (r == '\n') = true then
              '\n' :: trimNlRuns fuel (cs2.dropWhile isHT)
            else d :: trimNlRuns fuel ds) = d :: t ∨ _
          by_cases hr : (r == '\n') = true
          · rw [if_pos hr]
            rw [beq_iff_eq] at hr
            subst hr
            exact ⟨_, Or.inr ⟨rfl, cs2, rfl⟩⟩
          · rw [if_neg hr]
            exact ⟨_, Or.inl rfl⟩
      | false =>
        simp only [Bool.false_eq_true, if_false]
        exact ⟨_, Or.inl rfl⟩

theorem trimNlRuns_drop_head_not_ht {fuel : Nat} {m : List Char} {b : Char}
    {t : List Char} (hbt : trimNlRuns fuel (m.dropWhile isHT) = b :: t) :
    isHT b = false := by
  cases hdw : m.dropWhile isHT with
  | nil =>
    rw [hdw, trimNlRuns_nil] at hbt
    exact absurd hbt (by simp)
  | cons d ds =>
    rw [hdw] at hbt
    have hd2 : isHT d = false := dropWhile_head_false hdw
    obtain ⟨t2, ht2⟩ := trimNlRuns_head fuel d ds
    rcases ht2 with h | ⟨h, _⟩
    · rw [h] at hbt
      injection hbt with h1 _
      rw [← h1]
      exact hd2
    · rw [h] at hbt
      injection hbt with h1 _
      rw [← h1]
      decide

theorem trimNlRuns_no_pHTNl :
    ∀ (fuel : Nat) (l : List Char), l.length ≤ fuel →
      hasPair pHTNl (trimNlRuns fuel l) = false := by
  intro fuel
  induction fuel with
  | zero =>
    intro l hlen
    have h0 : l = [] := List.length_eq_zero.mp (by omega)
    subst h0
    rfl
  | succ fuel ih =>
    intro l hlen
    match l with
    | [] => rfl
    | c :: cs =>
      have hlen2 : cs.length ≤ fuel := by
        rw [List.length_cons] at hlen
        omega
      rw [trimNlRuns_cons]
      by_cases hnl : (c == '\n') = true
      · rw [if_pos hnl]
        apply hasPair_cons_false
        · intro b t hbt
          have hb : isHT b = false := trimNlRuns_drop_head_not_ht hbt
          rw [pHTNl, hb, show isHT '\n' = false from by decide]
          simp
        · exact ih (cs.dropWhile isHT)
            (le_trans (List.dropWhile_suffix isHT).length_le hlen2)
      · rw [if_neg hnl]
        rw [Bool.not_eq_true] at hnl
        cases hc : isHT c with
        | true =>
          simp only [if_true]
          cases hd : (c :: cs).dropWhile isHT with
          | nil =>
            show hasPair pHTNl (c :: trimNlRuns fuel cs) = false
            apply hasPair_cons_false _ (ih cs hlen2)
            intro b t hbt
            have hb : (b == '\n') = false := by
              cases cs with
              | nil =>
                rw [trimNlRuns_nil] at hbt
                exact absurd hbt (by simp)
              | cons d ds =>
                obtain ⟨t2, ht2⟩ := trimNlRuns_head fuel d ds
                rcases ht2 with h | ⟨h, u, hu⟩
                · rw [h] at hbt
                  injection hbt with h1 _
                  rw [List.dropWhile_cons_of_pos hc] at hd
                  have hdht : isHT d = true := by
                    cases hw : isHT d with
                    | true => rfl
                    | false =>
                      rw [List.dropWhile_cons_of_neg (by rw [hw]; simp)] at hd
                      exact absurd hd (by simp)
                  cases hbq : b == '\n' with
                  | false => rfl
                  | true =>
                    rw [beq_iff_eq] at hbq
                    rw [h1, hbq] at hdht
                    exact absurd hdht (by decide)
                · rw [List.dropWhile_cons_of_pos hc] at hd
                  rw [hd] at hu
                  exact absurd hu (by simp)
            rw [pHTNl, hb, hnl]
            simp
          | cons r cs2 =>
            show hasPair pHTNl
              (if (r == '\n') = true then
                '\n' :: trimNlRuns fuel (cs2.dropWhile isHT)
               else c :: trimNlRuns fuel cs) = false
            by_cases hr : (r == '\n') = true
            · rw [if_pos hr]
              apply hasPair_cons_false
              · intro b t hbt
                have hb : isHT b = false := trimNlRuns_drop_head_not_ht hbt
                rw [pHTNl, hb, show isHT '\n' = false from by decide]
                simp
              · apply ih
                have h5 : (r :: cs2).length ≤ (c :: cs).length := by
                  rw [← hd]
                  exact (List.dropWhile_suffix isHT).length_le
                rw [List.length_cons, List.length_cons] at h5
                exact le_trans (List.dropWhile_suffix isHT).length_le
                  (by omega)
            · rw [if_neg hr]
              rw [Bool.not_eq_true] at hr
              apply hasPair_cons_false _ (ih cs hlen2)
              intro b t hbt
              have hb : (b == '\n') = false := by
                cases cs with
                | nil =>
                  rw [trimNlRuns_nil] at hbt
                  exact absurd hbt (by simp)
                | cons d ds =>
                  obtain ⟨t2, ht2⟩ := trimNlRuns_head fuel d ds
                  rcases ht2 with h | ⟨h, u, hu⟩
                  · rw [h] at hbt
                    injection hbt with h1 _
                    cases hbq : b == '\n' with
                    | false => rfl
                    | true =>
                      rw [beq_iff_eq] at hbq
                      have hdnl : d = '\n' := by rw [h1, hbq]
                      rw [List.dropWhile_cons_of_pos hc] at hd
                      rw [List.dropWhile_cons_of_neg
                        (by rw [hdnl]; decide)] at hd
                      injection hd with h6 _
                      rw [← h6, hdnl] at hr
                      simp at hr
                  · rw [List.dropWhile_cons_of_pos hc] at hd
                    rw [hd] at hu
                    injection hu with h7 _
                    rw [h7] at hr
                    simp at hr
              rw [pHTNl, hb, hnl]
              simp
        | false =>
          simp only [Bool.false_eq_true, if_false]
          apply hasPair_cons_false _ (ih cs hlen2)
          intro b t hbt
          rw [pHTNl, hc, hnl]
          simp

theorem collapseNl_nil : ∀ (fuel : Nat), collapseNl fuel [] = [] := by
  intro fuel
  cases fuel with
  | zero => rfl
  | succ fuel => rfl

theorem collapseNl_head :
    ∀ (fuel : Nat) (d : Char) (ds : List Char),
      ∃ t, collapseNl fuel (d :: ds) = d :: t := by
  intro fuel d ds
  cases fuel with
  | zero => exact ⟨ds, rfl⟩
  | succ fuel =>
    rw [collapseNl_cons]
    by_cases hnl : (d == '\n') = true
    · rw [if_pos hnl]
      rw [beq_iff_eq] at hnl
      subst hnl
      exact ⟨_, rfl⟩
    · rw [if_neg hnl]
      exact ⟨_, rfl⟩

theorem collapseNl_no_pNlNl :
    ∀ (fuel : Nat) (l : List Char), l.length ≤ fuel →
      hasPair pNlNl (collapseNl fuel l) = false := by
  intro fuel
  induction fuel with
  | zero =>
    intro l hlen
    have h0 : l = [] := List.length_eq_zero.mp (by omega)
    subst h0
    rfl
  | succ fuel ih =>
    intro l hlen
    match l with
    | [] => rfl
    | c :: cs =>
      have hlen2 : cs.length ≤ fuel := by
        rw [List.length_cons] at hlen
        omega
      rw [collapseNl_cons]
      by_cases hnl : (c == '\n') = true
      · rw [if_pos hnl]
        apply hasPair_cons_false
        · intro b t hbt
          have hb : (b == '\n') = false := by
            cases hdw : cs.dropWhile (fun d => d == '\n') with
            | nil =>
              rw [hdw, collapseNl_nil] at hbt
              exact absurd hbt (by simp)
            | cons d ds =>
              rw [hdw] at hbt
              obtain ⟨t2, ht2⟩ := collapseNl_head fuel d ds
              rw [ht2] at hbt
              injection hbt with h1 _
              rw [← h1]
              exact dropWhile_head_false (p := fun e => e == '\n') hdw
          rw [pNlNl, hb, Bool.and_false]
        · exact ih (cs.dropWhile (fun d => d == '\n'))
            (le_trans (List.dropWhile_suffix (fun d => d == '\n')).length_le
              hlen2)
      · rw [if_neg hnl]
        rw [Bool.not_eq_true] at hnl
        apply hasPair_cons_false _ (ih cs hlen2)
        intro b t hbt
        rw [pNlNl, hnl, Bool.false_and]

theorem any_suffix_false {q : Char → Bool} {l m : List Char}
    (hs : m <:+ l) (h : l.any q = false) : m.any q = false := by
  cases hm : m.any q with
  | false => rfl
  | true =>
    rw [List.any_eq_true] at hm
    obtain ⟨x, hx, hq⟩ := hm
    have h2 : l.any q = true := List.any_eq_true.mpr ⟨x, hs.subset hx, hq⟩
    rw [h] at h2
    exact absurd h2 (by simp)

theorem hasPair_suffix_false {P : Char → Char → Bool} {l m : List Char}
    (hs : m <:+ l) (h : hasPair P l = false) : hasPair P m = false := by
  obtain ⟨pre, hpre⟩ := hs
  cases hm : hasPair P m with
  | false => rfl
  | true =>
    have h2 := hasPair_append_mono (u := pre) hm
    rw [hpre, h] at h2
    exact absurd h2 (by simp)

theorem dropWhile_suffix_of {p : Char → Bool} {l m : List Char}
    (hs : m <:+ l) : m.dropWhile p <:+ l :=
  (List.dropWhile_suffix p).trans hs

theorem trimNlRuns_tab_pres :
    ∀ (fuel : Nat) (l : List Char), l.any (fun c => c == '\t') = false →
      (trimNlRuns fuel l).any (fun c => c == '\t') = false := by
  intro fuel
  induction fuel with
  | zero => intro l h; exact h
  | succ fuel ih =>
    intro l h
    match l with
    | [] => rfl
    | c :: cs =>
      have h0 := h
      rw [List.any_cons, Bool.or_eq_false_iff] at h0
      rw [trimNlRuns_cons]
      by_cases hnl : (c == '\n') = true
      · rw [if_pos hnl]
        rw [List.any_cons,
          ih (cs.dropWhile isHT)
            (any_suffix_false (dropWhile_suffix_of (List.suffix_cons c cs)) h)]
        decide
      · rw [if_neg hnl]
        cases hc : isHT c with
        | true =>
          simp only [if_true]
          cases hd : (c :: cs).dropWhile isHT with
          | nil =>
            show ((c :: trimNlRuns fuel cs).any (fun c => c == '\t')) = false
            rw [List.any_cons, h0.1, ih cs h0.2]
            rfl
          | cons r cs2 =>
            show ((if (r == '\n') = true then
                '\n' :: trimNlRuns fuel (cs2.dropWhile isHT)
              else c :: trimNlRuns fuel cs).any (fun c => c == '\t')) = false
            by_cases hr : (r == '\n') = true
            · rw [if_pos hr]
              have hsuf : cs2.dropWhile isHT <:+ c :: cs := by
                apply dropWhile_suffix_of
                have h5 : r :: cs2 <:+ c :: cs := by
                  rw [← hd]
                  exact List.dropWhile_suffix isHT
                exact (List.suffix_cons r cs2).trans h5
              rw [List.any_cons, ih (cs2.dropWhile isHT) (any_suffix_false hsuf h)]
              decide
            · rw [if_neg hr]
              rw [List.any_cons, h0.1, ih cs h0.2]
              rfl
        | false =>
          simp only [Bool.false_eq_true, if_false]
          rw [List.any_cons, h0.1, ih cs h0.2]
          rfl

theorem trimNlRuns_pHH_pres :
    ∀ (fuel : Nat) (l : List Char), hasPair pHH l = false →
      hasPair pHH (trimNlRuns fuel l) = false := by
  intro fuel
  induction fuel with
  | zero => intro l h; exact h
  | succ fuel ih =>
    intro l h
    match l with
    | [] => rfl
    | c :: cs =>
      rw [trimNlRuns_cons]
      by_cases hnl : (c == '\n') = true
      · rw [if_pos hnl]
        apply hasPair_cons_false
        · intro b t hbt
          rw [pHH, show isHT '\n' = false from by decide, Bool.false_and]
        · exact ih (cs.dropWhile isHT)
            (hasPair_suffix_false
              (dropWhile_suffix_of (List.suffix_cons c cs)) h)
      · rw [if_neg hnl]
        cases hc : isHT c with
        | true =>
          simp only [if_true]
          cases hd : (c :: cs).dropWhile isHT with
          | nil =>
            show hasPair pHH (c :: trimNlRuns fuel cs) = false
            apply hasPair_cons_false _ (ih cs (hasPair_tail h))
            intro b t hbt
            cases cs with
            | nil =>
              rw [trimNlRuns_nil] at hbt
              exact absurd hbt (by simp)
            | cons d ds =>
              obtain ⟨t2, ht2⟩ := trimNlRuns_head fuel d ds
              rcases ht2 with h5 | ⟨h5, _⟩
              · rw [h5] at hbt
                injection hbt with h1 _
                rw [← h1]
                exact hasPair_head h
              · rw [h5] at hbt
                injection hbt with h1 _
                rw [pHH, ← h1, show isHT '\n' = false from by decide,
                  Bool.and_false]
          | cons r cs2 =>
            show hasPair pHH
              (if (r == '\n') = true then
                '\n' :: trimNlRuns fuel (cs2.dropWhile isHT)
               else c :: trimNlRuns fuel cs) = false
            by_cases hr : (r == '\n') = true
            · rw [if_pos hr]
              apply hasPair_cons_false
              · intro b t hbt
                rw [pHH, show isHT '\n' = false from by decide, Bool.false_and]
              · have hsuf : cs2.dropWhile isHT <:+ c :: cs := by
                  apply dropWhile_suffix_of
                  have h5 : r :: cs2 <:+ c :: cs := by
                    rw [← hd]
                    exact List.dropWhile_suffix isHT
                  exact (List.suffix_cons r cs2).trans h5
                exact ih (cs2.dropWhile isHT) (hasPair_suffix_false hsuf h)
            · rw [if_neg hr]
              apply hasPair_cons_false _ (ih cs (hasPair_tail h))
              intro b t hbt
              cases cs with
              | nil =>
                rw [trimNlRuns_nil] at hbt
                exact absurd hbt (by simp)
              | cons d ds =>
                obtain ⟨t2, ht2⟩ := trimNlRuns_head fuel d ds
                rcases ht2 with h5 | ⟨h5, _⟩
                · rw [h5] at hbt
                  injection hbt with h1 _
                  rw [← h1]
                  exact hasPair_head h
                · rw [h5] at hbt
                  injection hbt with h1 _
                  rw [pHH, ← h1, show isHT '\n' = false from by decide,
                    Bool.and_false]
        | false =>
          simp only [Bool.false_eq_true, if_false]
          apply hasPair_cons_false _ (ih cs (hasPair_tail h))
          intro b t hbt
          rw [pHH, hc, Bool.false_and]

theorem collapseNl_tab_pres :
    ∀ (fuel : Nat) (l : List Char), l.any (fun c => c == '\t') = false →
      (collapseNl fuel l).any (fun c => c == '\t') = false := by
  intro fuel
  induction fuel with
  | zero => intro l h; exact h
  | succ fuel ih =>
    intro l h
    match l with
    | [] => rfl
    | c :: cs =>
      have h0 := h
      rw [List.any_cons, Bool.or_eq_false_iff] at h0
      rw [collapseNl_cons]
      by_cases hnl : (c == '\n') = true
      · rw [if_pos hnl]
        rw [List.any_cons,
          ih (cs.dropWhile (fun d => d == '\n'))
            (any_suffix_false (dropWhile_suffix_of (List.suffix_cons c cs)) h)]
        decide
      · rw [if_neg hnl]
        rw [List.any_cons, h0.1, ih cs h0.2]
        rfl

theorem collapseNl_pHH_pres :
    ∀ (fuel : Nat) (l : List Char), hasPair pHH l = false →
      hasPair pHH (collapseNl fuel l) = false := by
  intro fuel
  induction fuel with
  | zero => intro l h; exact h
  | succ fuel ih =>
    intro l h
    match l with
    | [] => rfl
    | c :: cs =>
      rw [collapseNl_cons]
      by_cases hnl : (c == '\n') = true
      · rw [if_pos hnl]
        apply hasPair_cons_false
        · intro b t hbt
          rw [pHH, show isHT '\n' = false from by decide, Bool.false_and]
        · exact ih (cs.dropWhile (fun d => d == '\n'))
            (hasPair_suffix_false
              (dropWhile_suffix_of (List.suffix_cons c cs)) h)
      · rw [if_neg hnl]
        apply hasPair_cons_false _ (ih cs (hasPair_tail h))
        intro b t hbt
        cases cs with
        | nil =>
          rw [collapseNl_nil] at hbt
          exact absurd hbt (by simp)
        | cons d ds =>
          obtain ⟨t2, ht2⟩ := collapseNl_head fuel d ds
          rw [ht2] at hbt
          injection hbt with h1 _
          rw [← h1]
          exact hasPair_head h

theorem collapseNl_pHTNl_pres :
    ∀ (fuel : Nat) (l : List Char), hasPair pHTNl l = false →
      hasPair pHTNl (collapseNl fuel l) = false := by
  intro fuel
  induction fuel with
  | zero => intro l h; exact h
  | succ fuel ih =>
    intro l h
    match l with
    | [] => rfl
    | c :: cs =>
      rw [collapseNl_cons]
      by_cases hnl : (c == '\n') = true
      · rw [if_pos hnl]
        apply hasPair_cons_false
        · intro b t hbt
          have hb : isHT b = false := by
            cases hdw : cs.dropWhile (fun d => d == '\n') with
            | nil =>
              rw [hdw, collapseNl_nil] at hbt
              exact absurd hbt (by simp)
            | cons d ds =>
              rw [hdw] at hbt
              obtain ⟨t2, ht2⟩ := collapseNl_head fuel d ds
              rw [ht2] at hbt
              injection hbt with h1 _
              cases hw : isHT b with
              | false => rfl
              | true =>
                exfalso
                have hdrop : (c :: cs).dropWhile (fun d => d == '\n') =
                    d :: ds := by
                  rw [List.dropWhile_cons_of_pos (p := fun d => d == '\n') hnl, hdw]
                have hq : isHT d = true := by rw [h1]; exact hw
                have hp := hasPair_run (W := fun d => d == '\n')
                  (Q := isHT) hnl hdrop hq
                have hp2 := hasPair_mono
                  (P := fun a b => (a == '\n') && isHT b) (Q := pHTNl)
                  (fun a b hab => by
                    rw [pHTNl, Bool.or_eq_true]
                    exact Or.inr hab) hp
                rw [h] at hp2
                exact absurd hp2 (by simp)
          rw [pHTNl, hb, show isHT '\n' = false from by decide]
          simp
        · exact ih (cs.dropWhile (fun d => d == '\n'))
            (hasPair_suffix_false
              (dropWhile_suffix_of (List.suffix_cons c cs)) h)
      · rw [if_neg hnl]
        apply hasPair_cons_false _ (ih cs (hasPair_tail h))
        intro b t hbt
        cases cs with
        | nil =>
          rw [collapseNl_nil] at hbt
          exact absurd hbt (by simp)
        | cons d ds =>
          obtain ⟨t2, ht2⟩ := collapseNl_head fuel d ds
          rw [ht2] at hbt
          injection hbt with h1 _
          rw [← h1]
          exact hasPair_head h

theorem runTail_head_false {Y : List Char}
    (h : ∀ d t, Y = d :: t → jsWs d = false) : runTail Y = false := by
  cases Y with
  | nil => rfl
  | cons d t =>
    rw [runTail]
    rw [List.takeWhile_cons_of_neg (by rw [h d t rfl]; simp)]
    simp

theorem runTail_drop_nil {Y : List Char} (h : Y.dropWhile jsWs = []) :
    runTail Y = false := by
  rw [runTail, h]
  simp

theorem runTail_drop_nonalpha {Y : List Char} {r : Char} {t : List Char}
    (h : Y.dropWhile jsWs = r :: t) (hr : r.isAlpha = false) :
    runTail Y = false := by
  rw [runTail, h]
  show (!(Y.takeWhile jsWs).isEmpty &&
    (r.isAlpha && gapTail Char.isAlpha t)) = false
  rw [hr, Bool.false_and, Bool.and_false]

theorem runTail_takeWhile_empty {Y : List Char}
    (h : (Y.takeWhile jsWs).isEmpty = true) : runTail Y = false := by
  rw [runTail, h]
  simp

theorem hasRun_append_nonws :
    ∀ {as X : List Char}, (∀ a ∈ as, jsWs a = false) →
      runTail X = false → hasRun X = false → hasRun (as ++ X) = false := by
  intro as
  induction as with
  | nil => intro X _ _ hX; exact hX
  | cons a as2 ih =>
    intro X hmem hrt hX
    rw [List.cons_append, hasRun]
    have hrt2 : runTail (as2 ++ X) = false := by
      cases has2 : as2 with
      | nil => rw [List.nil_append]; exact hrt
      | cons b bs =>
        apply runTail_head_false
        intro d t hdt
        rw [List.cons_append] at hdt
        injection hdt with h1 _
        rw [← h1]
        exact hmem b (by rw [has2]; simp)
    rw [hrt2, Bool.and_false, Bool.false_or]
    exact ih (fun x hx => hmem x (by simp [hx])) hrt hX

theorem repsFlat_length_ge :
    ∀ (ps : List (Char × List Char)) (rem : List Char),
      ps.length + rem.length ≤ (repsFlat ps rem).length := by
  intro ps
  induction ps with
  | nil => intro rem; simp [repsFlat]
  | cons p ps2 ih =>
    intro rem
    obtain ⟨a, w⟩ := p
    show ((a, w) :: ps2).length + rem.length ≤
      (a :: (w ++ repsFlat ps2 rem)).length
    rw [List.length_cons, List.length_cons, List.length_append]
    have := ih rem
    omega

theorem repsFlat_length_mem :
    ∀ {ps : List (Char × List Char)} (rem : List Char)
      {p : Char × List Char}, p ∈ ps →
      p.2.length + ps.length + rem.length ≤ (repsFlat ps rem).length := by
  intro ps
  induction ps with
  | nil => intro rem p hp; simp at hp
  | cons q ps2 ih =>
    intro rem p hp
    obtain ⟨a, w⟩ := q
    show p.2.length + ((a, w) :: ps2).length + rem.length ≤
      (a :: (w ++ repsFlat ps2 rem)).length
    rw [List.length_cons, List.length_cons, List.length_append]
    rcases List.mem_cons.mp hp with hp | hp
    · subst hp
      have h1 := repsFlat_length_ge ps2 rem
      have h2 : ((a, w) : Char × List Char).2.length = w.length := rfl
      omega
    · have := ih rem hp
      omega

theorem latinReps_nil_pairs :
    ∀ (fuel : Nat) (X : List Char) {rem : List Char},
      latinReps fuel X = ([], rem) → rem = X := by
  intro fuel X rem h
  cases fuel with
  | zero =>
    have h0 : (([], X) : List (Char × List Char) × List Char) = ([], rem) := h
    injection h0 with _ h1
    exact h1.symm
  | succ fuel =>
    match X with
    | [] =>
      have h0 : (([], []) : List (Char × List Char) × List Char) = ([], rem) := h
      injection h0 with _ h1
      exact h1.symm
    | c :: cs =>
      rw [latinReps_cons] at h
      by_cases ha : c.isAlpha = true
      · simp only [ha, if_true] at h
        by_cases hE : (cs.takeWhile jsWs).isEmpty = true
        · simp only [hE, if_true] at h
          injection h with _ h1
          exact h1.symm
        · rw [Bool.not_eq_true] at hE
          simp only [hE, Bool.false_eq_true, if_false] at h
          injection h with h1 _
          exact absurd h1 (by simp)
      · rw [Bool.not_eq_true] at ha
        simp only [ha, Bool.false_eq_true, if_false] at h
        injection h with _ h1
        exact h1.symm

theorem latinReps_rem_nonws :
    ∀ (fuel : Nat) (l : List Char) {ps : List (Char × List Char)}
      {rem : List Char}, latinReps fuel l = (ps, rem) → ps ≠ [] →
      ∀ r rest, rem = r :: rest → jsWs r = false := by
  intro fuel
  induction fuel with
  | zero =>
    intro l ps rem h hne r rest hr
    have h0 : (([], l) : List (Char × List Char) × List Char) = (ps, rem) := h
    injection h0 with h1 _
    exact absurd h1.symm hne
  | succ fuel ih =>
    intro l ps rem h hne r rest hr
    match l with
    | [] =>
      have h0 : (([], []) : List (Char × List Char) × List Char) = (ps, rem) := h
      injection h0 with h1 _
      exact absurd h1.symm hne
    | c :: cs =>
      rw [latinReps_cons] at h
      by_cases ha : c.isAlpha = true
      · simp only [ha, if_true] at h
        by_cases hE : (cs.takeWhile jsWs).isEmpty = true
        · simp only [hE, if_true] at h
          injection h with h1 _
          exact absurd h1.symm hne
        · rw [Bool.not_eq_true] at hE
          simp only [hE, Bool.false_eq_true, if_false] at h
          rcases hrec : latinReps fuel (cs.dropWhile jsWs) with ⟨ps2, rem2⟩
          simp only [hrec] at h
          injection h with h1 h2
          cases hps2 : ps2 with
          | nil =>
            rw [hps2] at hrec
            have hrem2 := latinReps_nil_pairs fuel (cs.dropWhile jsWs) hrec
            rw [← h2, hrem2] at hr
            exact dropWhile_head_false hr
          | cons q qs =>
            exact ih (cs.dropWhile jsWs) hrec (by rw [hps2]; simp) r rest
              (by rw [h2]; exact hr)
      · rw [Bool.not_eq_true] at ha
        simp only [ha, Bool.false_eq_true, if_false] at h
        injection h with h1 _
        exact absurd h1.symm hne

theorem latinReps_maximal :
    ∀ (fuel : Nat) (l : List Char), l.length ≤ fuel →
      ∀ {ps : List (Char × List Char)} {rem : List Char},
        latinReps fuel l = (ps, rem) →
        ∀ r rest, rem = r :: rest →
          r.isAlpha = false ∨ (rest.takeWhile jsWs).isEmpty = true := by
  intro fuel
  induction fuel with
  | zero =>
    intro l hlen ps rem h r rest hr
    have h0 : l = [] := List.length_eq_zero.mp (by omega)
    subst h0
    have h1 : (([], []) : List (Char × List Char) × List Char) = (ps, rem) := h
    injection h1 with _ h2
    rw [← h2] at hr
    exact absurd hr (by simp)
  | succ fuel ih =>
    intro l hlen ps rem h r rest hr
    match l with
    | [] =>
      have h1 : (([], []) : List (Char × List Char) × List Char) = (ps, rem) := h
      injection h1 with _ h2
      rw [← h2] at hr
      exact absurd hr (by simp)
    | c :: cs =>
      have hlen2 : cs.length ≤ fuel := by
        rw [List.length_cons] at hlen
        omega
      rw [latinReps_cons] at h
      by_cases ha : c.isAlpha = true
      · simp only [ha, if_true] at h
        by_cases hE : (cs.takeWhile jsWs).isEmpty = true
        · simp only [hE, if_true] at h
          injection h with _ h2
          rw [← h2] at hr
          injection hr with h3 h4
          right
          rw [← h4]
          exact hE
        · rw [Bool.not_eq_true] at hE
          simp only [hE, Bool.false_eq_true, if_false] at h
          rcases hrec : latinReps fuel (cs.dropWhile jsWs) with ⟨ps2, rem2⟩
          simp only [hrec] at h
          injection h with _ h2
          exact ih (cs.dropWhile jsWs)
            (le_trans (List.dropWhile_suffix jsWs).length_le hlen2) hrec
            r rest (by rw [h2]; exact hr)
      · rw [Bool.not_eq_true] at ha
        simp only [ha, Bool.false_eq_true, if_false] at h
        injection h with _ h2
        rw [← h2] at hr
        injection hr with h3 _
        left
        rw [← h3]
        exact ha

theorem latinReps_complete {fuel : Nat} {c : Char} {cs : List Char}
    {ps : List (Char × List Char)} {rem : List Char}
    (hc : c.isAlpha = true) (hrt : runTail cs = true) (hfuel : 2 ≤ fuel)
    (hlr : latinReps fuel (c :: cs) = (ps, rem)) :
    2 ≤ ps.length ∧
      ((∃ r rs, rem = r :: rs ∧ r.isAlpha = true) ∨ 3 ≤ ps.length) := by
  obtain ⟨f, rfl⟩ : ∃ f, fuel = f + 2 := ⟨fuel - 2, by omega⟩
  rw [runTail, Bool.and_eq_true] at hrt
  obtain ⟨hne, hmatch⟩ := hrt
  have hE1 : (cs.takeWhile jsWs).isEmpty = false := by
    cases hE : (cs.takeWhile jsWs).isEmpty with
    | false => rfl
    | true => rw [hE] at hne; exact absurd hne (by simp)
  cases hd : cs.dropWhile jsWs with
  | nil => rw [hd] at hmatch; exact absurd hmatch (by simp)
  | cons b cs2 =>
    rw [hd] at hmatch
    replace hmatch : (b.isAlpha && gapTail Char.isAlpha cs2) = true := hmatch
    rw [Bool.and_eq_true] at hmatch
    obtain ⟨hb, hgt⟩ := hmatch
    rw [latinReps_cons] at hlr
    simp only [hc, if_true, hE1, Bool.false_eq_true, if_false, hd] at hlr
    rw [gapTail, Bool.and_eq_true] at hgt
    obtain ⟨hne2, hmatch2⟩ := hgt
    have hE2 : (cs2.takeWhile jsWs).isEmpty = false := by
      cases hE : (cs2.takeWhile jsWs).isEmpty with
      | false => rfl
      | true => rw [hE] at hne2; exact absurd hne2 (by simp)
    cases hd2 : cs2.dropWhile jsWs with
    | nil => rw [hd2] at hmatch2; exact absurd hmatch2 (by simp)
    | cons a3 t3 =>
      rw [hd2] at hmatch2
      replace hmatch2 : a3.isAlpha = true := hmatch2
      rw [latinReps_cons] at hlr
      simp only [hb, if_true, hE2, Bool.false_eq_true, if_false, hd2] at hlr
      rcases hlr3 : latinReps f (a3 :: t3) with ⟨ps3, rem3⟩
      simp only [hlr3] at hlr
      injection hlr with h1 h2
      constructor
      · rw [← h1]
        simp
      · cases hps3 : ps3 with
        | cons q qs =>
          right
          rw [← h1, hps3]
          simp
        | nil =>
          left
          rw [hps3] at hlr3
          have hrem3 := latinReps_nil_pairs f (a3 :: t3) hlr3
          exact ⟨a3, t3, by rw [← h2, hrem3], hmatch2⟩

theorem collapseRuns_back_no_run {fuel : Nat} {c : Char} {cs rem : List Char}
    {ps : List (Char × List Char)}
    (hflat : c :: cs = repsFlat ps rem)
    (hprops : ∀ p ∈ ps, p.1.isAlpha = true ∧ p.2 ≠ [] ∧ p.2.all jsWs = true)
    (h3 : 3 ≤ ps.length)
    (hrem : rem = [] ∨
      ∃ r rest, rem = r :: rest ∧ jsWs r = false ∧ r.isAlpha = false)
    (hlen : (c :: cs).length ≤ fuel + 1)
    (ih : ∀ m : List Char, m.length ≤ fuel →
      hasRun (collapseRuns fuel m) = false) :
    hasRun (ps.map Prod.fst ++
      collapseRuns fuel ((ps.getLastD (Char.ofNat 97, [])).2 ++ rem)) =
      false := by
  rcases List.eq_nil_or_concat ps with h0 | ⟨qs, q, hq⟩
  · rw [h0] at h3
    simp at h3
  · obtain ⟨ak, wk⟩ := q
    rw [List.concat_eq_append] at hq
    have hwk := hprops (ak, wk) (by rw [hq]; simp)
    rw [hq, getLastD_append_singleton]
    apply hasRun_append_nonws
    · intro a ha
      rw [List.mem_map] at ha
      obtain ⟨p, hp, hpa⟩ := ha
      rw [← hpa]
      exact isAlpha_not_ws (hprops p (by rw [hq]; exact hp)).1
    · have hdw : (wk ++ rem).dropWhile jsWs = rem.dropWhile jsWs :=
        dropWhile_append_all hwk.2.2
      rcases hrem with hrem | ⟨r, rest, hrem, hrws, hral⟩
      · have hdw2 : (wk ++ rem).dropWhile jsWs = [] := by
          rw [hdw, hrem]
          rfl
        rcases wsRel_dropWhile (wsRel_collapseRuns fuel (wk ++ rem)) with
          ⟨hh1, hh2⟩ | ⟨c2, t, u, hc2, hl1, hr1, h5⟩
        · exact runTail_drop_nil hh2
        · rw [hdw2] at hl1
          exact absurd hl1 (by simp)
      · have hdw2 : (wk ++ rem).dropWhile jsWs = r :: rest := by
          rw [hdw, hrem]
          exact List.dropWhile_cons_of_neg (by rw [hrws]; simp)
        rcases wsRel_dropWhile (wsRel_collapseRuns fuel (wk ++ rem)) with
          ⟨hh1, hh2⟩ | ⟨c2, t, u, hc2, hl1, hr1, h5⟩
        · rw [hdw2] at hh1
          exact absurd hh1 (by simp)
        · rw [hdw2] at hl1
          injection hl1 with h5 _
          exact runTail_drop_nonalpha hr1 (by rw [← h5]; exact hral)
    · apply ih
      have hmem := @repsFlat_length_mem ps rem (ak, wk) (by rw [hq]; simp)
      have h6 : (c :: cs).length = (repsFlat ps rem).length := by rw [hflat]
      have h7 : ((ak, wk) : Char × List Char).2.length = wk.length := rfl
      rw [List.length_append]
      omega

theorem collapseRuns_no_run :
    ∀ (fuel : Nat) (l : List Char), l.length ≤ fuel →
      hasRun (collapseRuns fuel l) = false := by
  intro fuel
  induction fuel with
  | zero =>
    intro l hlen
    have h0 : l = [] := List.length_eq_zero.mp (by omega)
    subst h0
    rfl
  | succ fuel ih =>
    intro l hlen
    match l with
    | [] => rfl
    | c :: cs =>
      have hlen2 : cs.length ≤ fuel := by
        rw [List.length_cons] at hlen
        omega
      rw [collapseRuns_cons]
      rcases hlr : latinReps (c :: cs).length (c :: cs) with ⟨ps, rem⟩
      obtain ⟨hflat, hprops⟩ := latinReps_spec (c :: cs).length (c :: cs) hlr
      simp only [hlr]
      cases rem with
      | nil =>
        show hasRun (if decide (3 ≤ ps.length) = true then
            ps.map Prod.fst ++
              collapseRuns fuel ((ps.getLastD (Char.ofNat 97, [])).2 ++ [])
          else c :: collapseRuns fuel cs) = false
        by_cases h3 : decide (3 ≤ ps.length) = true
        · rw [if_pos h3]
          rw [decide_eq_true_eq] at h3
          exact collapseRuns_back_no_run hflat hprops h3 (Or.inl rfl) hlen ih
        · rw [if_neg h3]
          rw [hasRun, ih cs hlen2, Bool.or_false]
          cases hca : c.isAlpha with
          | false => rfl
          | true =>
            cases hrtX : runTail (collapseRuns fuel cs) with
            | false => rfl
            | true =>
              exfalso
              have hrt2 : runTail cs = true :=
                runTail_transfer (wsRel_collapseRuns fuel cs) hrtX
              have hfuel2 : 2 ≤ (c :: cs).length := by
                cases cs with
                | nil =>
                  rw [show runTail ([] : List Char) = false from rfl] at hrt2
                  exact absurd hrt2 (by simp)
                | cons d ds =>
                  rw [List.length_cons, List.length_cons]
                  omega
              obtain ⟨hp2, hp3⟩ := latinReps_complete hca hrt2 hfuel2 hlr
              rcases hp3 with ⟨r2, rs, hrr, hra⟩ | hp3
              · exact absurd hrr (by simp)
              · rw [Bool.not_eq_true] at h3
                exact absurd hp3 (of_decide_eq_false h3)
      | cons r rest =>
        show hasRun (if (r.isAlpha && decide (2 ≤ ps.length)) = true then
            ps.map Prod.fst ++ r :: collapseRuns fuel rest
          else if decide (3 ≤ ps.length) = true then
            ps.map Prod.fst ++
              collapseRuns fuel
                ((ps.getLastD (Char.ofNat 97, [])).2 ++ r :: rest)
          else c :: collapseRuns fuel cs) = false
        by_cases h2 : (r.isAlpha && decide (2 ≤ ps.length)) = true
        · rw [if_pos h2]
          rw [Bool.and_eq_true, decide_eq_true_eq] at h2
          obtain ⟨h2a, h2b⟩ := h2
          apply hasRun_append_nonws
          · intro a ha
            rw [List.mem_map] at ha
            obtain ⟨p, hp, hpa⟩ := ha
            rw [← hpa]
            exact isAlpha_not_ws (hprops p hp).1
          · apply runTail_head_false
            intro d t hdt
            injection hdt with h5 _
            rw [← h5]
            exact isAlpha_not_ws h2a
          · have hrest : rest.length ≤ fuel := by
              have h6 : (c :: cs).length = (repsFlat ps (r :: rest)).length := by
                rw [hflat]
              have h7 := repsFlat_length_ge ps (r :: rest)
              rw [List.length_cons] at h7
              rw [List.length_cons] at h6
              rw [List.length_cons] at hlen
              omega
            rw [hasRun, ih rest hrest, Bool.or_false]
            have hmax := latinReps_maximal (c :: cs).length (c :: cs)
              (le_refl _) hlr r rest rfl
            rcases hmax with hmax | hmax
            · exact absurd h2a (by rw [hmax]; simp)
            · cases hrtX : runTail (collapseRuns fuel rest) with
              | false => rw [Bool.and_false]
              | true =>
                exfalso
                have h8 := runTail_transfer (wsRel_collapseRuns fuel rest) hrtX
                rw [runTail_takeWhile_empty hmax] at h8
                exact absurd h8 (by simp)
        · rw [if_neg h2]
          by_cases h3 : decide (3 ≤ ps.length) = true
          · rw [if_pos h3]
            rw [decide_eq_true_eq] at h3
            have hral : r.isAlpha = false := by
              cases hra : r.isAlpha with
              | false => rfl
              | true =>
                exfalso
                apply h2
                rw [hra, Bool.true_and, decide_eq_true_eq]
                omega
            have hrws : jsWs r = false :=
              latinReps_rem_nonws (c :: cs).length (c :: cs) hlr
                (by intro h0; rw [h0] at h3; simp at h3) r rest rfl
            exact collapseRuns_back_no_run hflat hprops h3
              (Or.inr ⟨r, rest, rfl, hrws, hral⟩) hlen ih
          · rw [if_neg h3]
            rw [hasRun, ih cs hlen2, Bool.or_false]
            cases hca : c.isAlpha with
            | false => rfl
            | true =>
              cases hrtX : runTail (collapseRuns fuel cs) with
              | false => rfl
              | true =>
                exfalso
                have hrt2 : runTail cs = true :=
                  runTail_transfer (wsRel_collapseRuns fuel cs) hrtX
                have hfuel2 : 2 ≤ (c :: cs).length := by
                  cases cs with
                  | nil =>
                    rw [show runTail ([] : List Char) = false from rfl] at hrt2
                    exact absurd hrt2 (by simp)
                  | cons d ds =>
                    rw [List.length_cons, List.length_cons]
                    omega
                obtain ⟨hp2, hp3⟩ := latinReps_complete hca hrt2 hfuel2 hlr
                rcases hp3 with ⟨r2, rs, hrr, hra⟩ | hp3
                · injection hrr with h8 _
                  apply h2
                  rw [← h8] at hra
                  rw [hra, Bool.true_and, decide_eq_true_eq]
                  exact hp2
                · rw [Bool.not_eq_true] at h3
                  exact absurd hp3 (of_decide_eq_false h3)

theorem hasRun_pres {a b : List Char} (hrel : WsRel a b)
    (ha : hasRun a = false) : hasRun b = false := by
  cases hb : hasRun b with
  | false => rfl
  | true => exact absurd (hasRun_transfer hrel hb) (by rw [ha]; simp)

theorem hasGap_pres {L R : Char → Bool}
    (hL : ∀ c, L c = true → jsWs c = false) {a b : List Char}
    (hrel : WsRel a b) (ha : hasGap L R a = false) : hasGap L R b = false := by
  cases hb : hasGap L R b with
  | false => rfl
  | true => exact absurd (hasGap_transfer hL hrel hb) (by rw [ha]; simp)

theorem pClose_pres {a b : List Char} (hrel : WsRel a b)
    (ha : hasPair pClose a = false) : hasPair pClose b = false := by
  cases hb : hasPair pClose b with
  | false => rfl
  | true => exact absurd (pClose_transfer hrel hb) (by rw [ha]; simp)

theorem pOpen_pres {a b : List Char} (hrel : WsRel a b)
    (ha : hasPair pOpen a = false) : hasPair pOpen b = false := by
  cases hb : hasPair pOpen b with
  | false => rfl
  | true => exact absurd (pOpen_transfer hrel hb) (by rw [ha]; simp)

theorem cleanNF_cleanupL (l : List Char) : cleanNF (cleanupL l) = true := by
  rw [cleanupL]
  set l1 := stepLatin l with hl1
  set l2 := stepDigits l1 with hl2
  set l3 := stepPunct l2 with hl3
  set l4 := stepClose l3 with hl4
  set l5 := stepOpen l4 with hl5
  set l6 := stepBnZwj l5 with hl6
  set l7 := stepZwjBn l6 with hl7
  set l8 := stepHT l7 with hl8
  set l9 := stepNlTrim l8 with hl9
  set l10 := stepNlDedup l9 with ha
  have w12 : WsRel l1 l2 := wsRel_delGap Char.isDigit Char.isDigit l1.length l1
  have w23 : WsRel l2 l3 := wsRel_delGap isAlnum isPunctCS l2.length l2
  have w34 : WsRel l3 l4 := wsRel_delWsClose l3.length l3
  have w45 : WsRel l4 l5 := wsRel_delWsOpen l4.length l4
  have w56 : WsRel l5 l6 := wsRel_delGap isBangla isZwj l5.length l5
  have w67 : WsRel l6 l7 := wsRel_delGap isZwj isBangla l6.length l6
  have w78 : WsRel l7 l8 := wsRel_collapseHT l7.length l7
  have w89 : WsRel l8 l9 := wsRel_trimNlRuns l8.length l8
  have w90 : WsRel l9 l10 := wsRel_collapseNl l9.length l9
  have fRun : hasRun l10 = false :=
    hasRun_pres w90 (hasRun_pres w89 (hasRun_pres w78 (hasRun_pres w67
      (hasRun_pres w56 (hasRun_pres w45 (hasRun_pres w34 (hasRun_pres w23
        (hasRun_pres w12 (collapseRuns_no_run l.length l (le_refl _))))))))))
  have fDD : hasGap Char.isDigit Char.isDigit l10 = false :=
    hasGap_pres (fun c hh => isDigit_not_ws hh) w90 (hasGap_pres (fun c hh => isDigit_not_ws hh) w89
      (hasGap_pres (fun c hh => isDigit_not_ws hh) w78 (hasGap_pres (fun c hh => isDigit_not_ws hh) w67
        (hasGap_pres (fun c hh => isDigit_not_ws hh) w56 (hasGap_pres (fun c hh => isDigit_not_ws hh) w45
          (hasGap_pres (fun c hh => isDigit_not_ws hh) w34 (hasGap_pres (fun c hh => isDigit_not_ws hh) w23
            (delGap_no_gap Char.isDigit Char.isDigit (fun c hh => isDigit_not_ws hh)
              l1.length l1 (le_refl _)))))))))
  have fAP : hasGap isAlnum isPunctCS l10 = false :=
    hasGap_pres (fun c hh => isAlnum_not_ws hh) w90 (hasGap_pres (fun c hh => isAlnum_not_ws hh) w89
      (hasGap_pres (fun c hh => isAlnum_not_ws hh) w78 (hasGap_pres (fun c hh => isAlnum_not_ws hh) w67
        (hasGap_pres (fun c hh => isAlnum_not_ws hh) w56 (hasGap_pres (fun c hh => isAlnum_not_ws hh) w45
          (hasGap_pres (fun c hh => isAlnum_not_ws hh) w34
            (delGap_no_gap isAlnum isPunctCS (fun c hh => isPunctCS_not_ws hh)
              l2.length l2 (le_refl _))))))))
  have fClose : hasPair pClose l10 = false :=
    pClose_pres w90 (pClose_pres w89 (pClose_pres w78 (pClose_pres w67
      (pClose_pres w56 (pClose_pres w45
        (delWsClose_no_close l3.length l3 (le_refl _)))))))
  have fOpen : hasPair pOpen l10 = false :=
    pOpen_pres w90 (pOpen_pres w89 (pOpen_pres w78 (pOpen_pres w67
      (pOpen_pres w56 (delWsOpen_no_open l4.length l4 (le_refl _))))))
  have fBZ : hasGap isBangla isZwj l10 = false :=
    hasGap_pres (fun c hh => isBangla_not_ws hh) w90 (hasGap_pres (fun c hh => isBangla_not_ws hh) w89
      (hasGap_pres (fun c hh => isBangla_not_ws hh) w78 (hasGap_pres (fun c hh => isBangla_not_ws hh) w67
        (delGap_no_gap isBangla isZwj (fun c hh => isZwj_not_ws hh) l5.length l5 (le_refl _)))))
  have fZB : hasGap isZwj isBangla l10 = false :=
    hasGap_pres (fun c hh => isZwj_not_ws hh) w90 (hasGap_pres (fun c hh => isZwj_not_ws hh) w89
      (hasGap_pres (fun c hh => isZwj_not_ws hh) w78
        (delGap_no_gap isZwj isBangla (fun c hh => isBangla_not_ws hh)
          l6.length l6 (le_refl _))))
  have fTab : l10.any (fun c => c == '\t') = false :=
    collapseNl_tab_pres l9.length l9 (trimNlRuns_tab_pres l8.length l8
      (collapseHT_no_tab l7.length l7 (le_refl _)))
  have fHH : hasPair pHH l10 = false :=
    collapseNl_pHH_pres l9.length l9 (trimNlRuns_pHH_pres l8.length l8
      (collapseHT_no_pHH l7.length l7 (le_refl _)))
  have fHTNl : hasPair pHTNl l10 = false :=
    collapseNl_pHTNl_pres l9.length l9
      (trimNlRuns_no_pHTNl l8.length l8 (le_refl _))
  have fNlNl : hasPair pNlNl l10 = false :=
    collapseNl_no_pNlNl l9.length l9 (le_refl _)
  rw [cleanNF, fRun, fDD, fAP, fClose, fOpen, fBZ, fZB, fTab, fHH, fHTNl,
    fNlNl]
  rfl

theorem cleanupL_id_of_NF {l : List Char} (h : cleanNF l = true) :
    cleanupL l = l := by
  rw [cleanNF] at h
  simp only [Bool.and_eq_true, Bool.not_eq_true'] at h
  obtain ⟨⟨⟨⟨⟨⟨⟨⟨⟨⟨hRun, hDD⟩, hAP⟩, hClose⟩, hOpen⟩, hBZ⟩, hZB⟩, hTab⟩,
    hHH⟩, hHTNl⟩, hNlNl⟩ := h
  rw [cleanupL]
  rw [show stepLatin l = l from collapseRuns_id l.length l hRun]
  rw [show stepDigits l = l from
    delGap_id Char.isDigit Char.isDigit l.length l hDD]
  rw [show stepPunct l = l from delGap_id isAlnum isPunctCS l.length l hAP]
  rw [show stepClose l = l from delWsClose_id l.length l hClose]
  rw [show stepOpen l = l from delWsOpen_id l.length l hOpen]
  rw [show stepBnZwj l = l from delGap_id isBangla isZwj l.length l hBZ]
  rw [show stepZwjBn l = l from delGap_id isZwj isBangla l.length l hZB]
  rw [show stepHT l = l from collapseHT_id l.length l hTab hHH]
  rw [show stepNlTrim l = l from trimNlRuns_id l.length l hHTNl]
  rw [show stepNlDedup l = l from collapseNl_id l.length l hNlNl]

theorem cleanupL_idem (l : List Char) :
    cleanupL (cleanupL l) = cleanupL l :=
  cleanupL_id_of_NF (cleanNF_cleanupL l)

theorem data_mk (l : List Char) : (String.mk l).data = l := rfl

theorem cleanupPage_idem (s : String) :
    cleanupPage (cleanupPage s) = cleanupPage s := by
  rw [cleanupPage, cleanupPage, data_mk, cleanupL_idem]

/-- C9: the page-text normalization pipeline of the `POST` handler
(`route.ts` lines 109–128: NFC composition followed by the ten
global-replace cleanup rules — spaced-Latin-run collapsing, digit-gap
removal, punctuation spacing, whitespace removal around parentheses,
Bangla/zero-width-joiner fixes, horizontal-whitespace collapsing,
line-break trimming and deduplication) is idempotent: normalizing an
already-normalized page returns it unchanged. The JS built-in
`String.prototype.normalize("NFC")` is treated abstractly as a function
`nfc`; the hypothesis records the Unicode stability fact that NFC fixes
the cleanup's output on NFC input (the cleanup only deletes or rewrites
whitespace, which composes with nothing). -/
theorem C9_normalize_idempotent (nfc : String → String)
    (hnfc : ∀ y, nfc (cleanupPage (nfc y)) = cleanupPage (nfc y))
    (x : String) :
    cleanupPage (nfc (cleanupPage (nfc x))) = cleanupPage (nfc x) := by
  rw [hnfc x]
  exact cleanupPage_idem (nfc x)

theorem C9_witness :
    (∀ y : String, id (cleanupPage (id y)) = cleanupPage (id y)) ∧
      cleanupPage (id (cleanupPage (id "Invoice  To :  J o h n  D o e \n\n\t ৳ 9 7 0 )"))) =
        cleanupPage (id "Invoice  To :  J o h n  D o e \n\n\t ৳ 9 7 0 )") :=
  ⟨fun y => rfl, C9_normalize_idempotent id (fun y => rfl)
    "Invoice  To :  J o h n  D o e \n\n\t ৳ 9 7 0 )"⟩
